import Mathlib

/-!
# esquerydsl: the query document model and its JSON encoder

A shallow embedding of `esquerydsl.go`.

Conventions of the embedding:

* A Go `string` is a Lean `String` (a sequence of code points); the reserved tokens of the
  sanitizer are ASCII, so replacing them code point by code point and byte by byte agree on
  valid UTF-8.
* A Go `int` is an `Int`; the encoder performs no arithmetic on it.
* A function that returns `(T, error)` or may panic returns `Except Failure T`: a returned
  `*QueryTypeErr` and a run-time panic are the two kinds of failure, kept apart.
* `encoding/json` is modelled by the tree type `Json` and its compact text `Json.render`.
  A struct is written field by field in declaration order under its tags, a map with its keys
  sorted, and `omitempty` drops a zero number, a false boolean and an empty slice or map.
  The encoders below return the tree; the bytes Go returns are its `render`.
* An error that a `MarshalJSON` method returns reaches the caller of `json.Marshal` wrapped in
  a `*json.MarshalerError`; the embedding keeps the error inside, the one `errors.As` finds.
* `strings.ToLower` is a parameter `toLower` of the functions that reach it.
-/

namespace esquerydsl

/-! ## Failures -/

/-- A run-time panic of the Go program. -/
inductive Panic where
  /-- Indexing an array or slice outside its bounds. -/
  | indexOutOfRange (index : Int) (length : Nat)
  /-- A type assertion `x.(T)` on a value that does not hold a `T`. -/
  | interfaceConversion
  deriving DecidableEq, Repr

/-- QueryType is the enum of query kinds: a Go `int`. -/
abbrev QueryType := Int

/-- The ways a call can fail: the error value `&QueryTypeErr{typeVal}`, or a panic. -/
inductive Failure where
  | QueryTypeErr (typeVal : QueryType)
  | goPanic (p : Panic)
  deriving DecidableEq, Repr

/-! ## The QueryType registry -/

def Match : QueryType := 0
def Term : QueryType := 1
def Terms : QueryType := 2
def Cardinality : QueryType := 3
def Max : QueryType := 4
def Wildcard : QueryType := 5
def Range : QueryType := 6
def Exists : QueryType := 7
def QueryString : QueryType := 8
def Nested : QueryType := 9
def RegexP : QueryType := 10

/-- The token table of `QueryType.String`. -/
def convs : List String :=
  ["match", "term", "terms", "cardinality", "max", "wildcard", "range", "exists",
   "query_string", "nested", "regexp"]

/-- The method `(qt QueryType) String() (string, error)`: the guard `int(qt) > len(convs)`, then
the array access `convs[qt]`, which panics outside `0 ≤ qt < len(convs)`. -/
def QueryType.String (qt : QueryType) : Except Failure String :=
  if qt > (convs.length : Int) then .error (.QueryTypeErr qt)
  else if qt < 0 then .error (.goPanic (.indexOutOfRange qt convs.length))
  else match convs[qt.toNat]? with
    | some s => .ok s
    | none => .error (.goPanic (.indexOutOfRange qt convs.length))

/-- A call site `tok, _ := t.String()`: the error is dropped and the token is then the empty
string; a panic is not an error value and still unwinds. -/
def stringIgnoringErr (qt : QueryType) : Except Failure String :=
  match QueryType.String qt with
  | .ok s => .ok s
  | .error (.QueryTypeErr _) => .ok ""
  | .error (.goPanic p) => .error (.goPanic p)

/-! ## JSON trees and their compact text -/

/-- A JSON value as `encoding/json` writes it; the members of an object are in output order. -/
inductive Json where
  | null
  | bool (b : Bool)
  | num (n : Int)
  | str (s : String)
  | arr (xs : List Json)
  | obj (kvs : List (String × Json))
  deriving Repr

/-- Lower-case hexadecimal digit. -/
def hexDigit (n : Nat) : Char :=
  "0123456789abcdef".data.getD n '0'

/-- The escape of one code point inside a JSON string, as `json.Marshal` writes it (HTML escaping
on): the quote and the backslash get a backslash, the control characters their short or
`\u00XX` form, `<`, `>`, `&` and U+2028, U+2029 their `\uXXXX` form, everything else is copied. -/
def escapeChar (c : Char) : List Char :=
  if c = '\x22' then ['\\', '\x22']
  else if c = '\\' then ['\\', '\\']
  else if c = '\n' then ['\\', 'n']
  else if c = '\r' then ['\\', 'r']
  else if c = '\t' then ['\\', 't']
  else if c.toNat = 8 then ['\\', 'b']
  else if c.toNat = 12 then ['\\', 'f']
  else if c.toNat < 32 ∨ c = '<' ∨ c = '>' ∨ c = '&' then
    ['\\', 'u', '0', '0', hexDigit (c.toNat / 16), hexDigit (c.toNat % 16)]
  else if c.toNat = 0x2028 then ['\\', 'u', '2', '0', '2', '8']
  else if c.toNat = 0x2029 then ['\\', 'u', '2', '0', '2', '9']
  else [c]

def escapeChars : List Char → List Char
  | [] => []
  | c :: cs => escapeChar c ++ escapeChars cs

/-- A JSON string literal. -/
def quote (s : String) : String :=
  ⟨'\x22' :: (escapeChars s.data ++ ['\x22'])⟩

mutual
/-- The compact text of a JSON value. -/
def Json.render : Json → String
  | .null => "null"
  | .bool true => "true"
  | .bool false => "false"
  | .num n => toString n
  | .str s => quote s
  | .arr xs => "[" ++ renderElems xs ++ "]"
  | .obj kvs => "\x7b" ++ renderMembers kvs ++ "\x7d"
/-- The elements of an array, comma separated. -/
def renderElems : List Json → String
  | [] => ""
  | [x] => x.render
  | x :: y :: rest => x.render ++ "," ++ renderElems (y :: rest)
/-- The members of an object, comma separated. -/
def renderMembers : List (String × Json) → String
  | [] => ""
  | [(k, v)] => quote k ++ ":" ++ v.render
  | (k, v) :: m :: rest => quote k ++ ":" ++ v.render ++ "," ++ renderMembers (m :: rest)
end

/-- The keys of an object in output order; empty for any other value. -/
def Json.keys : Json → List String
  | .obj kvs => kvs.map Prod.fst
  | _ => []

/-- The value under a key of an object. -/
def Json.get? (j : Json) (k : String) : Option Json :=
  match j with
  | .obj kvs => (kvs.find? (fun kv => kv.1 == k)).map Prod.snd
  | _ => none

/-! ## Go maps and plain values -/

/-- Byte order of two keys, the order in which `encoding/json` writes the keys of a map. -/
def keyLess : List Char → List Char → Bool
  | [], [] => false
  | [], _ :: _ => true
  | _ :: _, [] => false
  | a :: as, b :: bs =>
    if a.toNat < b.toNat then true
    else if b.toNat < a.toNat then false
    else keyLess as bs

def insertByKey {α : Type} (kv : String × α) : List (String × α) → List (String × α)
  | [] => [kv]
  | x :: rest => if keyLess kv.1.data x.1.data then kv :: x :: rest else x :: insertByKey kv rest

/-- The entries of a map in ascending key order. -/
def sortByKey {α : Type} : List (String × α) → List (String × α)
  | [] => []
  | kv :: rest => insertByKey kv (sortByKey rest)

/-- The assignment `m[k] = v` on a map kept as an association list with distinct keys. -/
def mapSet {α : Type} (m : List (String × α)) (k : String) (v : α) : List (String × α) :=
  match m with
  | [] => [(k, v)]
  | (k0, v0) :: rest => if k0 = k then (k, v) :: rest else (k0, v0) :: mapSet rest k v

/-- A map literal `map[string]T{k1: v1, ...}` built entry by entry. -/
def mapLit {α : Type} (entries : List (String × α)) : List (String × α) :=
  entries.foldl (fun m kv => mapSet m kv.1 kv.2) []

/-- The Go values an `interface{}` can hold, besides a QueryDoc: strings, ints, booleans, nil,
slices and string-keyed maps of these. -/
inductive Data where
  | str (s : String)
  | int (n : Int)
  | bool (b : Bool)
  | nil
  | slice (xs : List Data)
  | map (m : List (String × Data))
  deriving Repr

mutual
/-- The encoding `json.Marshal` gives a plain value; a map is written in key order (an
association list with a repeated key stands for the map its assignments build). -/
def Data.marshal : Data → Json
  | .str s => .str s
  | .int n => .num n
  | .bool b => .bool b
  | .nil => .null
  | .slice xs => .arr (marshalSlice xs)
  | .map m => .obj (sortByKey (mapLit (marshalEntries m)))
def marshalSlice : List Data → List Json
  | [] => []
  | x :: xs => x.marshal :: marshalSlice xs
def marshalEntries : List (String × Data) → List (String × Json)
  | [] => []
  | (k, v) :: rest => (k, v.marshal) :: marshalEntries rest
end

/-! ## The data model -/

/-- Aggregation: the struct of the same name; the pointer fields are options. The field `Type`
of the source is `Type_` here, and `Sort` is `Sort_` (both words are reserved in Lean). -/
structure Aggregation where
  Type_ : QueryType
  Name : String
  Field : String
  Size : Option Int
  Order : Option (List (String × String))
  deriving Repr

/-- QueryItem over the type of its `Value interface{}`. -/
structure QueryItemOf (V : Type) where
  Field : String
  Value : V
  Type_ : QueryType

/-- QueryDoc over the type of the values of its items. -/
structure QueryDocOf (V : Type) where
  Index : String
  Size : Int
  From : Int
  Sort_ : List (List (String × String))
  SearchAfter : List String
  And : List (QueryItemOf V)
  Not : List (QueryItemOf V)
  Or : List (QueryItemOf V)
  Filter : List (QueryItemOf V)
  PageSize : Int
  TrackTotalHits : Bool
  MinimumShouldMatch : Int
  TermsAggregations : List Aggregation
  CardinalityAggregations : List Aggregation
  Source : List String

/-- What `QueryItem.Value` holds: a plain value or a QueryDoc. -/
inductive Value where
  | data (v : Data)
  | doc (d : QueryDocOf Value)

abbrev QueryItem := QueryItemOf Value
abbrev QueryDoc := QueryDocOf Value

/-- A text value, the dynamic type `string`. -/
abbrev Value.text (s : String) : Value := .data (.str s)

/-- The zero value `QueryDoc{}`. -/
def QueryDoc.zero : QueryDoc :=
  { Index := "", Size := 0, From := 0, Sort_ := [], SearchAfter := [], And := [], Not := [],
    Or := [], Filter := [], PageSize := 0, TrackTotalHits := false, MinimumShouldMatch := 0,
    TermsAggregations := [], CardinalityAggregations := [], Source := [] }

/-- A `map[string]string` as a plain value. The list stands for a map that is not nil, the
empty list for the empty map, written as an empty object; a nil map, which `json.Marshal` writes
as `null`, has no counterpart among the entries of `Sort_` and in `Order`. -/
def strMap (m : List (String × String)) : Data :=
  .map (m.map (fun kv => (kv.1, Data.str kv.2)))

/-- A `[]string` as a JSON array. -/
def strArr (xs : List String) : Json :=
  .arr (xs.map Json.str)

/-! ## The field sanitizer -/

/-- The function `strings.Contains` on code points. -/
def containsChars (sub : List Char) : List Char → Bool
  | [] => sub.isPrefixOf []
  | c :: cs => sub.isPrefixOf (c :: cs) || containsChars sub cs

def strings_Contains (s substr : String) : Bool :=
  containsChars substr.data s.data

/-- The function `strings.ReplaceAll` on code points: the occurrences of `old` are taken
leftmost first and do not overlap. The counter is the number of code points of the occurrence
just replaced that are still to be skipped. -/
def replaceAllChars (old new : List Char) : Nat → List Char → List Char
  | _, [] => if old.isEmpty then new else []
  | k + 1, _ :: cs => replaceAllChars old new k cs
  | 0, c :: cs =>
    if old.isEmpty then new ++ c :: replaceAllChars old new 0 cs
    else if old.isPrefixOf (c :: cs) then new ++ replaceAllChars old new (old.length - 1) cs
    else c :: replaceAllChars old new 0 cs

def strings_ReplaceAll (s old new : String) : String :=
  ⟨replaceAllChars old.data new.data 0 s.data⟩

/-- The reserved tokens, in the order of the source. -/
def reserved : List String :=
  ["\\", "+", "=", "&&", "||", "!", "(", ")", "\x7b", "\x7d", "[", "]", "^", "\"", "~", "*", "?",
   ":", "/"]

/-- The function `sanitizeElasticQueryField`: one global replace per reserved token, in order. -/
def sanitizeElasticQueryField (keyword : String) : String :=
  reserved.foldl
    (fun sanitizedKeyword char =>
      if strings_Contains sanitizedKeyword char then
        strings_ReplaceAll sanitizedKeyword char ("\\" ++ char)
      else sanitizedKeyword)
    keyword

/-! ## Building nested items -/

/-- The function `WrapQueryItems`. -/
def WrapQueryItems (toLower : String → String) (itemType : String) (items : List QueryItem) :
    QueryItem :=
  let queryDoc : QueryDoc :=
    if toLower itemType = "or" then { QueryDoc.zero with Or := items }
    else if toLower itemType = "not" then { QueryDoc.zero with Not := items }
    else if toLower itemType = "filter" then { QueryDoc.zero with Filter := items }
    else { QueryDoc.zero with And := items }
  { Field := "", Value := .doc queryDoc, Type_ := Nested }

/-! ## Leaves -/

/-- The struct `leafQuery`. -/
structure leafQuery where
  Type_ : QueryType
  Name : String
  Value : Value

/-- The encoding of a map literal whose values are already encoded. -/
def marshalMap (entries : List (String × Json)) : Json :=
  .obj (sortByKey (mapLit entries))

/-- The method `handleMarshalQueryString`; the assertion `q.Value.(string)` is unchecked. -/
def leafQuery.handleMarshalQueryString (q : leafQuery) (queryType : String) :
    Except Failure Json :=
  match q.Value with
  | .data (.str s) =>
    .ok (marshalMap [(queryType, marshalMap [
      ("fields", strArr [q.Name]),
      ("query", .str (sanitizeElasticQueryField s)),
      ("analyze_wildcard", .bool true)])])
  | _ => .error (.goPanic .interfaceConversion)

/-- The method `handleMarshalType`. The last argument is `json.Marshal(q.Value)`, the encoding
of the value that the map `result` holds under `q.Name`. -/
def leafQuery.handleMarshalType (toLower : String → String) (q : leafQuery) (queryType : String)
    (encodedValue : Except Failure Json) : Except Failure Json :=
  let result : Except Failure Json := do
    let v ← encodedValue
    pure (marshalMap [(queryType, marshalMap [(q.Name, v)])])
  let result : Except Failure Json :=
    if q.Type_ = Wildcard then
      match q.Value with
      | .data (.str s) =>
        pure (marshalMap [(queryType, marshalMap [(q.Name, marshalMap [
          ("value", .str (toLower s)),
          ("case_insensitive", .bool true)])])])
      | _ => result
    else result
  if q.Type_ = QueryString then q.handleMarshalQueryString queryType
  else result

/-! ## Aggregations -/

/-- The function `constructTermsAggregations`; `none` is the nil map. -/
def constructTermsAggregations : List Aggregation → Except Failure (Option (List (String × Data)))
  | [] => .ok none
  | agg :: rest => do
    let aggType : List (String × Data) := mapLit [("field", .str agg.Field)]
    let aggType := match agg.Size with
      | some size => mapSet aggType "size" (.int size)
      | none => aggType
    let aggType := match agg.Order with
      | some order => mapSet aggType "order" (strMap order)
      | none => aggType
    let aggTypeKey ← stringIgnoringErr agg.Type_
    let aggTempMap : List (String × Data) := mapLit [(aggTypeKey, .map aggType)]
    if rest.length + 1 > 1 then
      let inner ← constructTermsAggregations rest
      let aggTempMap := mapSet aggTempMap "aggregations"
        (match inner with | some m => .map m | none => .nil)
      pure (some (mapLit [(agg.Name, .map aggTempMap)]))
    else
      pure (some (mapLit [(agg.Name, .map aggTempMap)]))

/-- The loop of `constructAggregations` over the cardinality aggregations. -/
def addCardinalityAggregations :
    List Aggregation → List (String × Data) → Except Failure (List (String × Data))
  | [], aggregationMap => .ok aggregationMap
  | cardinalityAggregation :: rest, aggregationMap => do
    let aggType ← stringIgnoringErr cardinalityAggregation.Type_
    let fieldAggMap := strMap (mapLit [("field", cardinalityAggregation.Field)])
    addCardinalityAggregations rest
      (mapSet aggregationMap cardinalityAggregation.Name (.map (mapLit [(aggType, fieldAggMap)])))

/-- The function `constructAggregations`. -/
def constructAggregations (query : QueryDoc) :
    Except Failure (Option (List (String × Data))) := do
  let aggregationMap ← constructTermsAggregations query.TermsAggregations
  match aggregationMap with
  | some m => do
    let m ← addCardinalityAggregations query.CardinalityAggregations m
    pure (some m)
  | none => pure none

/-! ## The encoder -/

/-- A slice field tagged `omitempty`. -/
def omitEmptyList (key : String) (xs : List Json) : List (String × Json) :=
  if xs.isEmpty then [] else [(key, .arr xs)]

/-- An int field tagged `omitempty`. -/
def omitZero (key : String) (n : Int) : List (String × Json) :=
  if n = 0 then [] else [(key, .num n)]

/-- A bool field tagged `omitempty`. -/
def omitFalse (key : String) (b : Bool) : List (String × Json) :=
  if b then [(key, .bool true)] else []

/-- A map field tagged `omitempty`. -/
def omitEmptyMap (key : String) (m : Option (List (String × Data))) : List (String × Json) :=
  match m with
  | none => []
  | some [] => []
  | some (kv :: rest) => [(key, Data.marshal (.map (kv :: rest)))]

/-- The struct `boolWrap`. -/
structure boolWrap where
  AndList : List leafQuery
  NotList : List leafQuery
  OrList : List leafQuery
  FilterList : List leafQuery
  MinimumShouldMatch : Int

/-- The struct `queryWrap`. -/
structure queryWrap where
  Bool : boolWrap

/-- The struct `queryReqDoc`. -/
structure queryReqDoc where
  Aggregations : Option (List (String × Data))
  Query : queryWrap
  Size : Int
  From : Int
  Sort_ : List (List (String × String))
  SearchAfter : List String
  TrackTotalHits : Bool
  Source : List String

/-- The leaf that the loop of `updateList` appends for an item. -/
def leafOf (item : QueryItem) : leafQuery :=
  { Type_ := item.Type_, Name := item.Field, Value := item.Value }

/-- The function `updateList`. -/
def updateList (queryItems : List QueryItem) : List leafQuery :=
  queryItems.foldl (fun leafQueries item => leafQueries ++ [leafOf item]) []

/-- The function `getWrappedQuery`. -/
def getWrappedQuery (query : QueryDoc) : queryWrap :=
  let boolDoc : boolWrap :=
    { AndList := [], NotList := [], OrList := [], FilterList := [],
      MinimumShouldMatch := query.MinimumShouldMatch }
  let boolDoc := if query.And.length > 0 then { boolDoc with AndList := updateList query.And }
    else boolDoc
  let boolDoc := if query.Not.length > 0 then { boolDoc with NotList := updateList query.Not }
    else boolDoc
  let boolDoc := if query.Or.length > 0 then { boolDoc with OrList := updateList query.Or }
    else boolDoc
  let boolDoc :=
    if query.Filter.length > 0 then { boolDoc with FilterList := updateList query.Filter }
    else boolDoc
  { Bool := boolDoc }

/-- The members of the `bool` object, from the encoded clause lists: the fields of `boolWrap` in
declaration order under their tags. -/
def boolMembers (must mustNot should filter : List Json) (minimumShouldMatch : Int) :
    List (String × Json) :=
  omitEmptyList "must" must ++ omitEmptyList "must_not" mustNot ++
  omitEmptyList "should" should ++ omitEmptyList "filter" filter ++
  omitZero "minimum_should_match" minimumShouldMatch

/-- The encoding of a `queryReqDoc` whose `Query` field is already encoded: the fields in
declaration order under their tags. -/
def reqDocMembers (r : queryReqDoc) (query : Json) : List (String × Json) :=
  omitEmptyMap "aggregations" r.Aggregations ++
  [("query", query), ("size", .num r.Size)] ++
  omitZero "from" r.From ++
  omitEmptyList "sort" (r.Sort_.map (fun m => (strMap m).marshal)) ++
  omitEmptyList "search_after" (r.SearchAfter.map Json.str) ++
  omitFalse "track_total_hits" r.TrackTotalHits ++
  omitEmptyList "_source" (r.Source.map Json.str)

/-- The struct `queryReqDoc` that `QueryDoc.MarshalJSON` builds. -/
def requestOf (query : QueryDoc) (aggregations : Option (List (String × Data))) : queryReqDoc :=
  { Aggregations := aggregations, Query := getWrappedQuery query, Size := query.Size,
    From := query.From, Sort_ := query.Sort_, SearchAfter := query.SearchAfter,
    TrackTotalHits := query.TrackTotalHits, Source := query.Source }

/-- The body of `QueryDoc.MarshalJSON`, given the encoding of `getWrappedQuery(query)`:
`constructAggregations` runs while the struct is built, before anything is encoded. -/
def marshalRequest (query : QueryDoc) (wrapped : Except Failure Json) : Except Failure Json := do
  let aggregations ← constructAggregations query
  let queryReq := requestOf query aggregations
  let q ← wrapped
  pure (.obj (reqDocMembers queryReq q))

/-! ### The recursion

`json.Marshal` and the two `MarshalJSON` methods call each other through the documents nested in
item values. The four functions below are that recursion, by structural descent on the item
tree; the methods of the source are stated over them further down. -/

mutual
/-- The encoding `json.Marshal` gives the value of an item; a QueryDoc is encoded by its own
`MarshalJSON`. -/
def encodeValue (toLower : String → String) : Value → Except Failure Json
  | .data v => .ok v.marshal
  | .doc d => marshalRequest d (encodeWrapped toLower d)
/-- The method `leafQuery.MarshalJSON`, on the leaf that `updateList` makes of an item. -/
def encodeLeaf (toLower : String → String) : QueryItem → Except Failure Json
  | ⟨name, value, type⟩ =>
    if type = Nested then
      match value with
      | .doc d => encodeWrapped toLower d
      | .data _ => .error (.goPanic .interfaceConversion)
    else
      match QueryType.String type with
      | .error err => .error err
      | .ok queryType =>
        leafQuery.handleMarshalType toLower ⟨type, name, value⟩ queryType
          (encodeValue toLower value)
/-- The encoding of a slice of leaves: element by element, in order, up to the first failure. -/
def encodeLeaves (toLower : String → String) : List QueryItem → Except Failure (List Json)
  | [] => .ok []
  | item :: rest => do
    let leaf ← encodeLeaf toLower item
    let leaves ← encodeLeaves toLower rest
    pure (leaf :: leaves)
/-- The encoding `json.Marshal(getWrappedQuery(query))`. -/
def encodeWrapped (toLower : String → String) : QueryDoc → Except Failure Json
  | ⟨_, _, _, _, _, and, not, or, filter, _, _, minimumShouldMatch, _, _, _⟩ => do
    let must ← encodeLeaves toLower and
    let mustNot ← encodeLeaves toLower not
    let should ← encodeLeaves toLower or
    let filters ← encodeLeaves toLower filter
    pure (.obj [("bool", .obj (boolMembers must mustNot should filters minimumShouldMatch))])
end

/-! ### The methods of the source -/

/-- The method `leafQuery.MarshalJSON`. -/
def leafQuery.MarshalJSON (toLower : String → String) (q : leafQuery) : Except Failure Json :=
  encodeLeaf toLower { Field := q.Name, Value := q.Value, Type_ := q.Type_ }

/-- The encoding of a `[]leafQuery`: each element by its `MarshalJSON`. -/
def marshalLeafList (toLower : String → String) : List leafQuery → Except Failure (List Json)
  | [] => .ok []
  | q :: rest => do
    let leaf ← leafQuery.MarshalJSON toLower q
    let leaves ← marshalLeafList toLower rest
    pure (leaf :: leaves)

/-- The encoding of a `boolWrap`. -/
def boolWrap.marshal (toLower : String → String) (b : boolWrap) : Except Failure Json := do
  let must ← marshalLeafList toLower b.AndList
  let mustNot ← marshalLeafList toLower b.NotList
  let should ← marshalLeafList toLower b.OrList
  let filters ← marshalLeafList toLower b.FilterList
  pure (.obj (boolMembers must mustNot should filters b.MinimumShouldMatch))

/-- The encoding of a `queryWrap`. -/
def queryWrap.marshal (toLower : String → String) (w : queryWrap) : Except Failure Json := do
  let b ← w.Bool.marshal toLower
  pure (.obj [("bool", b)])

/-- The method `QueryDoc.MarshalJSON`. -/
def QueryDoc.MarshalJSON (toLower : String → String) (query : QueryDoc) : Except Failure Json :=
  marshalRequest query ((getWrappedQuery query).marshal toLower)

/-- The loop of `MultiSearchDoc` over the remaining queries, with the text built so far. -/
def multiSearchLoop (toLower : String → String) : List QueryDoc → String → Except Failure String
  | [], requestBuilder => .ok requestBuilder
  | query :: rest, requestBuilder => do
    let body ← QueryDoc.MarshalJSON toLower query
    let requestBuilder := requestBuilder ++ ("\x7b\"index\":\"" ++ query.Index ++ "\"\x7d" ++ "\n")
    let requestBuilder := requestBuilder ++ (body.render ++ "\n")
    multiSearchLoop toLower rest requestBuilder

/-- The function `MultiSearchDoc`. -/
def MultiSearchDoc (toLower : String → String) (queries : List QueryDoc) : Except Failure String :=
  multiSearchLoop toLower queries ""

/-! ## Auxiliary notions for the statements -/

/-- Whether a map field tagged `omitempty` is written: the map is neither nil nor empty. -/
def hasEntries : Option (List (String × Data)) → Bool
  | some (_ :: _) => true
  | _ => false

/-- A key that is present only under a condition. -/
def optKey (b : Bool) (k : String) : List String := if b then [k] else []

/-- The key list of a request object, from the six conditions under which a key is written. -/
def requestKeys (a f s sa t src : Bool) : List String :=
  optKey a "aggregations" ++ ["query", "size"] ++ optKey f "from" ++ optKey s "sort" ++
  optKey sa "search_after" ++ optKey t "track_total_hits" ++ optKey src "_source"

/-- Lower-casing of the ASCII letters, an instance of the parameter `toLower`. -/
def asciiLower (s : String) : String :=
  ⟨s.data.map Char.toLower⟩

/-- The document of `TestAndQuery`. -/
def andQueryDoc : QueryDoc :=
  { QueryDoc.zero with
    Index := "some_index"
    Sort_ := [[("id", "asc")]]
    And := [⟨"some_index_id", .text "some-long-key-id-value", Match⟩] }

/-- The encoding of `andQueryDoc`, as `TestAndQuery` expects it. -/
def andQueryJson : Json :=
  .obj [("query", .obj [("bool", .obj [("must",
    .arr [.obj [("match", .obj [("some_index_id", .str "some-long-key-id-value")])]])])]),
    ("size", .num 0), ("sort", .arr [.obj [("id", .str "asc")]])]

/-- The document of `TestMinimumShouldMatch`. -/
def shouldQueryDoc : QueryDoc :=
  { QueryDoc.zero with
    Index := "some_index"
    Sort_ := [[("id", "asc")]]
    Or := [⟨"some_index_id", .text "some-long-key-id-value", Terms⟩]
    MinimumShouldMatch := 1 }

/-- The relation between a clause list and its bucket: same length, and the i-th element of the
bucket is the serialized leaf of the i-th item. -/
def LeavesOf (toLower : String → String) (items : List QueryItem) (bucket : List Json) : Prop :=
  List.Forall₂ (fun item leaf => leafQuery.MarshalJSON toLower (leafOf item) = .ok leaf)
    items bucket

/-! ## The sanitizer as one pass -/

/-- The single reserved characters, the backslash first, in the order of the reserved list. -/
def reservedChars : List Char :=
  ['\\', '+', '=', '!', '(', ')', '\x7b', '\x7d', '[', ']', '^', '\x22', '~', '*', '?', ':', '/']

/-- The single left-to-right pass that the specification describes: a backslash goes in front of
every single reserved character and of every leftmost non-overlapping `&&` and `||`; any other
character is copied. -/
def escapeOnePass : List Char → List Char
  | [] => []
  | [c] => if c ∈ reservedChars then ['\\', c] else [c]
  | c :: d :: rest =>
    if c ∈ reservedChars then '\\' :: c :: escapeOnePass (d :: rest)
    else if c = '&' ∧ d = '&' then '\\' :: '&' :: '&' :: escapeOnePass rest
    else if c = '|' ∧ d = '|' then '\\' :: '|' :: '|' :: escapeOnePass rest
    else c :: escapeOnePass (d :: rest)

/-- The pass that escapes the characters of `singles` and the doubled characters of `pairs`:
the text after the tokens handled so far have been replaced. -/
def escapeWith (singles pairs : List Char) : List Char → List Char
  | [] => []
  | [c] => if c ∈ singles then ['\\', c] else [c]
  | c :: d :: rest =>
    if c ∈ singles then '\\' :: c :: escapeWith singles pairs (d :: rest)
    else if c ∈ pairs ∧ d = c then '\\' :: c :: c :: escapeWith singles pairs rest
    else c :: escapeWith singles pairs (d :: rest)

/-! ## Items located in a document -/

/-- The items of the four clause lists, in encoding order. -/
def clauseItems (d : QueryDoc) : List QueryItem :=
  d.And ++ d.Not ++ d.Or ++ d.Filter

/-- An item located in a document: at some position of And, Not, Or or Filter of the document
itself, or of a document held as the Value of one of its items, at any depth. -/
inductive Located (it : QueryItem) : QueryDoc → Prop where
  | here (d : QueryDoc) (h : it ∈ clauseItems d) : Located it d
  | inside (d : QueryDoc) (n : QueryItem) (inner : QueryDoc) (hn : n ∈ clauseItems d)
      (hv : n.Value = .doc inner) (h : Located it inner) : Located it d

/-- The document of `TestBogusQueryType`. -/
def bogusDoc : QueryDoc :=
  { QueryDoc.zero with
    Index := "some_index"
    Sort_ := [[("id", "asc")]]
    And := [⟨"some_index_id", .text "some-long-key-id-value", 100001⟩] }

/-- A document with two items of unsupported Type. -/
def twoBogusDoc : QueryDoc :=
  { QueryDoc.zero with
    And := [⟨"first", .text "a", 100001⟩, ⟨"second", .text "b", 100002⟩] }

/-! ## Documents used as examples -/

/-- An embedded document with one Or clause and MinimumShouldMatch 1. -/
def nestedShouldOne : QueryDoc :=
  { QueryDoc.zero with Or := [⟨"user", .text "kimchy", Term⟩], MinimumShouldMatch := 1 }

/-- The same embedded document with MinimumShouldMatch 2. -/
def nestedShouldTwo : QueryDoc :=
  { QueryDoc.zero with Or := [⟨"user", .text "kimchy", Term⟩], MinimumShouldMatch := 2 }

/-- The document `nestedShouldOne` with every field outside the Boolean wrapper set. -/
def nestedShouldOneDressed : QueryDoc :=
  { nestedShouldOne with
    Index := "some_index"
    Size := 20
    From := 40
    Sort_ := [[("id", "asc")]]
    SearchAfter := ["cursor"]
    PageSize := 10
    TrackTotalHits := true
    TermsAggregations := [⟨Terms, "by_user", "user.id", some 5, none⟩]
    CardinalityAggregations := [⟨Cardinality, "users", "user.id", none, none⟩]
    Source := ["user"] }

/-- A document with no terms aggregation and one cardinality aggregation. -/
def cardinalityOnlyDoc : QueryDoc :=
  { QueryDoc.zero with
    And := [⟨"user", .text "kimchy", Term⟩]
    CardinalityAggregations := [⟨Cardinality, "users", "user.id", none, none⟩] }

/-- A document whose only clause is a QueryString item with the number 5 as value. -/
def numberQueryStringDoc : QueryDoc :=
  { QueryDoc.zero with And := [⟨"user.id", .data (.int 5), QueryString⟩] }

/-- A document with one terms aggregation of unsupported Type. -/
def bogusTermsAggDoc : QueryDoc :=
  { QueryDoc.zero with TermsAggregations := [⟨100001, "by_user", "user.id", none, none⟩] }

/-- A document with a cardinality aggregation of unsupported Type next to a valid terms
aggregation. -/
def bogusCardinalityAggDoc : QueryDoc :=
  { QueryDoc.zero with
    TermsAggregations := [⟨Terms, "by_user", "user.id", none, none⟩]
    CardinalityAggregations := [⟨100001, "users", "user.id", none, none⟩] }

/-! ## The chain of terms aggregations -/

/-- The entries of the object under the token of a terms aggregation: `field`, then `size` and
`order` when the pointers are set. -/
def termsFields (a : Aggregation) : List (String × Data) :=
  [("field", .str a.Field)] ++
  (match a.Size with | some size => [("size", .int size)] | none => []) ++
  (match a.Order with | some order => [("order", strMap order)] | none => [])

/-- The map one level further in: the value under `aggregations` in the body of the single
entry of an aggregation map. -/
def innerAggregations (m : List (String × Data)) : Option (List (String × Data)) :=
  match m with
  | [(_, .map body)] =>
    match body.lookup "aggregations" with
    | some (.map inner) => some inner
    | _ => none
  | _ => none

/-- The map at nesting depth `k` of an aggregation map. -/
def aggregationsAt : Nat → List (String × Data) → Option (List (String × Data))
  | 0, m => some m
  | k + 1, m => (innerAggregations m).bind (aggregationsAt k)

/-- The two terms aggregations of `TestAggregations`. -/
def testTermsAggregations : List Aggregation :=
  [⟨Terms, "first_field_agg", "first_field.keyword", some 100, some [("_count", "desc")]⟩,
   ⟨Terms, "second_field_agg", "second_field.keyword", none, none⟩]

/-- A document with the terms aggregations of `TestAggregations`. -/
def termsAggregationsDoc : QueryDoc :=
  { QueryDoc.zero with
    Index := "some_index"
    Sort_ := [[("id", "asc")]]
    And := [⟨"some_index_id", .text "some-long-key-id-value", Match⟩]
    TermsAggregations := testTermsAggregations }

/-! ## Cardinality aggregations as siblings -/

/-- The entry that the loop of `constructAggregations` assigns for a cardinality aggregation
whose Type has the token `tok`. -/
def cardinalityEntry (c : Aggregation) (tok : String) : String × Data :=
  (c.Name, .map [(tok, .map [("field", .str c.Field)])])

/-- A document whose cardinality aggregation has the Name of its terms aggregation. -/
def clashingAggDoc : QueryDoc :=
  { QueryDoc.zero with
    TermsAggregations := [⟨Terms, "users", "user.id", none, none⟩]
    CardinalityAggregations := [⟨Cardinality, "users", "user.name", none, none⟩] }

/-- A document with two terms aggregations and two cardinality aggregations. -/
def siblingAggDoc : QueryDoc :=
  { QueryDoc.zero with
    TermsAggregations := testTermsAggregations
    CardinalityAggregations :=
      [⟨Cardinality, "users", "user.id", none, none⟩, ⟨Max, "latest", "date", none, none⟩] }

/-! ## Undoing the sanitizer -/

/-- The left-to-right unescape pass: a backslash is dropped and the character after it is
copied as it is; any other character is copied. -/
def unescapeChars : List Char → List Char
  | [] => []
  | [c] => if c = '\\' then [] else [c]
  | c :: d :: rest =>
    if c = '\\' then d :: unescapeChars rest
    else c :: unescapeChars (d :: rest)

/-- The unescape pass on a text. -/
def unescape (s : String) : String :=
  ⟨unescapeChars s.data⟩

/-- The shape of a reserved token: one reserved character, or `&&`, or `||`. -/
def tokenShape : List Char → Bool
  | [c] => decide (c ∈ reservedChars)
  | [c, d] => c == d && decide (c ∈ ['&', '|'])
  | _ => false

/-! ## Batches -/

/-- The text of a batch: for each document the selector line as `MultiSearchDoc` formats it,
then the line of its encoded body. -/
def batchText : List QueryDoc → List Json → String
  | query :: rest, body :: bodies =>
    ("\x7b\"index\":\"" ++ query.Index ++ "\"\x7d" ++ "\n") ++ (body.render ++ "\n") ++
      batchText rest bodies
  | _, _ => ""

/-- The number of newline characters of a text. -/
def newlineCount (s : String) : Nat :=
  s.data.count '\n'

/-- A document whose Index contains a double quote. -/
def quoteIndexDoc : QueryDoc :=
  { QueryDoc.zero with Index := "a\"b" }

/-- A document whose Index contains a newline. -/
def newlineIndexDoc : QueryDoc :=
  { QueryDoc.zero with Index := "logs\n2024" }

/-- The two documents of `TestMultiSearchDoc`. -/
def multiSearchDocs : List QueryDoc :=
  [{ QueryDoc.zero with
      Index := "index1"
      And := [⟨"user.id", .text "kimchy!", QueryString⟩] },
   { QueryDoc.zero with
      Index := "index2"
      And := [⟨"some_index_id", .text "some-long-key-id-value", Match⟩] }]

/-! ## Key order of the encoded objects -/

/-- Keys in alphabetical (byte) order: no key is followed by a smaller one. -/
def keysAscending : List String → Bool
  | [] => true
  | [_] => true
  | a :: b :: rest => !keyLess b.data a.data && keysAscending (b :: rest)

/-- The keys of the request object, in the order of the fields of `queryReqDoc`. -/
def requestOrder : List String :=
  ["aggregations", "query", "size", "from", "sort", "search_after", "track_total_hits",
   "_source"]

/-- The keys of the `bool` object, in the order of the fields of `boolWrap`. -/
def boolOrder : List String :=
  ["must", "must_not", "should", "filter", "minimum_should_match"]

mutual
/-- Every object of a JSON value, at every depth, has a key list that satisfies `p`. -/
def Json.allObjects (p : List String → Bool) : Json → Bool
  | .obj kvs => p (kvs.map Prod.fst) && membersAll p kvs
  | .arr xs => elemsAll p xs
  | _ => true
def elemsAll (p : List String → Bool) : List Json → Bool
  | [] => true
  | x :: xs => x.allObjects p && elemsAll p xs
def membersAll (p : List String → Bool) : List (String × Json) → Bool
  | [] => true
  | (_, v) :: rest => v.allObjects p && membersAll p rest
end

/-- The document of `TestFilterQuery`. -/
def filterQueryDoc : QueryDoc :=
  { QueryDoc.zero with
    Index := "some_index"
    Size := 20
    And := [⟨"title", .text "Search", Match⟩, ⟨"content", .text "Elasticsearch", Match⟩]
    Filter := [⟨"status", .text "published", Term⟩,
      ⟨"publish_date", .data (strMap [("gte", "2015-01-01")]), Range⟩] }

/-- The encoding of `filterQueryDoc`, as `TestFilterQuery` expects it. -/
def filterQueryJson : Json :=
  .obj [("query", .obj [("bool", .obj [
      ("must", .arr [.obj [("match", .obj [("title", .str "Search")])],
        .obj [("match", .obj [("content", .str "Elasticsearch")])]]),
      ("filter", .arr [.obj [("term", .obj [("status", .str "published")])],
        .obj [("range", .obj [("publish_date", .obj [("gte", .str "2015-01-01")])])]])])]),
    ("size", .num 20)]

/-- A document that asks for the second page of ten hits. -/
def pagedDoc : QueryDoc :=
  { QueryDoc.zero with
    Index := "some_index"
    Size := 10
    From := 10
    And := [⟨"title", .text "Search", Match⟩] }

/-- The encoding of `pagedDoc`. -/
def pagedJson : Json :=
  .obj [("query", .obj [("bool", .obj [("must",
    .arr [.obj [("match", .obj [("title", .str "Search")])]])])]),
    ("size", .num 10), ("from", .num 10)]

/-- The keys of a request object: in the order of the fields of `queryReqDoc`, with `query` and
`size` among them. -/
def requestKeysOk (keys : List String) : Bool :=
  keys.isSublist requestOrder && keys.contains "query" && keys.contains "size"

/-- A request object, written from the struct `queryReqDoc`: its keys are in field order, the
value under `query` satisfies `wrapper`, and every object under another key is alphabetical. -/
def requestShape (wrapper : Json → Bool) : Json → Bool
  | .obj kvs =>
    requestKeysOk (kvs.map Prod.fst) &&
      kvs.all (fun kv => if kv.1 = "query" then wrapper kv.2 else kv.2.allObjects keysAscending)
  | _ => false

/-- A member of a `bool` object: a clause list under its tag, checked by the predicate of that
list, or the number under `minimum_should_match`. -/
def bucketShape (must mustNot should filter : List Json → Bool) (kv : String × Json) : Bool :=
  match kv.2 with
  | .arr xs =>
    if kv.1 = "must" then must xs
    else if kv.1 = "must_not" then mustNot xs
    else if kv.1 = "should" then should xs
    else if kv.1 = "filter" then filter xs
    else false
  | .num _ => kv.1 == "minimum_should_match"
  | _ => false

/-- A wrapper, written from the structs `queryWrap` and `boolWrap`: the single key `bool` over
an object whose keys are in the field order of `boolWrap`. -/
def wrapperShape (must mustNot should filter : List Json → Bool) : Json → Bool
  | .obj [(k, .obj members)] =>
    k == "bool" && (members.map Prod.fst).isSublist boolOrder &&
      members.all (bucketShape must mustNot should filter)
  | _ => false

/-- A leaf written from maps: one key, which is not `bool`, over an object whose keys are
alphabetical and whose values satisfy `value`. -/
def leafShape (value : Json → Bool) : Json → Bool
  | .obj [(k, .obj members)] =>
    k != "bool" && keysAscending (members.map Prod.fst) && members.all (fun kv => value kv.2)
  | _ => false

mutual
/-- The order of the keys in the encoding of a value: a plain value is written from maps and
slices, every object in it is alphabetical; a QueryDoc is written as a request object. -/
def orderedValue : Value → Json → Bool
  | .data _ => Json.allObjects keysAscending
  | .doc d => requestShape (orderedWrapped d)
/-- The order of the keys in the leaf of an item: the wrapper of the document of a Nested item,
a leaf written from maps otherwise. -/
def orderedLeaf : QueryItem → Json → Bool
  | ⟨_, value, type⟩ =>
    if type = Nested then
      match value with
      | .doc d => orderedWrapped d
      | .data _ => fun _ => false
    else leafShape (orderedValue value)
/-- The leaves of a clause list, one for each item and in the order of the items. -/
def orderedLeaves : List QueryItem → List Json → Bool
  | [] => fun leaves => leaves.isEmpty
  | item :: rest => fun leaves =>
    match leaves with
    | [] => false
    | leaf :: more => orderedLeaf item leaf && orderedLeaves rest more
/-- The order of the keys in the wrapper of a document. -/
def orderedWrapped : QueryDoc → Json → Bool
  | ⟨_, _, _, _, _, and, not, or, filter, _, _, _, _, _, _⟩ =>
    wrapperShape (orderedLeaves and) (orderedLeaves not) (orderedLeaves or)
      (orderedLeaves filter)
end

/-- The order of the keys in the encoding of a document, object by object: the request object
and the `bool` objects in field order, every other object alphabetical. -/
def orderedRequest (d : QueryDoc) : Json → Bool :=
  requestShape (orderedWrapped d)


/-- A document whose Or list holds a Nested item over the document of `TestFilterQuery` and a
Wildcard item, with a nonzero From. -/
def nestedFilterDoc : QueryDoc :=
  { QueryDoc.zero with
    Index := "some_index"
    Size := 10
    From := 20
    Or := [⟨"", .doc filterQueryDoc, Nested⟩, ⟨"user", .text "Ki*", Wildcard⟩]
    MinimumShouldMatch := 1 }

/-- The encoding of `nestedFilterDoc`. -/
def nestedFilterJson : Json :=
  .obj [("query", .obj [("bool", .obj [
      ("should", .arr [
        .obj [("bool", .obj [
          ("must", .arr [.obj [("match", .obj [("title", .str "Search")])],
            .obj [("match", .obj [("content", .str "Elasticsearch")])]]),
          ("filter", .arr [.obj [("term", .obj [("status", .str "published")])],
            .obj [("range", .obj [("publish_date", .obj [("gte", .str "2015-01-01")])])]])])],
        .obj [("wildcard", .obj [("user",
          .obj [("case_insensitive", .bool true), ("value", .str "ki*")])])]]),
      ("minimum_should_match", .num 1)])]),
    ("size", .num 10), ("from", .num 20)]

/-- A document with two Match items: the Value of the first holds a QueryDoc, the Value of the
second a map with the keys `query`, `size` and `from`. -/
def docValueDoc : QueryDoc :=
  { QueryDoc.zero with
    And := [⟨"f", .doc pagedDoc, Match⟩,
      ⟨"g", .data (.map [("query", .map [("bool", .map [])]), ("size", .int 1),
        ("from", .int 2)]), Match⟩] }

/-- The encoding of `docValueDoc`: the QueryDoc in the order of the request fields, the map in
the order of its keys. -/
def docValueJson : Json :=
  .obj [("query", .obj [("bool", .obj [("must", .arr [
      .obj [("match", .obj [("f", pagedJson)])],
      .obj [("match", .obj [("g", .obj [("from", .num 2),
        ("query", .obj [("bool", .obj [])]), ("size", .num 1)])])]])])]),
    ("size", .num 0)]

/-- The tree of `docValueJson` with the map written in the order of the request fields. -/
def mapAsRequestJson : Json :=
  .obj [("query", .obj [("bool", .obj [("must", .arr [
      .obj [("match", .obj [("f", pagedJson)])],
      .obj [("match", .obj [("g", .obj [("query", .obj [("bool", .obj [])]),
        ("size", .num 1), ("from", .num 2)])])]])])]),
    ("size", .num 0)]

/-- The tree of `filterQueryJson` with the keys of the `bool` object sorted. -/
def sortedBoolJson : Json :=
  .obj [("query", .obj [("bool", .obj [
      ("filter", .arr [.obj [("term", .obj [("status", .str "published")])],
        .obj [("range", .obj [("publish_date", .obj [("gte", .str "2015-01-01")])])]]),
      ("must", .arr [.obj [("match", .obj [("title", .str "Search")])],
        .obj [("match", .obj [("content", .str "Elasticsearch")])]])])]),
    ("size", .num 20)]

/-- The tree of `pagedJson` with the keys of the request object sorted. -/
def sortedRequestJson : Json :=
  .obj [("from", .num 10), ("query", .obj [("bool", .obj [("must",
    .arr [.obj [("match", .obj [("title", .str "Search")])]])])]),
    ("size", .num 10)]

/-! # Properties -/

/-! ## The methods of the source and the recursion agree -/

theorem updateList_foldl (acc : List leafQuery) (xs : List QueryItem) :
    xs.foldl (fun leafQueries item => leafQueries ++ [leafOf item]) acc =
      acc ++ xs.map leafOf := by
  induction xs generalizing acc with
  | nil => simp
  | cons x xs ih => simp [List.foldl, ih]

/-- The function `updateList` copies the items one by one, in order. -/
theorem updateList_eq_map (xs : List QueryItem) : updateList xs = xs.map leafOf := by
  simp [updateList, updateList_foldl]

theorem marshalLeafList_map_leafOf (toLower : String → String) (xs : List QueryItem) :
    marshalLeafList toLower (xs.map leafOf) = encodeLeaves toLower xs := by
  induction xs with
  | nil => simp [marshalLeafList, encodeLeaves]
  | cons x xs ih =>
    simp only [List.map, marshalLeafList, encodeLeaves, ih, leafQuery.MarshalJSON, leafOf]

theorem marshalLeafList_clause (toLower : String → String) (xs : List QueryItem) :
    marshalLeafList toLower (if xs.length > 0 then updateList xs else []) =
      encodeLeaves toLower xs := by
  cases xs with
  | nil => simp [marshalLeafList, encodeLeaves]
  | cons x xs => simp [updateList_eq_map, ← marshalLeafList_map_leafOf]

/-- The fields of the struct that `getWrappedQuery` returns. -/
theorem getWrappedQuery_fields (d : QueryDoc) :
    (getWrappedQuery d).Bool.AndList = (if d.And.length > 0 then updateList d.And else []) ∧
    (getWrappedQuery d).Bool.NotList = (if d.Not.length > 0 then updateList d.Not else []) ∧
    (getWrappedQuery d).Bool.OrList = (if d.Or.length > 0 then updateList d.Or else []) ∧
    (getWrappedQuery d).Bool.FilterList =
      (if d.Filter.length > 0 then updateList d.Filter else []) ∧
    (getWrappedQuery d).Bool.MinimumShouldMatch = d.MinimumShouldMatch := by
  simp only [getWrappedQuery]
  refine ⟨?_, ?_, ?_, ?_, ?_⟩ <;> split_ifs <;> rfl

/-- The recursion's `encodeWrapped` is the encoding of the struct `getWrappedQuery` returns. -/
theorem encodeWrapped_eq (toLower : String → String) (d : QueryDoc) :
    encodeWrapped toLower d = (getWrappedQuery d).marshal toLower := by
  obtain ⟨h1, h2, h3, h4, h5⟩ := getWrappedQuery_fields d
  simp only [queryWrap.marshal, boolWrap.marshal, h1, h2, h3, h4, h5, marshalLeafList_clause]
  cases d
  simp only [encodeWrapped]
  cases encodeLeaves toLower _ <;> simp

/-- The value of an item that holds a QueryDoc is encoded by `QueryDoc.MarshalJSON`. -/
theorem encodeValue_doc (toLower : String → String) (d : QueryDoc) :
    encodeValue toLower (.doc d) = QueryDoc.MarshalJSON toLower d := by
  simp [encodeValue, QueryDoc.MarshalJSON, encodeWrapped_eq]

/-- One step of the recursion at an item. -/
theorem encodeLeaf_unfold (toLower : String → String) (name : String) (value : Value)
    (type : QueryType) :
    encodeLeaf toLower ⟨name, value, type⟩ =
      if type = Nested then
        match value with
        | .doc d => encodeWrapped toLower d
        | .data _ => .error (.goPanic .interfaceConversion)
      else
        match QueryType.String type with
        | .error err => .error err
        | .ok queryType =>
          leafQuery.handleMarshalType toLower ⟨type, name, value⟩ queryType
            (encodeValue toLower value) := by
  cases value <;> rfl

/-- The body of `leafQuery.MarshalJSON`, statement by statement. -/
theorem leafQuery_MarshalJSON_eq (toLower : String → String) (q : leafQuery) :
    leafQuery.MarshalJSON toLower q =
      if q.Type_ = Nested then
        match q.Value with
        | .doc d => (getWrappedQuery d).marshal toLower
        | .data _ => .error (.goPanic .interfaceConversion)
      else
        match QueryType.String q.Type_ with
        | .error err => .error err
        | .ok queryType => q.handleMarshalType toLower queryType (encodeValue toLower q.Value) := by
  obtain ⟨t, n, v⟩ := q
  show encodeLeaf toLower ⟨n, v, t⟩ = _
  rw [encodeLeaf_unfold]
  by_cases h : t = Nested
  · rw [if_pos h, if_pos h]
    cases v with
    | data x => rfl
    | doc d => exact encodeWrapped_eq toLower d
  · rw [if_neg h, if_neg h]

/-! ## The registry -/

/-- C6: for every valid ordinal, 0 (Match) through 10 (RegexP), `QueryType.String` returns no
error and the documented token at that position of the table. -/
theorem QueryType_String_valid (qt : QueryType) (h0 : 0 ≤ qt) (h10 : qt ≤ 10) :
    QueryType.String qt = .ok
      (if qt = Match then "match" else if qt = Term then "term"
       else if qt = Terms then "terms" else if qt = Cardinality then "cardinality"
       else if qt = Max then "max" else if qt = Wildcard then "wildcard"
       else if qt = Range then "range" else if qt = Exists then "exists"
       else if qt = QueryString then "query_string" else if qt = Nested then "nested"
       else "regexp") ∧
    [Match, Term, Terms, Cardinality, Max, Wildcard, Range, Exists, QueryString, Nested, RegexP]
      = [0, 1, 2, 3, 4, 5, 6, 7, 8, 9, 10] := by
  refine ⟨?_, rfl⟩
  interval_cases qt <;> rfl

theorem QueryType_String_valid_witness :
    (0 : QueryType) ≤ QueryString ∧ QueryString ≤ 10 ∧
    QueryType.String QueryString = .ok "query_string" :=
  ⟨by decide, by decide, (QueryType_String_valid QueryString (by decide) (by decide)).1⟩

/-- C7: at the ordinal equal to the table length, and at a negative ordinal, the guard
`int(qt) > len(convs)` lets the value through and the table is indexed out of range: the call
panics instead of returning a QueryTypeErr. Only ordinals above the table length get the
error. -/
theorem QueryType_String_boundary :
    QueryType.String 11 = .error (.goPanic (.indexOutOfRange 11 11)) ∧
    QueryType.String (-1) = .error (.goPanic (.indexOutOfRange (-1) 11)) ∧
    QueryType.String 12 = .error (.QueryTypeErr 12) :=
  ⟨rfl, rfl, rfl⟩

/-! ## The aggregation builder never returns an empty map -/

theorem mapSet_ne_nil {α : Type} (m : List (String × α)) (k : String) (v : α) :
    mapSet m k v ≠ [] := by
  cases m with
  | nil => simp [mapSet]
  | cons x rest =>
    obtain ⟨k0, v0⟩ := x
    simp only [mapSet]
    split_ifs <;> simp

theorem constructTermsAggregations_ne_nil (aggs : List Aggregation) (m : List (String × Data))
    (h : constructTermsAggregations aggs = .ok (some m)) : m ≠ [] := by
  cases aggs with
  | nil => simp [constructTermsAggregations] at h
  | cons agg rest =>
    simp only [constructTermsAggregations] at h
    cases hk : stringIgnoringErr agg.Type_ with
    | error e => simp [hk, bind, Except.bind] at h
    | ok key =>
      simp only [hk, bind, Except.bind] at h
      split_ifs at h
      · cases hr : constructTermsAggregations rest with
        | error e => simp [hr] at h
        | ok inner =>
          simp only [hr, pure, Except.pure, Except.ok.injEq, Option.some.injEq] at h
          subst h
          simp [mapLit, mapSet]
      · simp only [pure, Except.pure, Except.ok.injEq, Option.some.injEq] at h
        subst h
        simp [mapLit, mapSet]

theorem addCardinalityAggregations_ne_nil (cs : List Aggregation) (m m2 : List (String × Data))
    (hm : m ≠ []) (h : addCardinalityAggregations cs m = .ok m2) : m2 ≠ [] := by
  induction cs generalizing m with
  | nil =>
    simp only [addCardinalityAggregations, Except.ok.injEq] at h
    exact h ▸ hm
  | cons c rest ih =>
    simp only [addCardinalityAggregations] at h
    cases hk : stringIgnoringErr c.Type_ with
    | error e => simp [hk, bind, Except.bind] at h
    | ok key =>
      simp only [hk, bind, Except.bind] at h
      exact ih _ (mapSet_ne_nil _ _ _) h

theorem constructAggregations_ne_nil (d : QueryDoc) (m : List (String × Data))
    (h : constructAggregations d = .ok (some m)) : m ≠ [] := by
  simp only [constructAggregations] at h
  cases ht : constructTermsAggregations d.TermsAggregations with
  | error e => simp [ht, bind, Except.bind] at h
  | ok r =>
    cases r with
    | none => simp [ht, bind, Except.bind, pure, Except.pure] at h
    | some m0 =>
      simp only [ht, bind, Except.bind] at h
      cases hc : addCardinalityAggregations d.CardinalityAggregations m0 with
      | error e => simp [hc] at h
      | ok m1 =>
        simp only [hc, pure, Except.pure, Except.ok.injEq, Option.some.injEq] at h
        subst h
        exact addCardinalityAggregations_ne_nil _ m0 m1
          (constructTermsAggregations_ne_nil _ m0 ht) hc

/-! ## The request object -/

theorem marshalRequest_ok (d : QueryDoc) (w : Except Failure Json) (j : Json)
    (h : marshalRequest d w = .ok j) :
    ∃ aggs q, constructAggregations d = .ok aggs ∧
      w = .ok q ∧ j = .obj (reqDocMembers (requestOf d aggs) q) := by
  simp only [marshalRequest] at h
  cases ha : constructAggregations d with
  | error e => simp [ha, bind, Except.bind] at h
  | ok aggs =>
    cases hw : w with
    | error e => simp [ha, hw, bind, Except.bind] at h
    | ok q =>
      simp only [ha, hw, bind, Except.bind, pure, Except.pure, Except.ok.injEq] at h
      exact ⟨aggs, q, rfl, rfl, h.symm⟩

theorem queryWrap_marshal_ok (toLower : String → String) (w : queryWrap) (q : Json)
    (h : w.marshal toLower = .ok q) :
    ∃ must mustNot should filters,
      marshalLeafList toLower w.Bool.AndList = .ok must ∧
      marshalLeafList toLower w.Bool.NotList = .ok mustNot ∧
      marshalLeafList toLower w.Bool.OrList = .ok should ∧
      marshalLeafList toLower w.Bool.FilterList = .ok filters ∧
      q = .obj [("bool",
        .obj (boolMembers must mustNot should filters w.Bool.MinimumShouldMatch))] := by
  simp only [queryWrap.marshal, boolWrap.marshal] at h
  cases h1 : marshalLeafList toLower w.Bool.AndList with
  | error e => simp [h1, bind, Except.bind] at h
  | ok must =>
  cases h2 : marshalLeafList toLower w.Bool.NotList with
  | error e => simp [h1, h2, bind, Except.bind] at h
  | ok mustNot =>
  cases h3 : marshalLeafList toLower w.Bool.OrList with
  | error e => simp [h1, h2, h3, bind, Except.bind] at h
  | ok should =>
  cases h4 : marshalLeafList toLower w.Bool.FilterList with
  | error e => simp [h1, h2, h3, h4, bind, Except.bind] at h
  | ok filters =>
    simp only [h1, h2, h3, h4, bind, Except.bind, pure, Except.pure, Except.ok.injEq] at h
    exact ⟨must, mustNot, should, filters, rfl, rfl, rfl, rfl, h.symm⟩

theorem requestKeys_spec (a f s sa t src : Bool) :
    (requestKeys a f s sa t src).Nodup ∧
    (∀ k ∈ requestKeys a f s sa t src, k ∈ ["aggregations", "query", "size", "from", "sort",
      "search_after", "track_total_hits", "_source"]) ∧
    ("aggregations" ∈ requestKeys a f s sa t src ↔ a = true) ∧
    ("from" ∈ requestKeys a f s sa t src ↔ f = true) ∧
    ("sort" ∈ requestKeys a f s sa t src ↔ s = true) ∧
    ("search_after" ∈ requestKeys a f s sa t src ↔ sa = true) ∧
    ("track_total_hits" ∈ requestKeys a f s sa t src ↔ t = true) ∧
    ("_source" ∈ requestKeys a f s sa t src ↔ src = true) := by
  cases a <;> cases f <;> cases s <;> cases sa <;> cases t <;> cases src <;> decide

/-- The keys of the request object, in output order. -/
theorem reqDocMembers_keys (r : queryReqDoc) (q : Json) :
    (reqDocMembers r q).map Prod.fst =
      requestKeys (hasEntries r.Aggregations)
        (decide (r.From ≠ 0)) (!r.Sort_.isEmpty) (!r.SearchAfter.isEmpty) r.TrackTotalHits
        (!r.Source.isEmpty) := by
  obtain ⟨a, _, _, f, s, sa, t, src⟩ := r
  have ha : (omitEmptyMap "aggregations" a).map Prod.fst =
      optKey (hasEntries a) "aggregations" := by
    rcases a with _ | _ | _ <;> rfl
  have hf : (omitZero "from" f).map Prod.fst = optKey (decide (f ≠ 0)) "from" := by
    simp only [omitZero, optKey]; split_ifs <;> simp_all
  have hl : ∀ {α : Type} (k : String) (g : α → Json) (xs : List α),
      (omitEmptyList k (xs.map g)).map Prod.fst = optKey (!xs.isEmpty) k := by
    intro α k g xs; cases xs <;> simp [omitEmptyList, optKey]
  have ht : (omitFalse "track_total_hits" t).map Prod.fst = optKey t "track_total_hits" := by
    cases t <;> rfl
  simp only [reqDocMembers, List.map_append, ha, hf, hl, ht, requestKeys]
  rfl

theorem reqDocMembers_get (r : queryReqDoc) (q : Json) :
    (Json.obj (reqDocMembers r q)).get? "query" = some q ∧
    (Json.obj (reqDocMembers r q)).get? "size" = some (.num r.Size) := by
  obtain ⟨a, _, sz, f, s, sa, t, src⟩ := r
  rcases a with _ | _ | _ <;> constructor <;>
    simp [Json.get?, reqDocMembers, omitEmptyMap, List.find?]

theorem not_isEmpty_iff {α : Type} (xs : List α) : (!xs.isEmpty) = true ↔ xs ≠ [] := by
  cases xs <;> simp

/-- C1: a QueryDoc that encodes successfully encodes to one JSON object. Its keys are distinct
and among `aggregations`, `query`, `size`, `from`, `sort`, `search_after`, `track_total_hits`,
`_source`; `query` is always there and holds an object with the single key `bool`; `size` is
always there and holds Size, zero included; `from` is there iff From is nonzero, `sort` iff Sort
is non-empty, `search_after` iff SearchAfter is non-empty, `track_total_hits` iff TrackTotalHits
is true, `_source` iff Source is non-empty, `aggregations` iff the aggregation builder returns a
map rather than nil. Index and PageSize do not reach the output: changing them leaves the
encoding as it is. A document with a single And clause of type Match, field `f`, text value `v`
and nothing else encodes to the object `query: (bool: (must: [(match: (f: v))])), size: 0`, whose
text for the field and value of `TestAndQuery` is the expected one, byte for byte. -/
theorem MarshalJSON_object (toLower : String → String) (d : QueryDoc) (j : Json)
    (h : QueryDoc.MarshalJSON toLower d = .ok j) :
    (∃ members, j = .obj members) ∧ j.keys.Nodup ∧
    (∀ k ∈ j.keys, k ∈ ["aggregations", "query", "size", "from", "sort", "search_after",
      "track_total_hits", "_source"]) ∧
    (∃ b, j.get? "query" = some (.obj [("bool", .obj b)])) ∧
    j.get? "size" = some (.num d.Size) ∧
    ("from" ∈ j.keys ↔ d.From ≠ 0) ∧
    ("sort" ∈ j.keys ↔ d.Sort_ ≠ []) ∧
    ("search_after" ∈ j.keys ↔ d.SearchAfter ≠ []) ∧
    ("track_total_hits" ∈ j.keys ↔ d.TrackTotalHits = true) ∧
    ("_source" ∈ j.keys ↔ d.Source ≠ []) ∧
    ("aggregations" ∈ j.keys ↔
      ∃ m, constructAggregations d
        = .ok (some m)) ∧
    (∀ index pageSize,
      QueryDoc.MarshalJSON toLower { d with Index := index, PageSize := pageSize } = .ok j) ∧
    (∀ f v, QueryDoc.MarshalJSON toLower
        { QueryDoc.zero with And := [⟨f, .text v, Match⟩] } =
      .ok (.obj [("query", .obj [("bool", .obj [("must",
        .arr [.obj [("match", .obj [(f, .str v)])]])])]), ("size", .num 0)])) ∧
    (Json.obj [("query", .obj [("bool", .obj [("must",
        .arr [.obj [("match", .obj [("some_index_id", .str "some-long-key-id-value")])]])])]),
        ("size", .num 0)]).render =
      "\x7b\"query\":\x7b\"bool\":\x7b\"must\":[\x7b\"match\":\x7b\"some_index_id\":\"some-long-key-id-value\"\x7d\x7d]\x7d\x7d,\"size\":0\x7d" := by
  have hidx : ∀ index pageSize,
      QueryDoc.MarshalJSON toLower { d with Index := index, PageSize := pageSize } = .ok j :=
    fun _ _ => h
  obtain ⟨aggs, q, ha, hq, rfl⟩ := marshalRequest_ok d _ j h
  obtain ⟨must, mustNot, should, filters, -, -, -, -, rfl⟩ := queryWrap_marshal_ok toLower _ q hq
  obtain ⟨hgq, hgs⟩ := reqDocMembers_get (requestOf d aggs)
    (.obj [("bool", .obj (boolMembers must mustNot should filters
      (getWrappedQuery d).Bool.MinimumShouldMatch))])
  have hne : ∀ m, aggs = some m → m ≠ [] := fun m hm =>
    constructAggregations_ne_nil d m (hm ▸ ha)
  have hagg : hasEntries aggs = true ↔ ∃ m, aggs = some m := by
    rcases aggs with _ | _ | ⟨kv, rest⟩
    · simp [hasEntries]
    · exact absurd rfl (hne [] rfl)
    · simp [hasEntries]
  obtain ⟨k1, k2, k3, k4, k5, k6, k7, k8⟩ := requestKeys_spec (hasEntries aggs)
    (decide (d.From ≠ 0)) (!d.Sort_.isEmpty) (!d.SearchAfter.isEmpty) d.TrackTotalHits
    (!d.Source.isEmpty)
  have hkeys : (Json.obj (reqDocMembers (requestOf d aggs)
      (.obj [("bool", .obj (boolMembers must mustNot should filters
        (getWrappedQuery d).Bool.MinimumShouldMatch))]))).keys =
      requestKeys (hasEntries aggs) (decide (d.From ≠ 0)) (!d.Sort_.isEmpty)
        (!d.SearchAfter.isEmpty) d.TrackTotalHits (!d.Source.isEmpty) := by
    simp only [Json.keys, reqDocMembers_keys, requestOf]
  rw [hkeys, ha]
  refine ⟨⟨_, rfl⟩, k1, k2, ⟨_, hgq⟩, hgs, ?_, ?_, ?_, k7, ?_, ?_, hidx, fun f v => rfl, rfl⟩
  · rw [k4]; simp
  · rw [k5, not_isEmpty_iff]
  · rw [k6, not_isEmpty_iff]
  · rw [k8, not_isEmpty_iff]
  · rw [k3, hagg]; simp

theorem MarshalJSON_object_witness :
    QueryDoc.MarshalJSON asciiLower andQueryDoc = .ok andQueryJson ∧
    andQueryJson.keys.Nodup ∧ ("sort" ∈ andQueryJson.keys ↔ andQueryDoc.Sort_ ≠ []) ∧
    ("from" ∈ andQueryJson.keys ↔ andQueryDoc.From ≠ 0) :=
  ⟨rfl, (MarshalJSON_object asciiLower andQueryDoc andQueryJson rfl).2.1,
    (MarshalJSON_object asciiLower andQueryDoc andQueryJson rfl).2.2.2.2.2.2.1,
    (MarshalJSON_object asciiLower andQueryDoc andQueryJson rfl).2.2.2.2.2.1⟩

/-! ## The Boolean wrapper -/

theorem marshalLeafList_ok (toLower : String → String) (items : List QueryItem)
    (js : List Json) :
    marshalLeafList toLower (items.map leafOf) = .ok js ↔ LeavesOf toLower items js := by
  induction items generalizing js with
  | nil =>
    cases js <;> simp [marshalLeafList, LeavesOf]
  | cons x xs ih =>
    simp only [List.map, marshalLeafList, LeavesOf]
    cases hx : leafQuery.MarshalJSON toLower (leafOf x) with
    | error e =>
      simp only [bind, Except.bind]
      constructor
      · intro h; cases h
      · intro h
        cases h with
        | cons h1 _ => rw [hx] at h1; cases h1
    | ok leaf =>
      cases hxs : marshalLeafList toLower (xs.map leafOf) with
      | error e =>
        simp only [bind, Except.bind]
        constructor
        · intro h; cases h
        · intro h
          cases h with
          | cons _ h2 =>
            have := (ih _).2 h2
            rw [hxs] at this; cases this
      | ok leaves =>
        simp only [bind, Except.bind, pure, Except.pure, Except.ok.injEq]
        constructor
        · intro h
          subst h
          exact List.Forall₂.cons hx ((ih _).1 hxs)
        · intro h
          cases h with
          | cons h1 h2 =>
            have e2 := (ih _).2 h2
            rw [hx] at h1
            rw [hxs] at e2
            cases h1; cases e2; rfl

theorem clauseList_eq_map (xs : List QueryItem) :
    (if xs.length > 0 then updateList xs else []) = xs.map leafOf := by
  cases xs with
  | nil => rfl
  | cons x xs => simp [updateList_eq_map]

theorem omitEmptyList_of_leaves (toLower : String → String) (key : String)
    (items : List QueryItem) (bucket : List Json) (h : LeavesOf toLower items bucket) :
    omitEmptyList key bucket = if items.isEmpty then [] else [(key, .arr bucket)] := by
  cases h <;> rfl

theorem omitEmptyList_no_empty (key : String) (xs : List Json) (kv : String × Json)
    (h : kv ∈ omitEmptyList key xs) : kv.2 ≠ .arr [] := by
  cases xs with
  | nil => simp [omitEmptyList] at h
  | cons x rest =>
    simp only [omitEmptyList, List.isEmpty_cons, Bool.false_eq_true, if_false,
      List.mem_singleton] at h
    subst h
    simp

/-- C2: when `getWrappedQuery(query)` is encoded, the result is the object with the single key
`bool`, whose members are, in this order: `must` iff And is non-empty, `must_not` iff Not is
non-empty, `should` iff Or is non-empty, `filter` iff Filter is non-empty, and
`minimum_should_match` (after the `should` list) iff MinimumShouldMatch is nonzero. Each bucket
that is present is an array of the same length as its clause list, whose i-th element is the
serialized leaf of the i-th item; no member is an empty array. -/
theorem getWrappedQuery_bool (toLower : String → String) (d : QueryDoc) (j : Json)
    (h : (getWrappedQuery d).marshal toLower = .ok j) :
    ∃ must mustNot should filter : List Json,
      LeavesOf toLower d.And must ∧ LeavesOf toLower d.Not mustNot ∧
      LeavesOf toLower d.Or should ∧ LeavesOf toLower d.Filter filter ∧
      must.length = d.And.length ∧ mustNot.length = d.Not.length ∧
      should.length = d.Or.length ∧ filter.length = d.Filter.length ∧
      j = .obj [("bool", .obj (
        (if d.And.isEmpty then [] else [("must", .arr must)]) ++
        (if d.Not.isEmpty then [] else [("must_not", .arr mustNot)]) ++
        (if d.Or.isEmpty then [] else [("should", .arr should)]) ++
        (if d.Filter.isEmpty then [] else [("filter", .arr filter)]) ++
        (if d.MinimumShouldMatch = 0 then []
          else [("minimum_should_match", .num d.MinimumShouldMatch)])))] ∧
      ∀ b, j = .obj [("bool", .obj b)] → ∀ kv ∈ b, kv.2 ≠ .arr [] := by
  obtain ⟨must, mustNot, should, filters, h1, h2, h3, h4, rfl⟩ :=
    queryWrap_marshal_ok toLower _ j h
  obtain ⟨e1, e2, e3, e4, e5⟩ := getWrappedQuery_fields d
  rw [e1, clauseList_eq_map, marshalLeafList_ok] at h1
  rw [e2, clauseList_eq_map, marshalLeafList_ok] at h2
  rw [e3, clauseList_eq_map, marshalLeafList_ok] at h3
  rw [e4, clauseList_eq_map, marshalLeafList_ok] at h4
  refine ⟨must, mustNot, should, filters, h1, h2, h3, h4, (List.Forall₂.length_eq h1).symm,
    (List.Forall₂.length_eq h2).symm, (List.Forall₂.length_eq h3).symm,
    (List.Forall₂.length_eq h4).symm, ?_, ?_⟩
  · rw [e5, boolMembers, omitEmptyList_of_leaves toLower _ _ _ h1,
      omitEmptyList_of_leaves toLower _ _ _ h2, omitEmptyList_of_leaves toLower _ _ _ h3,
      omitEmptyList_of_leaves toLower _ _ _ h4]
    rfl
  · intro b hb kv hkv
    simp only [Json.obj.injEq, List.cons.injEq, Prod.mk.injEq, true_and, and_true] at hb
    subst hb
    simp only [boolMembers, List.mem_append] at hkv
    rcases hkv with (((hkv | hkv) | hkv) | hkv) | hkv
    · exact omitEmptyList_no_empty _ _ _ hkv
    · exact omitEmptyList_no_empty _ _ _ hkv
    · exact omitEmptyList_no_empty _ _ _ hkv
    · exact omitEmptyList_no_empty _ _ _ hkv
    · simp only [omitZero] at hkv
      split_ifs at hkv
      · cases hkv
      · simp only [List.mem_singleton] at hkv
        subst hkv
        simp

theorem getWrappedQuery_bool_witness :
    (getWrappedQuery shouldQueryDoc).marshal asciiLower =
      .ok (.obj [("bool", .obj [
        ("should", .arr [.obj [("terms", .obj [("some_index_id",
          .str "some-long-key-id-value")])]]),
        ("minimum_should_match", .num 1)])]) ∧
    ∃ must mustNot should filter : List Json,
      LeavesOf asciiLower shouldQueryDoc.Or should ∧ should.length = 1 ∧
      must.length = 0 ∧ mustNot.length = 0 ∧ filter.length = 0 :=
  ⟨rfl, by
    obtain ⟨must, mustNot, should, filter, _, _, h3, _, l1, l2, l3, l4, _, _⟩ :=
      getWrappedQuery_bool asciiLower shouldQueryDoc _ rfl
    exact ⟨must, mustNot, should, filter, h3, l3, l1, l2, l4⟩⟩

/-! ## Leaves -/

theorem handleMarshalType_default (toLower : String → String) (q : leafQuery) (tok : String)
    (enc : Except Failure Json) (hw : q.Type_ ≠ Wildcard) (hq : q.Type_ ≠ QueryString) :
    q.handleMarshalType toLower tok enc =
      enc.map (fun v => .obj [(tok, .obj [(q.Name, v)])]) := by
  simp only [leafQuery.handleMarshalType, if_neg hw, if_neg hq]
  cases enc <;> rfl

theorem QueryType_String_ok (qt : QueryType) (h0 : 0 ≤ qt) (h10 : qt ≤ 10) :
    ∃ tok, QueryType.String qt = .ok tok ∧ convs[qt.toNat]? = some tok := by
  interval_cases qt <;> exact ⟨_, rfl, rfl⟩

/-- C3: for an item whose Type is a member of the enumeration other than Wildcard, QueryString
and Nested, and for every Value, the serialized leaf is the object with the single key
token(Type), holding the object with the single key Field, holding the encoding of the Value as
`json.Marshal` gives it: nothing is done to the Value on the way. A text Value is therefore
written as it is, without the sanitizer: `kimchy!` under Match or Term keeps its text, and the
bytes of the leaf contain no backslash. -/
theorem default_leaf (toLower : String → String) (item : QueryItem)
    (h0 : 0 ≤ item.Type_) (h10 : item.Type_ ≤ 10) (hw : item.Type_ ≠ Wildcard)
    (hq : item.Type_ ≠ QueryString) (hn : item.Type_ ≠ Nested) :
    ∃ tok, QueryType.String item.Type_ = .ok tok ∧
      leafQuery.MarshalJSON toLower (leafOf item) =
        (encodeValue toLower item.Value).map
          (fun v => .obj [(tok, .obj [(item.Field, v)])]) ∧
      (∀ s, item.Value = .text s →
        leafQuery.MarshalJSON toLower (leafOf item) =
          .ok (.obj [(tok, .obj [(item.Field, .str s)])])) ∧
      (Json.obj [("match", .obj [("user.id", .str "kimchy!")])]).render =
        "\x7b\"match\":\x7b\"user.id\":\"kimchy!\"\x7d\x7d" ∧
      (Json.obj [("term", .obj [("user.id", .str "kimchy!")])]).render =
        "\x7b\"term\":\x7b\"user.id\":\"kimchy!\"\x7d\x7d" := by
  obtain ⟨tok, htok, -⟩ := QueryType_String_ok item.Type_ h0 h10
  have hleaf : leafQuery.MarshalJSON toLower (leafOf item) =
      (encodeValue toLower item.Value).map
        (fun v => .obj [(tok, .obj [(item.Field, v)])]) := by
    rw [leafQuery_MarshalJSON_eq]
    simp only [leafOf, if_neg hn, htok]
    exact handleMarshalType_default toLower _ tok _ hw hq
  refine ⟨tok, htok, hleaf, ?_, rfl, rfl⟩
  intro s hs
  rw [hleaf, hs]
  rfl

theorem default_leaf_witness :
    (0 : QueryType) ≤ Term ∧ Term ≤ 10 ∧ Term ≠ Wildcard ∧ Term ≠ QueryString ∧
    Term ≠ Nested ∧
    ∃ tok, QueryType.String Term = .ok tok ∧
      leafQuery.MarshalJSON asciiLower (leafOf ⟨"user.id", .text "kimchy!", Term⟩) =
        .ok (.obj [(tok, .obj [("user.id", .str "kimchy!")])]) :=
  ⟨by decide, by decide, by decide, by decide, by decide, by
    obtain ⟨tok, h1, _, h3, _⟩ := default_leaf asciiLower ⟨"user.id", .text "kimchy!", Term⟩
      (by decide) (by decide) (by decide) (by decide) (by decide)
    exact ⟨tok, h1, h3 "kimchy!" rfl⟩⟩

/-- C4: an item of Type QueryString with field `f` and text value `v` serializes to the object
`query_string: (analyze_wildcard: true, fields: [f], query: sanitize(v))`, the keys in this
order, where sanitize is `sanitizeElasticQueryField`. For `kimchy!` the query text is
`kimchy\!`, whose JSON text is `"kimchy\\!"`, and the document of `TestQueryStringEsc` encodes to
the expected bytes. -/
theorem queryString_leaf (toLower : String → String) (f v : String) :
    leafQuery.MarshalJSON toLower (leafOf ⟨f, .text v, QueryString⟩) =
      .ok (.obj [("query_string", .obj [("analyze_wildcard", .bool true),
        ("fields", .arr [.str f]), ("query", .str (sanitizeElasticQueryField v))])]) ∧
    sanitizeElasticQueryField "kimchy!" = "kimchy\\!" ∧
    (Json.str (sanitizeElasticQueryField "kimchy!")).render = "\"kimchy\\\\!\"" ∧
    (QueryDoc.MarshalJSON toLower
        { QueryDoc.zero with
          Index := "some_index"
          And := [⟨"user.id", .text "kimchy!", QueryString⟩] }).map Json.render =
      .ok "\x7b\"query\":\x7b\"bool\":\x7b\"must\":[\x7b\"query_string\":\x7b\"analyze_wildcard\":true,\"fields\":[\"user.id\"],\"query\":\"kimchy\\\\!\"\x7d\x7d]\x7d\x7d,\"size\":0\x7d" :=
  ⟨rfl, by decide, by decide, by rfl⟩

/-- C9: an item of Type Wildcard with field `f` and a text value `s` serializes to
`wildcard: (f: (case_insensitive: true, value: lower(s)))`, where lower is `strings.ToLower`;
with a value that is not text it serializes to the default form `wildcard: (f: Value)`, the
value encoded as it is, neither lower-cased nor wrapped. -/
theorem wildcard_leaf (toLower : String → String) (f : String) (v : Value)
    (hv : ∀ s, v ≠ .text s) :
    (∀ s, leafQuery.MarshalJSON toLower (leafOf ⟨f, .text s, Wildcard⟩) =
      .ok (.obj [("wildcard", .obj [(f, .obj [("case_insensitive", .bool true),
        ("value", .str (toLower s))])])])) ∧
    leafQuery.MarshalJSON toLower (leafOf ⟨f, v, Wildcard⟩) =
      (encodeValue toLower v).map (fun j => .obj [("wildcard", .obj [(f, j)])]) := by
  refine ⟨fun s => rfl, ?_⟩
  rcases v with (s | n | b | _ | xs | m) | d
  · exact absurd rfl (hv s)
  all_goals rfl

theorem wildcard_leaf_witness :
    (∀ s, Value.data (.int 7) ≠ .text s) ∧
    leafQuery.MarshalJSON asciiLower (leafOf ⟨"user", .text "Ki*Y", Wildcard⟩) =
      .ok (.obj [("wildcard", .obj [("user", .obj [("case_insensitive", .bool true),
        ("value", .str "ki*y")])])]) ∧
    leafQuery.MarshalJSON asciiLower (leafOf ⟨"user", .data (.int 7), Wildcard⟩) =
      .ok (.obj [("wildcard", .obj [("user", .num 7)])]) :=
  ⟨(fun _ h => nomatch h),
    (wildcard_leaf asciiLower "user" (.data (.int 7)) (fun _ h => nomatch h)).1 "Ki*Y",
    (wildcard_leaf asciiLower "user" (.data (.int 7)) (fun _ h => nomatch h)).2⟩

/-- C10: an item of Type Nested whose Value holds a QueryDoc `d` serializes to the encoding of
`getWrappedQuery(d)`: an object with the single key `bool`, with no `nested` key around it, the
same whatever the Field of the item. The rule is applied again to a Nested item inside `d`: a
document whose only clause is such an item has the inner `bool` object as the single element of
its `must` list. -/
theorem nested_leaf (toLower : String → String) (f : String) (d : QueryDoc) :
    leafQuery.MarshalJSON toLower (leafOf ⟨f, .doc d, Nested⟩) =
      (getWrappedQuery d).marshal toLower ∧
    (∀ f2, leafQuery.MarshalJSON toLower (leafOf ⟨f2, .doc d, Nested⟩) =
      leafQuery.MarshalJSON toLower (leafOf ⟨f, .doc d, Nested⟩)) ∧
    (∀ j, leafQuery.MarshalJSON toLower (leafOf ⟨f, .doc d, Nested⟩) = .ok j →
      ∃ b, j = .obj [("bool", .obj b)]) ∧
    leafQuery.MarshalJSON toLower
        (leafOf ⟨f, .doc { QueryDoc.zero with And := [⟨f, .doc d, Nested⟩] }, Nested⟩) =
      ((getWrappedQuery d).marshal toLower).map
        (fun inner => .obj [("bool", .obj [("must", .arr [inner])])]) := by
  have h1 : ∀ (g : String) (e : QueryDoc),
      leafQuery.MarshalJSON toLower (leafOf ⟨g, .doc e, Nested⟩) =
        (getWrappedQuery e).marshal toLower := by
    intro g e
    rw [leafQuery_MarshalJSON_eq]
    rfl
  refine ⟨h1 f d, fun f2 => by rw [h1, h1], ?_, ?_⟩
  · intro j hj
    rw [h1] at hj
    obtain ⟨must, mustNot, should, filters, -, -, -, -, rfl⟩ :=
      queryWrap_marshal_ok toLower _ j hj
    exact ⟨_, rfl⟩
  · rw [← h1 f d]
    show encodeLeaf toLower _ = Except.map _ (encodeLeaf toLower _)
    rw [encodeLeaf_unfold]
    simp only [leafOf, if_pos]
    show encodeWrapped toLower _ = _
    simp only [encodeWrapped, encodeLeaves, QueryDoc.zero]
    cases encodeLeaf toLower ⟨f, .doc d, Nested⟩ <;> rfl

theorem nested_leaf_witness :
    leafQuery.MarshalJSON asciiLower (leafOf ⟨"ignored", .doc shouldQueryDoc, Nested⟩) =
      .ok (.obj [("bool", .obj [
        ("should", .arr [.obj [("terms", .obj [("some_index_id",
          .str "some-long-key-id-value")])]]),
        ("minimum_should_match", .num 1)])]) ∧
    ∃ b, Json.obj [("bool", .obj [
        ("should", .arr [.obj [("terms", .obj [("some_index_id",
          .str "some-long-key-id-value")])]]),
        ("minimum_should_match", .num 1)])] = .obj [("bool", .obj b)] :=
  ⟨rfl, (nested_leaf asciiLower "ignored" shouldQueryDoc).2.2.1 _ rfl⟩

/-! ## The sanitizer -/

theorem escapeWith_nil_nil (s : List Char) : escapeWith [] [] s = s := by
  induction s with
  | nil => rfl
  | cons c rest ih =>
    cases rest with
    | nil => simp [escapeWith]
    | cons d rest => simp only [escapeWith, List.not_mem_nil, false_and, if_false, ih]

theorem escapeWith_cons_single (L P : List Char) (c : Char) (rest : List Char) (hc : c ∈ L) :
    escapeWith L P (c :: rest) = '\\' :: c :: escapeWith L P rest := by
  cases rest with
  | nil => simp [escapeWith, hc]
  | cons d rest => simp [escapeWith, hc]

theorem escapeWith_cons_plain (L P : List Char) (c : Char) (rest : List Char) (hc : c ∉ L)
    (hp : c ∉ P) : escapeWith L P (c :: rest) = c :: escapeWith L P rest := by
  cases rest with
  | nil => simp [escapeWith, hc]
  | cons d rest => simp [escapeWith, hc, hp]

theorem escapeWith_cons_pair (L P : List Char) (c : Char) (rest : List Char) (hc : c ∉ L)
    (hp : c ∈ P) : escapeWith L P (c :: c :: rest) = '\\' :: c :: c :: escapeWith L P rest := by
  simp [escapeWith, hc, hp]

theorem escapeWith_cons_lone (L P : List Char) (c d : Char) (rest : List Char) (hc : c ∉ L)
    (hd : d ≠ c) : escapeWith L P (c :: d :: rest) = c :: escapeWith L P (d :: rest) := by
  simp [escapeWith, hc, hd]

theorem escapeWith_head (L P : List Char) (d : Char) (rest : List Char) :
    ∃ h tl, escapeWith L P (d :: rest) = h :: tl ∧ (h = '\\' ∨ h = d) := by
  cases rest with
  | nil =>
    simp only [escapeWith]
    split_ifs
    · exact ⟨_, _, rfl, Or.inl rfl⟩
    · exact ⟨_, _, rfl, Or.inr rfl⟩
  | cons e rest =>
    simp only [escapeWith]
    split_ifs
    · exact ⟨_, _, rfl, Or.inl rfl⟩
    · exact ⟨_, _, rfl, Or.inl rfl⟩
    · exact ⟨_, _, rfl, Or.inr rfl⟩

/-! ### One replacement at a time -/

theorem replaceOne_nil (t : Char) : replaceAllChars [t] ['\\', t] 0 [] = [] := by
  simp [replaceAllChars]

theorem replaceOne_cons (t c : Char) (cs : List Char) :
    replaceAllChars [t] ['\\', t] 0 (c :: cs) =
      if c = t then '\\' :: t :: replaceAllChars [t] ['\\', t] 0 cs
      else c :: replaceAllChars [t] ['\\', t] 0 cs := by
  by_cases h : c = t
  · subst h; simp [replaceAllChars, List.isPrefixOf]
  · have h2 : ¬ t = c := fun e => h e.symm
    simp [replaceAllChars, List.isPrefixOf, h, h2]

theorem replaceTwo_nil (t : Char) : replaceAllChars [t, t] ['\\', t, t] 0 [] = [] := by
  simp [replaceAllChars]

theorem replaceTwo_copy (t c : Char) (cs : List Char) (h : c ≠ t) :
    replaceAllChars [t, t] ['\\', t, t] 0 (c :: cs) =
      c :: replaceAllChars [t, t] ['\\', t, t] 0 cs := by
  have h2 : ¬ t = c := fun e => h e.symm
  simp [replaceAllChars, List.isPrefixOf, h2]

theorem replaceTwo_hit (t : Char) (cs : List Char) :
    replaceAllChars [t, t] ['\\', t, t] 0 (t :: t :: cs) =
      '\\' :: t :: t :: replaceAllChars [t, t] ['\\', t, t] 0 cs := by
  simp [replaceAllChars, List.isPrefixOf]

theorem replaceTwo_lone (t d : Char) (cs : List Char) (h : d ≠ t) :
    replaceAllChars [t, t] ['\\', t, t] 0 (t :: d :: cs) =
      t :: replaceAllChars [t, t] ['\\', t, t] 0 (d :: cs) := by
  have h2 : ¬ t = d := fun e => h e.symm
  simp [replaceAllChars, List.isPrefixOf, h2]

theorem replaceTwo_last (t : Char) :
    replaceAllChars [t, t] ['\\', t, t] 0 [t] = [t] := by
  simp [replaceAllChars, List.isPrefixOf]


/-- Replacing a first single token on the raw text. -/
theorem replaceOne_raw (t : Char) (s : List Char) :
    replaceAllChars [t] ['\\', t] 0 s = escapeWith [t] [] s := by
  induction s with
  | nil => simp [replaceAllChars, escapeWith]
  | cons c rest ih =>
    rw [replaceOne_cons, ih]
    by_cases h : c = t
    · subst h
      rw [if_pos rfl, escapeWith_cons_single _ _ _ _ (List.mem_singleton.2 rfl)]
    · rw [if_neg h, escapeWith_cons_plain _ _ _ _ (by simpa using h) (List.not_mem_nil _)]

/-- Replacing one more single token after some tokens have been replaced. -/
theorem replaceOne_escapeWith (L P : List Char) (t : Char) (hL : t ∉ L) (hP : t ∉ P)
    (hb : t ≠ '\\') (s : List Char) :
    replaceAllChars [t] ['\\', t] 0 (escapeWith L P s) = escapeWith (L ++ [t]) P s := by
  have hbt : ¬ '\\' = t := fun e => hb e.symm
  suffices H : ∀ n (s : List Char), s.length ≤ n →
      replaceAllChars [t] ['\\', t] 0 (escapeWith L P s) = escapeWith (L ++ [t]) P s from
    H s.length s le_rfl
  intro n
  induction n with
  | zero =>
    intro s hs
    have : s = [] := List.length_eq_zero.1 (Nat.le_zero.1 hs)
    subst this
    simp [escapeWith, replaceAllChars]
  | succ n ih =>
    intro s hs
    match s, hs with
    | [], _ => simp [escapeWith, replaceAllChars]
    | c :: rest, hs =>
      have hrest : rest.length ≤ n := by simpa using hs
      by_cases hc : c ∈ L
      · have hct : c ≠ t := fun e => hL (e ▸ hc)
        rw [escapeWith_cons_single L P c rest hc,
          escapeWith_cons_single (L ++ [t]) P c rest (List.mem_append_left _ hc),
          replaceOne_cons, if_neg hbt, replaceOne_cons, if_neg hct, ih rest hrest]
      · match rest, hrest with
        | [], _ =>
          by_cases hct : c = t
          · subst hct
            simp [escapeWith, hc, replaceOne_cons, replaceOne_nil]
          · simp [escapeWith, hc, hct, replaceOne_cons, replaceOne_nil]
        | d :: rest2, hrest =>
          have hrest2 : rest2.length ≤ n := by
            simp only [List.length_cons] at hrest; omega
          by_cases hp : c ∈ P ∧ d = c
          · obtain ⟨hcp, hdc⟩ := hp
            subst hdc
            have hct : d ≠ t := fun e => hP (e ▸ hcp)
            have hc2 : d ∉ L ++ [t] := by
              simp only [List.mem_append, List.mem_singleton, not_or]
              exact ⟨hc, hct⟩
            rw [escapeWith_cons_pair L P d rest2 hc hcp,
              escapeWith_cons_pair (L ++ [t]) P d rest2 hc2 hcp,
              replaceOne_cons, if_neg hbt, replaceOne_cons, if_neg hct, replaceOne_cons,
              if_neg hct, ih rest2 hrest2]
          · have e1 : escapeWith L P (c :: d :: rest2) = c :: escapeWith L P (d :: rest2) := by
              simp only [escapeWith, if_neg hc, if_neg hp]
            rw [e1, replaceOne_cons, ih (d :: rest2) hrest]
            by_cases hct : c = t
            · subst hct
              rw [if_pos rfl,
                escapeWith_cons_single (L ++ [c]) P c (d :: rest2) (by simp)]
            · have hc2 : c ∉ L ++ [t] := by
                simp only [List.mem_append, List.mem_singleton, not_or]
                exact ⟨hc, hct⟩
              rw [if_neg hct]
              simp only [escapeWith, if_neg hc2, if_neg hp]


/-- Replacing a doubled token after some tokens have been replaced. -/
theorem replaceTwo_escapeWith (L P : List Char) (t : Char) (hL : t ∉ L) (hP : t ∉ P)
    (hb : t ≠ '\\') (s : List Char) :
    replaceAllChars [t, t] ['\\', t, t] 0 (escapeWith L P s) = escapeWith L (P ++ [t]) s := by
  have hbt : '\\' ≠ t := fun e => hb e.symm
  suffices H : ∀ n (s : List Char), s.length ≤ n →
      replaceAllChars [t, t] ['\\', t, t] 0 (escapeWith L P s) = escapeWith L (P ++ [t]) s from
    H s.length s le_rfl
  intro n
  induction n with
  | zero =>
    intro s hs
    have : s = [] := List.length_eq_zero.1 (Nat.le_zero.1 hs)
    subst this
    simp [escapeWith, replaceAllChars]
  | succ n ih =>
    intro s hs
    match s, hs with
    | [], _ => simp [escapeWith, replaceAllChars]
    | c :: rest, hs =>
      have hrest : rest.length ≤ n := by simpa using hs
      by_cases hc : c ∈ L
      · have hct : c ≠ t := fun e => hL (e ▸ hc)
        rw [escapeWith_cons_single L P c rest hc,
          escapeWith_cons_single L (P ++ [t]) c rest hc,
          replaceTwo_copy t _ _ hbt, replaceTwo_copy t _ _ hct, ih rest hrest]
      · match rest, hrest with
        | [], _ =>
          by_cases hct : c = t
          · subst hct
            simp [escapeWith, hc, replaceTwo_last]
          · simp [escapeWith, hc, replaceTwo_copy _ _ _ hct, replaceTwo_nil]
        | d :: rest2, hrest =>
          have hrest2 : rest2.length ≤ n := by
            simp only [List.length_cons] at hrest; omega
          by_cases hp : c ∈ P ∧ d = c
          · obtain ⟨hcp, hdc⟩ := hp
            subst hdc
            have hct : d ≠ t := fun e => hP (e ▸ hcp)
            rw [escapeWith_cons_pair L P d rest2 hc hcp,
              escapeWith_cons_pair L (P ++ [t]) d rest2 hc (List.mem_append_left _ hcp),
              replaceTwo_copy t _ _ hbt, replaceTwo_copy t _ _ hct, replaceTwo_copy t _ _ hct,
              ih rest2 hrest2]
          · have e1 : escapeWith L P (c :: d :: rest2) = c :: escapeWith L P (d :: rest2) := by
              simp only [escapeWith, if_neg hc, if_neg hp]
            rw [e1]
            by_cases hct : c = t
            · subst hct
              by_cases hdc : d = c
              · subst hdc
                rw [escapeWith_cons_plain L P d rest2 hc hP, replaceTwo_hit, ih rest2 hrest2,
                  escapeWith_cons_pair L (P ++ [d]) d rest2 hc (by simp)]
              · obtain ⟨h, tl, e2, hh⟩ := escapeWith_head L P d rest2
                have hhc : h ≠ c := by
                  rcases hh with hh | hh
                  · rw [hh]; exact hbt
                  · rw [hh]; exact hdc
                rw [escapeWith_cons_lone L (P ++ [c]) c d rest2 hc hdc, ← ih (d :: rest2) hrest,
                  e2, replaceTwo_lone c h tl hhc]
            · rw [replaceTwo_copy t _ _ hct, ih (d :: rest2) hrest]
              have hp2 : ¬ (c ∈ P ++ [t] ∧ d = c) := by
                simp only [List.mem_append, List.mem_singleton, not_and]
                intro h1 h2
                rcases h1 with h1 | h1
                · exact hp ⟨h1, h2⟩
                · exact hct h1
              simp only [escapeWith, if_neg hc, if_neg hp2]


theorem replaceAllChars_of_not_contains (old new : List Char) (hold : old ≠ []) (s : List Char)
    (h : containsChars old s = false) : replaceAllChars old new 0 s = s := by
  have he : old.isEmpty = false := by cases old <;> simp_all
  induction s with
  | nil => simp [replaceAllChars, he]
  | cons c rest ih =>
    simp only [containsChars, Bool.or_eq_false_iff] at h
    simp only [replaceAllChars, he, h.1, Bool.false_eq_true, if_false, ih h.2]

/-- One round of the loop of the sanitizer, on code points. -/
theorem sanitize_step (acc tok : String) (htok : tok.data ≠ []) :
    (if strings_Contains acc tok then strings_ReplaceAll acc tok ("\\" ++ tok) else acc) =
      ⟨replaceAllChars tok.data ('\\' :: tok.data) 0 acc.data⟩ := by
  have hd : ("\\" ++ tok).data = '\\' :: tok.data := by
    rw [String.data_append]; rfl
  by_cases h : strings_Contains acc tok = true
  · rw [if_pos h, strings_ReplaceAll, hd]
  · rw [if_neg h]
    have h2 : containsChars tok.data acc.data = false := by
      simpa [strings_Contains] using h
    rw [replaceAllChars_of_not_contains _ _ htok _ h2]

theorem sanitize_fold (toks : List String) (htoks : ∀ tok ∈ toks, tok.data ≠ [])
    (acc : String) :
    toks.foldl
      (fun sanitizedKeyword char =>
        if strings_Contains sanitizedKeyword char then
          strings_ReplaceAll sanitizedKeyword char ("\\" ++ char)
        else sanitizedKeyword) acc =
      ⟨(toks.map String.data).foldl (fun cs t => replaceAllChars t ('\\' :: t) 0 cs)
        acc.data⟩ := by
  induction toks generalizing acc with
  | nil => rfl
  | cons tok rest ih =>
    simp only [List.foldl, List.map]
    rw [sanitize_step acc tok (htoks tok (List.mem_cons_self _ _)),
      ih (fun t ht => htoks t (List.mem_cons_of_mem _ ht))]

/-- The sanitizer is the pass that escapes every reserved token. -/
theorem sanitize_eq_escapeWith (s : String) :
    sanitizeElasticQueryField s = ⟨escapeWith reservedChars ['&', '|'] s.data⟩ := by
  have hne : ∀ tok ∈ reserved, tok.data ≠ [] := by decide
  have hmap : reserved.map String.data =
      [['\\'], ['+'], ['='], ['&', '&'], ['|', '|'], ['!'], ['('], [')'], ['\x7b'], ['\x7d'],
       ['['], [']'], ['^'], ['\x22'], ['~'], ['*'], ['?'], [':'], ['/']] := by decide
  rw [sanitizeElasticQueryField, sanitize_fold reserved hne s, hmap]
  simp only [List.foldl]
  rw [replaceOne_raw '\\' s.data,
    replaceOne_escapeWith _ _ '+' (by decide) (by decide) (by decide),
    replaceOne_escapeWith _ _ '=' (by decide) (by decide) (by decide),
    replaceTwo_escapeWith _ _ '&' (by decide) (by decide) (by decide),
    replaceTwo_escapeWith _ _ '|' (by decide) (by decide) (by decide),
    replaceOne_escapeWith _ _ '!' (by decide) (by decide) (by decide),
    replaceOne_escapeWith _ _ '(' (by decide) (by decide) (by decide),
    replaceOne_escapeWith _ _ ')' (by decide) (by decide) (by decide),
    replaceOne_escapeWith _ _ '\x7b' (by decide) (by decide) (by decide),
    replaceOne_escapeWith _ _ '\x7d' (by decide) (by decide) (by decide),
    replaceOne_escapeWith _ _ '[' (by decide) (by decide) (by decide),
    replaceOne_escapeWith _ _ ']' (by decide) (by decide) (by decide),
    replaceOne_escapeWith _ _ '^' (by decide) (by decide) (by decide),
    replaceOne_escapeWith _ _ '\x22' (by decide) (by decide) (by decide),
    replaceOne_escapeWith _ _ '~' (by decide) (by decide) (by decide),
    replaceOne_escapeWith _ _ '*' (by decide) (by decide) (by decide),
    replaceOne_escapeWith _ _ '?' (by decide) (by decide) (by decide),
    replaceOne_escapeWith _ _ ':' (by decide) (by decide) (by decide),
    replaceOne_escapeWith _ _ '/' (by decide) (by decide) (by decide)]
  rfl

theorem escapeOnePass_eq_escapeWith (s : List Char) :
    escapeOnePass s = escapeWith reservedChars ['&', '|'] s := by
  suffices H : ∀ n (s : List Char), s.length ≤ n →
      escapeOnePass s = escapeWith reservedChars ['&', '|'] s from H s.length s le_rfl
  intro n
  induction n with
  | zero =>
    intro s hs
    have : s = [] := List.length_eq_zero.1 (Nat.le_zero.1 hs)
    subst this
    rfl
  | succ n ih =>
    intro s hs
    match s, hs with
    | [], _ => rfl
    | [c], _ => rfl
    | c :: d :: rest, hs =>
      have h1 : (d :: rest).length ≤ n := by simpa using hs
      have h2 : rest.length ≤ n := by simp only [List.length_cons] at h1; omega
      simp only [escapeOnePass, escapeWith, ih _ h1, ih _ h2]
      by_cases hc : c ∈ reservedChars
      · simp only [if_pos hc]
      · simp only [if_neg hc]
        by_cases ha : c = '&' ∧ d = '&'
        · obtain ⟨rfl, rfl⟩ := ha
          simp
        · by_cases hb : c = '|' ∧ d = '|'
          · obtain ⟨rfl, rfl⟩ := hb
            simp
          · have hp : ¬ (c ∈ ['&', '|'] ∧ d = c) := by
              simp only [List.mem_cons, List.mem_singleton, List.not_mem_nil, or_false]
              rintro ⟨h | h, h2⟩
              · exact ha ⟨h, h2.trans h⟩
              · exact hb ⟨h, h2.trans h⟩
            simp only [if_neg ha, if_neg hb, if_neg hp]

/-- C5: for every text, `sanitizeElasticQueryField` (one global replace per reserved token, in
the order of the reserved list) returns what a single left-to-right pass returns that puts one
backslash in front of every backslash, of every single reserved character and of every leftmost
non-overlapping `&&` and `||`, and copies every other character. No backslash put in for one
token is escaped again for a later one: in the text of all the tokens each gets exactly one. -/
theorem sanitize_refines_onePass (s : String) :
    sanitizeElasticQueryField s = ⟨escapeOnePass s.data⟩ ∧
    sanitizeElasticQueryField "\\+=&&||!()\x7b\x7d[]^\"~*?:/" =
      "\\\\\\+\\=\\&&\\||\\!\\(\\)\\\x7b\\\x7d\\[\\]\\^\\\"\\~\\*\\?\\:\\/" ∧
    sanitizeElasticQueryField "a&&&b|||c&|" = "a\\&&&b\\|||c&|" := by
  refine ⟨?_, by decide, by decide⟩
  rw [sanitize_eq_escapeWith, escapeOnePass_eq_escapeWith]

/-! ## Unsupported types abort the encoding -/

theorem encodeLeaves_ok_mem (toLower : String → String) (l : List QueryItem) (js : List Json)
    (h : encodeLeaves toLower l = .ok js) (n : QueryItem) (hn : n ∈ l) :
    ∃ j, encodeLeaf toLower n = .ok j := by
  induction l generalizing js with
  | nil => cases hn
  | cons x rest ih =>
    simp only [encodeLeaves] at h
    cases hx : encodeLeaf toLower x with
    | error e => simp [hx, bind, Except.bind] at h
    | ok j =>
      cases hr : encodeLeaves toLower rest with
      | error e => simp [hx, hr, bind, Except.bind] at h
      | ok js2 =>
        rcases List.mem_cons.1 hn with rfl | hm
        · exact ⟨j, hx⟩
        · exact ih js2 hr hm

theorem encodeLeaves_err (toLower : String → String) (l : List QueryItem) (e : Failure)
    (h : encodeLeaves toLower l = .error e) : ∃ n ∈ l, encodeLeaf toLower n = .error e := by
  induction l with
  | nil => simp [encodeLeaves] at h
  | cons x rest ih =>
    simp only [encodeLeaves] at h
    cases hx : encodeLeaf toLower x with
    | error e2 =>
      simp only [hx, bind, Except.bind, Except.error.injEq] at h
      exact ⟨x, List.mem_cons_self _ _, by rw [hx, h]⟩
    | ok j =>
      cases hr : encodeLeaves toLower rest with
      | error e2 =>
        simp only [hx, hr, bind, Except.bind, Except.error.injEq] at h
        obtain ⟨n, hn, hne⟩ := ih (by rw [hr, h])
        exact ⟨n, List.mem_cons_of_mem _ hn, hne⟩
      | ok js2 => simp [hx, hr, bind, Except.bind, pure, Except.pure] at h

theorem encodeWrapped_ok (toLower : String → String) (d : QueryDoc) (j : Json)
    (h : encodeWrapped toLower d = .ok j) :
    ∃ must mustNot should filters,
      encodeLeaves toLower d.And = .ok must ∧ encodeLeaves toLower d.Not = .ok mustNot ∧
      encodeLeaves toLower d.Or = .ok should ∧ encodeLeaves toLower d.Filter = .ok filters := by
  obtain ⟨i, sz, fr, so, sa, a, n, o, f, ps, tth, msm, ta, ca, src⟩ := d
  simp only [encodeWrapped] at h
  cases h1 : encodeLeaves toLower a with
  | error e => simp [h1, bind, Except.bind] at h
  | ok must =>
  cases h2 : encodeLeaves toLower n with
  | error e => simp [h1, h2, bind, Except.bind] at h
  | ok mustNot =>
  cases h3 : encodeLeaves toLower o with
  | error e => simp [h1, h2, h3, bind, Except.bind] at h
  | ok should =>
  cases h4 : encodeLeaves toLower f with
  | error e => simp [h1, h2, h3, h4, bind, Except.bind] at h
  | ok filters => exact ⟨must, mustNot, should, filters, rfl, rfl, rfl, rfl⟩

theorem encodeWrapped_err (toLower : String → String) (d : QueryDoc) (e : Failure)
    (h : encodeWrapped toLower d = .error e) :
    ∃ n ∈ clauseItems d, encodeLeaf toLower n = .error e := by
  obtain ⟨i, sz, fr, so, sa, a, n, o, f, ps, tth, msm, ta, ca, src⟩ := d
  simp only [encodeWrapped] at h
  simp only [clauseItems, List.mem_append]
  cases h1 : encodeLeaves toLower a with
  | error e1 =>
    simp only [h1, bind, Except.bind, Except.error.injEq] at h
    obtain ⟨x, hx, hxe⟩ := encodeLeaves_err toLower a e (by rw [h1, h])
    exact ⟨x, Or.inl (Or.inl (Or.inl hx)), hxe⟩
  | ok must =>
  cases h2 : encodeLeaves toLower n with
  | error e1 =>
    simp only [h1, h2, bind, Except.bind, Except.error.injEq] at h
    obtain ⟨x, hx, hxe⟩ := encodeLeaves_err toLower n e (by rw [h2, h])
    exact ⟨x, Or.inl (Or.inl (Or.inr hx)), hxe⟩
  | ok mustNot =>
  cases h3 : encodeLeaves toLower o with
  | error e1 =>
    simp only [h1, h2, h3, bind, Except.bind, Except.error.injEq] at h
    obtain ⟨x, hx, hxe⟩ := encodeLeaves_err toLower o e (by rw [h3, h])
    exact ⟨x, Or.inl (Or.inr hx), hxe⟩
  | ok should =>
  cases h4 : encodeLeaves toLower f with
  | error e1 =>
    simp only [h1, h2, h3, h4, bind, Except.bind, Except.error.injEq] at h
    obtain ⟨x, hx, hxe⟩ := encodeLeaves_err toLower f e (by rw [h4, h])
    exact ⟨x, Or.inr hx, hxe⟩
  | ok filters => simp [h1, h2, h3, h4, bind, Except.bind, pure, Except.pure] at h

theorem encodeWrapped_fails_of_leaf (toLower : String → String) (d : QueryDoc) (n : QueryItem)
    (hn : n ∈ clauseItems d) (hf : ∀ j, encodeLeaf toLower n ≠ .ok j) :
    ∀ j, encodeWrapped toLower d ≠ .ok j := by
  intro j hj
  obtain ⟨must, mustNot, should, filters, h1, h2, h3, h4⟩ := encodeWrapped_ok toLower d j hj
  simp only [clauseItems, List.mem_append] at hn
  rcases hn with ((hn | hn) | hn) | hn
  · obtain ⟨x, hx⟩ := encodeLeaves_ok_mem toLower _ _ h1 n hn; exact hf x hx
  · obtain ⟨x, hx⟩ := encodeLeaves_ok_mem toLower _ _ h2 n hn; exact hf x hx
  · obtain ⟨x, hx⟩ := encodeLeaves_ok_mem toLower _ _ h3 n hn; exact hf x hx
  · obtain ⟨x, hx⟩ := encodeLeaves_ok_mem toLower _ _ h4 n hn; exact hf x hx


theorem QueryType_String_err (t v : QueryType)
    (h : QueryType.String t = .error (.QueryTypeErr v)) : v = t := by
  simp only [QueryType.String] at h
  split_ifs at h
  · simp only [Except.error.injEq, Failure.QueryTypeErr.injEq] at h
    exact h.symm
  · cases h
  · split at h <;> cases h

theorem stringIgnoringErr_err (t : QueryType) (e : Failure)
    (h : stringIgnoringErr t = .error e) : ∃ p, e = .goPanic p := by
  simp only [stringIgnoringErr] at h
  split at h
  · cases h
  · cases h
  · simp only [Except.error.injEq] at h
    exact ⟨_, h.symm⟩

theorem constructTermsAggregations_err (aggs : List Aggregation) (e : Failure)
    (h : constructTermsAggregations aggs = .error e) : ∃ p, e = .goPanic p := by
  induction aggs with
  | nil => simp [constructTermsAggregations] at h
  | cons agg rest ih =>
    simp only [constructTermsAggregations] at h
    cases hk : stringIgnoringErr agg.Type_ with
    | error e2 =>
      simp only [hk, bind, Except.bind, Except.error.injEq] at h
      exact h ▸ stringIgnoringErr_err _ _ hk
    | ok key =>
      simp only [hk, bind, Except.bind] at h
      split_ifs at h
      · cases hr : constructTermsAggregations rest with
        | error e2 =>
          simp only [hr, Except.error.injEq] at h
          exact ih (by rw [hr, h])
        | ok inner => simp [hr, pure, Except.pure] at h
      · simp [pure, Except.pure] at h

theorem addCardinalityAggregations_err (cs : List Aggregation) (m : List (String × Data))
    (e : Failure) (h : addCardinalityAggregations cs m = .error e) : ∃ p, e = .goPanic p := by
  induction cs generalizing m with
  | nil => simp [addCardinalityAggregations] at h
  | cons c rest ih =>
    simp only [addCardinalityAggregations] at h
    cases hk : stringIgnoringErr c.Type_ with
    | error e2 =>
      simp only [hk, bind, Except.bind, Except.error.injEq] at h
      exact h ▸ stringIgnoringErr_err _ _ hk
    | ok key =>
      simp only [hk, bind, Except.bind] at h
      exact ih _ h

theorem constructAggregations_err (d : QueryDoc) (e : Failure)
    (h : constructAggregations d = .error e) : ∃ p, e = .goPanic p := by
  simp only [constructAggregations] at h
  cases ht : constructTermsAggregations d.TermsAggregations with
  | error e2 =>
    simp only [ht, bind, Except.bind, Except.error.injEq] at h
    exact h ▸ constructTermsAggregations_err _ _ ht
  | ok r =>
    cases r with
    | none => simp [ht, bind, Except.bind, pure, Except.pure] at h
    | some m0 =>
      simp only [ht, bind, Except.bind] at h
      cases hc : addCardinalityAggregations d.CardinalityAggregations m0 with
      | error e2 =>
        simp only [hc, Except.error.injEq] at h
        exact h ▸ addCardinalityAggregations_err _ _ _ hc
      | ok m1 => simp [hc, pure, Except.pure] at h

theorem marshalRequest_err (d : QueryDoc) (w : Except Failure Json) (v : QueryType)
    (h : marshalRequest d w = .error (.QueryTypeErr v)) : w = .error (.QueryTypeErr v) := by
  simp only [marshalRequest] at h
  cases ha : constructAggregations d with
  | error e =>
    simp only [ha, bind, Except.bind, Except.error.injEq] at h
    obtain ⟨p, hp⟩ := constructAggregations_err _ _ ha
    rw [hp] at h
    cases h
  | ok aggs =>
    cases hw : w with
    | error e =>
      simp only [ha, hw, bind, Except.bind, Except.error.injEq] at h
      rw [h]
    | ok q => simp [ha, hw, bind, Except.bind, pure, Except.pure] at h

theorem marshalRequest_fails (d : QueryDoc) (w : Except Failure Json)
    (hw : ∀ j, w ≠ .ok j) : ∀ j, marshalRequest d w ≠ .ok j := by
  intro j hj
  obtain ⟨_, q, _, hq, _⟩ := marshalRequest_ok d w j hj
  exact hw q hq

/-- The method `handleMarshalType` on a leaf whose value is not text. -/
theorem handleMarshalType_not_text (toLower : String → String) (q : leafQuery) (tok : String)
    (enc : Except Failure Json) (hv : ∀ s, q.Value ≠ .text s) :
    q.handleMarshalType toLower tok enc =
      if q.Type_ = QueryString then .error (.goPanic .interfaceConversion)
      else enc.map (fun v => .obj [(tok, .obj [(q.Name, v)])]) := by
  obtain ⟨t, n, v⟩ := q
  simp only [leafQuery.handleMarshalType, leafQuery.handleMarshalQueryString]
  rcases v with (s | i | b | _ | xs | m) | d
  · exact absurd rfl (hv s)
  all_goals
    split_ifs
    all_goals rfl


theorem encodeLeaf_fails_of_type (toLower : String → String) (n : QueryItem)
    (hn : n.Type_ ≠ Nested) (hs : ∀ tok, QueryType.String n.Type_ ≠ .ok tok) :
    ∀ j, encodeLeaf toLower n ≠ .ok j := by
  obtain ⟨f, v, t⟩ := n
  intro j hj
  rw [encodeLeaf_unfold, if_neg hn] at hj
  cases hst : QueryType.String t with
  | error e => simp [hst] at hj
  | ok tok => exact hs tok hst

theorem encodeLeaf_fails_of_inner (toLower : String → String) (n : QueryItem)
    (inner : QueryDoc) (hv : n.Value = .doc inner)
    (hw : ∀ j, encodeWrapped toLower inner ≠ .ok j) :
    ∀ j, encodeLeaf toLower n ≠ .ok j := by
  obtain ⟨f, v, t⟩ := n
  simp only at hv
  subst hv
  intro j hj
  rw [encodeLeaf_unfold] at hj
  split_ifs at hj
  · exact hw j hj
  · cases hst : QueryType.String t with
    | error e => simp [hst] at hj
    | ok tok =>
      simp only [hst] at hj
      rw [handleMarshalType_not_text toLower _ tok _ (fun s h => by cases h)] at hj
      split_ifs at hj
      have hreq := marshalRequest_fails inner (encodeWrapped toLower inner) hw
      cases henc : encodeValue toLower (.doc inner) with
      | error e => simp [henc, Except.map] at hj
      | ok x => exact hreq x (by simpa [encodeValue] using henc)

/-- Where a QueryTypeErr returned by a leaf comes from: the lookup of the Type of the item
itself, or the document that the item holds. -/
theorem encodeLeaf_err_cases (toLower : String → String) (n : QueryItem) (v : QueryType)
    (h : encodeLeaf toLower n = .error (.QueryTypeErr v)) :
    (n.Type_ ≠ Nested ∧ n.Type_ = v ∧ QueryType.String v = .error (.QueryTypeErr v)) ∨
    ∃ inner, n.Value = .doc inner ∧ encodeWrapped toLower inner = .error (.QueryTypeErr v) := by
  obtain ⟨f, val, t⟩ := n
  rw [encodeLeaf_unfold] at h
  split_ifs at h with hn
  · rcases val with x | inner
    · cases h
    · exact Or.inr ⟨inner, rfl, h⟩
  · cases hst : QueryType.String t with
    | error e =>
      simp only [hst, Except.error.injEq] at h
      subst h
      have := QueryType_String_err t v hst
      subst this
      exact Or.inl ⟨hn, rfl, hst⟩
    | ok tok =>
      simp only [hst] at h
      rcases val with x | inner
      · exfalso
        rcases x with s | i | b | _ | xs | m <;>
          simp only [leafQuery.handleMarshalType, leafQuery.handleMarshalQueryString,
            encodeValue] at h <;>
          split_ifs at h <;> cases h
      · rw [handleMarshalType_not_text toLower _ tok _ (fun s h => by cases h)] at h
        split_ifs at h
        · cases h
        · cases henc : encodeValue toLower (.doc inner) with
          | ok x => simp [henc, Except.map] at h
          | error e =>
            simp only [henc, Except.map, Except.error.injEq] at h
            subst h
            exact Or.inr ⟨inner, rfl,
              marshalRequest_err inner _ v (by simpa [encodeValue] using henc)⟩

/-- An item located in a document whose Type is not Nested and has no token makes the encoding
of the wrapped query fail. -/
theorem encodeWrapped_fails_of_located (toLower : String → String) (it : QueryItem)
    (hn : it.Type_ ≠ Nested) (hs : ∀ tok, QueryType.String it.Type_ ≠ .ok tok)
    (d : QueryDoc) (hloc : Located it d) : ∀ j, encodeWrapped toLower d ≠ .ok j := by
  induction hloc with
  | here d h =>
    exact encodeWrapped_fails_of_leaf toLower d it h (encodeLeaf_fails_of_type toLower it hn hs)
  | inside d n inner hmem hv _ ih =>
    exact encodeWrapped_fails_of_leaf toLower d n hmem
      (encodeLeaf_fails_of_inner toLower n inner hv ih)

theorem sizeOf_inner_lt (d : QueryDoc) (n : QueryItem) (inner : QueryDoc)
    (hn : n ∈ clauseItems d) (hv : n.Value = .doc inner) : sizeOf inner < sizeOf d := by
  obtain ⟨i, sz, fr, so, sa, a, nn, o, f, ps, tth, msm, ta, ca, src⟩ := d
  obtain ⟨nf, nv, nt⟩ := n
  simp only at hv
  subst hv
  have key : ∀ l : List QueryItem, (⟨nf, .doc inner, nt⟩ : QueryItem) ∈ l →
      sizeOf inner < sizeOf l := by
    intro l hl
    have := List.sizeOf_lt_of_mem hl
    simp only [QueryItemOf.mk.sizeOf_spec, Value.doc.sizeOf_spec] at this
    omega
  simp only [clauseItems, List.mem_append] at hn
  simp only [QueryDocOf.mk.sizeOf_spec]
  rcases hn with ((hn | hn) | hn) | hn
  · have := key _ hn; omega
  · have := key _ hn; omega
  · have := key _ hn; omega
  · have := key _ hn; omega

/-- A QueryTypeErr returned for the wrapped query is the one of an item located in it. -/
theorem encodeWrapped_err_located (toLower : String → String) (v : QueryType) :
    ∀ d : QueryDoc, encodeWrapped toLower d = .error (.QueryTypeErr v) →
      ∃ it, Located it d ∧ it.Type_ ≠ Nested ∧ it.Type_ = v ∧
        QueryType.String v = .error (.QueryTypeErr v) := by
  suffices H : ∀ k (d : QueryDoc), sizeOf d ≤ k →
      encodeWrapped toLower d = .error (.QueryTypeErr v) →
      ∃ it, Located it d ∧ it.Type_ ≠ Nested ∧ it.Type_ = v ∧
        QueryType.String v = .error (.QueryTypeErr v) from
    fun d => H (sizeOf d) d le_rfl
  intro k
  induction k with
  | zero =>
    intro d hd
    obtain ⟨i, sz, fr, so, sa, a, nn, o, f, ps, tth, msm, ta, ca, src⟩ := d
    simp only [QueryDocOf.mk.sizeOf_spec] at hd
    omega
  | succ k ih =>
    intro d hd h
    obtain ⟨n, hn, hne⟩ := encodeWrapped_err toLower d _ h
    rcases encodeLeaf_err_cases toLower n v hne with ⟨h1, h2, h3⟩ | ⟨inner, hv, hin⟩
    · exact ⟨n, Located.here d hn, h1, h2, h3⟩
    · have hlt := sizeOf_inner_lt d n inner hn hv
      obtain ⟨it, hloc, hrest⟩ := ih inner (by omega) hin
      exact ⟨it, Located.inside d n inner hn hv hloc, hrest⟩


theorem MarshalJSON_eq_marshalRequest (toLower : String → String) (d : QueryDoc) :
    QueryDoc.MarshalJSON toLower d = marshalRequest d (encodeWrapped toLower d) := by
  rw [encodeWrapped_eq]; rfl

theorem MarshalJSON_fails_of_located (toLower : String → String) (it : QueryItem)
    (hn : it.Type_ ≠ Nested) (hs : ∀ tok, QueryType.String it.Type_ ≠ .ok tok)
    (d : QueryDoc) (hloc : Located it d) : ∀ j, QueryDoc.MarshalJSON toLower d ≠ .ok j := by
  rw [MarshalJSON_eq_marshalRequest]
  exact marshalRequest_fails d _ (encodeWrapped_fails_of_located toLower it hn hs d hloc)

theorem MarshalJSON_err_located (toLower : String → String) (v : QueryType) (d : QueryDoc)
    (h : QueryDoc.MarshalJSON toLower d = .error (.QueryTypeErr v)) :
    ∃ it, Located it d ∧ it.Type_ ≠ Nested ∧ it.Type_ = v ∧
      QueryType.String v = .error (.QueryTypeErr v) := by
  rw [MarshalJSON_eq_marshalRequest] at h
  exact encodeWrapped_err_located toLower v d (marshalRequest_err d _ v h)

theorem encodeLeaves_cons (toLower : String → String) (x : QueryItem) (rest : List QueryItem) :
    encodeLeaves toLower (x :: rest) =
      match encodeLeaf toLower x with
      | .error e => .error e
      | .ok j =>
        match encodeLeaves toLower rest with
        | .error e => .error e
        | .ok js => .ok (j :: js) := by
  simp only [encodeLeaves, bind, Except.bind]
  cases encodeLeaf toLower x with
  | error e => rfl
  | ok j => cases encodeLeaves toLower rest <;> rfl

theorem encodeLeaves_first_failure (toLower : String → String) (pre : List QueryItem)
    (n : QueryItem) (post : List QueryItem) (e : Failure)
    (hpre : ∀ p ∈ pre, ∃ j, encodeLeaf toLower p = .ok j)
    (hn : encodeLeaf toLower n = .error e) :
    encodeLeaves toLower (pre ++ n :: post) = .error e := by
  induction pre with
  | nil => rw [List.nil_append, encodeLeaves_cons, hn]
  | cons p rest ih =>
    obtain ⟨j, hj⟩ := hpre p (List.mem_cons_self _ _)
    rw [List.cons_append, encodeLeaves_cons, hj,
      ih (fun x hx => hpre x (List.mem_cons_of_mem _ hx))]

theorem encodeLeaves_append (toLower : String → String) (xs ys : List QueryItem) :
    encodeLeaves toLower (xs ++ ys) =
      match encodeLeaves toLower xs with
      | .error e => .error e
      | .ok a =>
        match encodeLeaves toLower ys with
        | .error e => .error e
        | .ok b => .ok (a ++ b) := by
  induction xs with
  | nil =>
    rw [List.nil_append]
    cases encodeLeaves toLower ys <;> rfl
  | cons x rest ih =>
    rw [List.cons_append, encodeLeaves_cons, encodeLeaves_cons, ih]
    cases encodeLeaf toLower x with
    | error e => rfl
    | ok j =>
      cases encodeLeaves toLower rest with
      | error e => rfl
      | ok js => cases encodeLeaves toLower ys <;> rfl

/-- The wrapped query fails exactly as the leaves of the four clause lists, taken in the order
And, Not, Or, Filter, fail. -/
theorem encodeWrapped_error_iff (toLower : String → String) (d : QueryDoc) (e : Failure) :
    encodeWrapped toLower d = .error e ↔ encodeLeaves toLower (clauseItems d) = .error e := by
  obtain ⟨i, sz, fr, so, sa, a, n, o, f, ps, tth, msm, ta, ca, src⟩ := d
  simp only [encodeWrapped, clauseItems, encodeLeaves_append, bind, Except.bind, pure,
    Except.pure]
  cases encodeLeaves toLower a with
  | error e1 => simp
  | ok must =>
  cases encodeLeaves toLower n with
  | error e1 => simp
  | ok mustNot =>
  cases encodeLeaves toLower o with
  | error e1 => simp
  | ok should =>
  cases encodeLeaves toLower f with
  | error e1 => simp
  | ok filters => simp

theorem MarshalJSON_first_failure (toLower : String → String) (d : QueryDoc)
    (pre : List QueryItem) (n : QueryItem) (post : List QueryItem) (e : Failure)
    (aggs : Option (List (String × Data)))
    (hitems : clauseItems d = pre ++ n :: post)
    (hpre : ∀ p ∈ pre, ∃ j, leafQuery.MarshalJSON toLower (leafOf p) = .ok j)
    (hn : leafQuery.MarshalJSON toLower (leafOf n) = .error e)
    (ha : constructAggregations d = .ok aggs) :
    QueryDoc.MarshalJSON toLower d = .error e := by
  have hw : encodeWrapped toLower d = .error e := by
    rw [encodeWrapped_error_iff, hitems]
    exact encodeLeaves_first_failure toLower pre n post e hpre hn
  rw [MarshalJSON_eq_marshalRequest, hw]
  simp only [marshalRequest, ha, bind, Except.bind]

theorem leaf_QueryTypeErr (toLower : String → String) (it : QueryItem) (e : Failure)
    (hn : it.Type_ ≠ Nested) (hs : QueryType.String it.Type_ = .error e) :
    leafQuery.MarshalJSON toLower (leafOf it) = .error e := by
  obtain ⟨f, v, t⟩ := it
  show encodeLeaf toLower ⟨f, v, t⟩ = _
  rw [encodeLeaf_unfold, if_neg hn]
  simp only at hs
  rw [hs]

theorem multiSearchLoop_fails (toLower : String → String) (qs : List QueryDoc) (d : QueryDoc)
    (hd : d ∈ qs) (hf : ∀ j, QueryDoc.MarshalJSON toLower d ≠ .ok j) :
    ∀ acc out, multiSearchLoop toLower qs acc ≠ .ok out := by
  induction qs with
  | nil => cases hd
  | cons q rest ih =>
    intro acc out h
    simp only [multiSearchLoop] at h
    cases hq : QueryDoc.MarshalJSON toLower q with
    | error e => simp [hq, bind, Except.bind] at h
    | ok body =>
      simp only [hq, bind, Except.bind] at h
      rcases List.mem_cons.1 hd with rfl | hm
      · exact hf body hq
      · exact ih hm _ out h

theorem multiSearchLoop_err (toLower : String → String) (qs : List QueryDoc) (e : Failure) :
    ∀ acc, multiSearchLoop toLower qs acc = .error e →
      ∃ q ∈ qs, QueryDoc.MarshalJSON toLower q = .error e := by
  induction qs with
  | nil => intro acc h; simp [multiSearchLoop] at h
  | cons q rest ih =>
    intro acc h
    simp only [multiSearchLoop] at h
    cases hq : QueryDoc.MarshalJSON toLower q with
    | error e2 =>
      simp only [hq, bind, Except.bind, Except.error.injEq] at h
      exact ⟨q, List.mem_cons_self _ _, by rw [hq, h]⟩
    | ok body =>
      simp only [hq, bind, Except.bind] at h
      obtain ⟨x, hx, hxe⟩ := ih _ h
      exact ⟨x, List.mem_cons_of_mem _ hx, hxe⟩

theorem multiSearchLoop_first_failure (toLower : String → String) (pre : List QueryDoc)
    (d : QueryDoc) (post : List QueryDoc) (e : Failure)
    (hpre : ∀ p ∈ pre, ∃ j, QueryDoc.MarshalJSON toLower p = .ok j)
    (hd : QueryDoc.MarshalJSON toLower d = .error e) :
    ∀ acc, multiSearchLoop toLower (pre ++ d :: post) acc = .error e := by
  induction pre with
  | nil =>
    intro acc
    simp only [List.nil_append, multiSearchLoop, hd, bind, Except.bind]
  | cons p rest ih =>
    intro acc
    obtain ⟨j, hj⟩ := hpre p (List.mem_cons_self _ _)
    simp only [List.cons_append, multiSearchLoop, hj, bind, Except.bind]
    exact ih (fun x hx => hpre x (List.mem_cons_of_mem _ hx)) _

/-- C8, as the code has it: when the registry lookup fails for the Type of a non-Nested item
located at any position of And, Not, Or or Filter of a document, or of a document held by one
of its items at any depth, `QueryDoc.MarshalJSON` of the enclosing document does not succeed: it
yields no output. A QueryTypeErr that it returns is the one of such an item of the document,
not necessarily of the given one: the leaf of the given item fails with its QueryTypeErr, and
the document fails with the failure of the first leaf that fails, in the order And, Not, Or,
Filter and front to back in each list (the aggregation builder having returned).
`MultiSearchDoc` of a list containing the document does not succeed either and returns no text;
a QueryTypeErr that it returns is the one of such an item of one of the documents; and when the
documents in front all encode, it fails with the error of the document, nothing of the batch
being returned. -/
theorem unsupported_type_aborts (toLower : String → String) (d : QueryDoc) (it : QueryItem)
    (hloc : Located it d) (hn : it.Type_ ≠ Nested)
    (hs : QueryType.String it.Type_ = .error (.QueryTypeErr it.Type_)) :
    (∀ j, QueryDoc.MarshalJSON toLower d ≠ .ok j) ∧
    (∀ v, QueryDoc.MarshalJSON toLower d = .error (.QueryTypeErr v) →
      ∃ it2, Located it2 d ∧ it2.Type_ ≠ Nested ∧ it2.Type_ = v ∧
        QueryType.String v = .error (.QueryTypeErr v)) ∧
    leafQuery.MarshalJSON toLower (leafOf it) = .error (.QueryTypeErr it.Type_) ∧
    (∀ pre n post e aggs, clauseItems d = pre ++ n :: post →
      (∀ p ∈ pre, ∃ j, leafQuery.MarshalJSON toLower (leafOf p) = .ok j) →
      leafQuery.MarshalJSON toLower (leafOf n) = .error e →
      constructAggregations d = .ok aggs →
      QueryDoc.MarshalJSON toLower d = .error e) ∧
    (∀ qs, d ∈ qs → ∀ out, MultiSearchDoc toLower qs ≠ .ok out) ∧
    (∀ qs v, MultiSearchDoc toLower qs = .error (.QueryTypeErr v) →
      ∃ q ∈ qs, ∃ it2, Located it2 q ∧ it2.Type_ ≠ Nested ∧ it2.Type_ = v ∧
        QueryType.String v = .error (.QueryTypeErr v)) ∧
    (∀ pre post e, (∀ p ∈ pre, ∃ j, QueryDoc.MarshalJSON toLower p = .ok j) →
      QueryDoc.MarshalJSON toLower d = .error e →
      MultiSearchDoc toLower (pre ++ d :: post) = .error e) := by
  have hs2 : ∀ tok, QueryType.String it.Type_ ≠ .ok tok := by
    intro tok h
    rw [hs] at h
    cases h
  have hfail := MarshalJSON_fails_of_located toLower it hn hs2 d hloc
  refine ⟨hfail, fun v h => MarshalJSON_err_located toLower v d h,
    leaf_QueryTypeErr toLower it _ hn hs, ?_, ?_, ?_, ?_⟩
  · intro pre n post e aggs hitems hpre hne ha
    exact MarshalJSON_first_failure toLower d pre n post e aggs hitems hpre hne ha
  · intro qs hd out
    exact multiSearchLoop_fails toLower qs d hd hfail "" out
  · intro qs v h
    obtain ⟨q, hq, hqe⟩ := multiSearchLoop_err toLower qs _ "" h
    exact ⟨q, hq, MarshalJSON_err_located toLower v q hqe⟩
  · intro pre post e hpre hd
    exact multiSearchLoop_first_failure toLower pre d post e hpre hd ""

theorem unsupported_type_aborts_witness :
    Located ⟨"some_index_id", .text "some-long-key-id-value", 100001⟩ bogusDoc ∧
    (100001 : QueryType) ≠ Nested ∧
    QueryType.String 100001 = .error (.QueryTypeErr 100001) ∧
    QueryDoc.MarshalJSON asciiLower bogusDoc = .error (.QueryTypeErr 100001) ∧
    MultiSearchDoc asciiLower [andQueryDoc, bogusDoc, andQueryDoc] =
      .error (.QueryTypeErr 100001) :=
  have hloc : Located ⟨"some_index_id", .text "some-long-key-id-value", 100001⟩ bogusDoc :=
    Located.here _ (by simp [clauseItems, bogusDoc, QueryDoc.zero])
  have h := unsupported_type_aborts asciiLower bogusDoc
    ⟨"some_index_id", .text "some-long-key-id-value", 100001⟩ hloc (by decide) rfl
  have hdoc : QueryDoc.MarshalJSON asciiLower bogusDoc = .error (.QueryTypeErr 100001) :=
    h.2.2.2.1 [] _ [] _ none rfl (fun _ hp => nomatch hp) h.2.2.1 rfl
  ⟨hloc, by decide, rfl, hdoc,
    h.2.2.2.2.2.2 [andQueryDoc] [andQueryDoc] _
      (fun p hp => ⟨andQueryJson, by rw [List.mem_singleton.1 hp]; rfl⟩) hdoc⟩

/-- C8, as stated, fails where two items have an unsupported Type: the lookup fails for the
second item with its own QueryTypeErr, and the document fails with the QueryTypeErr of the
first. -/
theorem unsupported_type_first_error_wins :
    Located ⟨"second", .text "b", 100002⟩ twoBogusDoc ∧
    (100002 : QueryType) ≠ Nested ∧
    QueryType.String 100002 = .error (.QueryTypeErr 100002) ∧
    QueryDoc.MarshalJSON asciiLower twoBogusDoc = .error (.QueryTypeErr 100001) ∧
    QueryDoc.MarshalJSON asciiLower twoBogusDoc ≠ .error (.QueryTypeErr 100002) ∧
    MultiSearchDoc asciiLower [twoBogusDoc] ≠ .error (.QueryTypeErr 100002) := by
  have h1 : QueryDoc.MarshalJSON asciiLower twoBogusDoc = .error (.QueryTypeErr 100001) := rfl
  have h2 : MultiSearchDoc asciiLower [twoBogusDoc] = .error (.QueryTypeErr 100001) := rfl
  refine ⟨Located.here _ (by simp [clauseItems, twoBogusDoc, QueryDoc.zero]), by decide, rfl,
    h1, ?_, ?_⟩
  · rw [h1]
    intro h
    cases h
  · rw [h2]
    intro h
    cases h

/-! ## Embedded documents -/

/-- C11, as the code has it: when a QueryDoc is embedded as the Value of a Nested item, its
four clause lists and its MinimumShouldMatch are what is consulted. Two embedded documents with
the same And, Or, Not and Filter lists and the same MinimumShouldMatch make the Nested items
holding them serialize to the same output, whatever their other fields (Index, Size, From,
Sort, SearchAfter, PageSize, TrackTotalHits, the aggregation lists, Source) and whatever the
Field of the items. -/
theorem nested_same_clauses (toLower : String → String) (f1 f2 : String) (d1 d2 : QueryDoc)
    (hAnd : d1.And = d2.And) (hOr : d1.Or = d2.Or) (hNot : d1.Not = d2.Not)
    (hFilter : d1.Filter = d2.Filter)
    (hMin : d1.MinimumShouldMatch = d2.MinimumShouldMatch) :
    leafQuery.MarshalJSON toLower (leafOf ⟨f1, .doc d1, Nested⟩) =
      leafQuery.MarshalJSON toLower (leafOf ⟨f2, .doc d2, Nested⟩) := by
  obtain ⟨i1, sz1, fr1, so1, sa1, a1, n1, o1, fl1, ps1, tth1, msm1, ta1, ca1, src1⟩ := d1
  obtain ⟨i2, sz2, fr2, so2, sa2, a2, n2, o2, fl2, ps2, tth2, msm2, ta2, ca2, src2⟩ := d2
  simp only at hAnd hOr hNot hFilter hMin
  subst hAnd hOr hNot hFilter hMin
  rfl

theorem nested_same_clauses_witness :
    nestedShouldOne.And = nestedShouldOneDressed.And ∧
    nestedShouldOne.Or = nestedShouldOneDressed.Or ∧
    nestedShouldOne.Not = nestedShouldOneDressed.Not ∧
    nestedShouldOne.Filter = nestedShouldOneDressed.Filter ∧
    nestedShouldOne.MinimumShouldMatch = nestedShouldOneDressed.MinimumShouldMatch ∧
    leafQuery.MarshalJSON asciiLower (leafOf ⟨"", .doc nestedShouldOne, Nested⟩) =
      leafQuery.MarshalJSON asciiLower (leafOf ⟨"x", .doc nestedShouldOneDressed, Nested⟩) :=
  ⟨rfl, rfl, rfl, rfl, rfl,
    nested_same_clauses asciiLower "" "x" nestedShouldOne nestedShouldOneDressed
      rfl rfl rfl rfl rfl⟩

/-- C11, as stated, fails on MinimumShouldMatch: two embedded documents with the same And, Or,
Not and Filter lists that differ in MinimumShouldMatch alone make their Nested items serialize
to different outputs. -/
theorem nested_minimum_should_match_counts :
    nestedShouldOne.And = nestedShouldTwo.And ∧ nestedShouldOne.Or = nestedShouldTwo.Or ∧
    nestedShouldOne.Not = nestedShouldTwo.Not ∧
    nestedShouldOne.Filter = nestedShouldTwo.Filter ∧
    leafQuery.MarshalJSON asciiLower (leafOf ⟨"", .doc nestedShouldOne, Nested⟩) =
      .ok (.obj [("bool", .obj [("should", .arr [.obj [("term", .obj [("user",
        .str "kimchy")])]]), ("minimum_should_match", .num 1)])]) ∧
    leafQuery.MarshalJSON asciiLower (leafOf ⟨"", .doc nestedShouldTwo, Nested⟩) =
      .ok (.obj [("bool", .obj [("should", .arr [.obj [("term", .obj [("user",
        .str "kimchy")])]]), ("minimum_should_match", .num 2)])]) ∧
    leafQuery.MarshalJSON asciiLower (leafOf ⟨"", .doc nestedShouldOne, Nested⟩) ≠
      leafQuery.MarshalJSON asciiLower (leafOf ⟨"", .doc nestedShouldTwo, Nested⟩) := by
  have e1 : leafQuery.MarshalJSON asciiLower (leafOf ⟨"", .doc nestedShouldOne, Nested⟩) =
      .ok (.obj [("bool", .obj [("should", .arr [.obj [("term", .obj [("user",
        .str "kimchy")])]]), ("minimum_should_match", .num 1)])]) := rfl
  have e2 : leafQuery.MarshalJSON asciiLower (leafOf ⟨"", .doc nestedShouldTwo, Nested⟩) =
      .ok (.obj [("bool", .obj [("should", .arr [.obj [("term", .obj [("user",
        .str "kimchy")])]]), ("minimum_should_match", .num 2)])]) := rfl
  refine ⟨rfl, rfl, rfl, rfl, e1, e2, ?_⟩
  rw [e1, e2]
  intro h
  simp at h

/-! ## Aggregations without a terms aggregation -/

/-- C13: for a QueryDoc whose TermsAggregations list is empty, `constructAggregations`
returns nil whatever CardinalityAggregations holds, and the encoded document has no
`aggregations` key. -/
theorem no_terms_no_aggregations (toLower : String → String) (d : QueryDoc)
    (h : d.TermsAggregations = []) :
    constructAggregations d = .ok none ∧
    ∀ j, QueryDoc.MarshalJSON toLower d = .ok j →
      "aggregations" ∉ j.keys ∧ j.get? "aggregations" = none := by
  have hc : constructAggregations d = .ok none := by
    simp only [constructAggregations, h, constructTermsAggregations, bind, Except.bind, pure,
      Except.pure]
  refine ⟨hc, ?_⟩
  intro j hj
  obtain ⟨aggs, q, ha, -, rfl⟩ := marshalRequest_ok d _ j hj
  rw [hc] at ha
  simp only [Except.ok.injEq] at ha
  subst ha
  obtain ⟨-, -, k3, -⟩ := requestKeys_spec (hasEntries none)
    (decide (d.From ≠ 0)) (!d.Sort_.isEmpty) (!d.SearchAfter.isEmpty) d.TrackTotalHits
    (!d.Source.isEmpty)
  have hkeys : (Json.obj (reqDocMembers (requestOf d none) q)).keys =
      requestKeys (hasEntries none) (decide (d.From ≠ 0)) (!d.Sort_.isEmpty)
        (!d.SearchAfter.isEmpty) d.TrackTotalHits (!d.Source.isEmpty) := by
    simp only [Json.keys, reqDocMembers_keys, requestOf]
  have hnot : "aggregations" ∉ (Json.obj (reqDocMembers (requestOf d none) q)).keys := by
    rw [hkeys, k3]
    simp [hasEntries]
  refine ⟨hnot, ?_⟩
  simp only [Json.get?, Option.map_eq_none', List.find?_eq_none]
  intro kv hkv hk
  apply hnot
  simp only [Json.keys, List.mem_map]
  exact ⟨kv, hkv, by simpa using hk⟩

theorem no_terms_no_aggregations_witness :
    cardinalityOnlyDoc.TermsAggregations = [] ∧
    constructAggregations cardinalityOnlyDoc = .ok none ∧
    (QueryDoc.MarshalJSON asciiLower cardinalityOnlyDoc).map Json.render =
      .ok "\x7b\"query\":\x7b\"bool\":\x7b\"must\":[\x7b\"term\":\x7b\"user\":\"kimchy\"\x7d\x7d]\x7d\x7d,\"size\":0\x7d" :=
  ⟨rfl, (no_terms_no_aggregations asciiLower cardinalityOnlyDoc rfl).1, by rfl⟩

/-! ## Defects on malformed input -/

/-- C17: a QueryString item whose Value is not text reaches the unchecked assertion
`q.Value.(string)`: the leaf, the enclosing document and the batch panic with an interface
conversion instead of failing with a typed error. The Wildcard branch next to it checks the
same assertion and falls back to the default form. -/
theorem queryString_non_text_panics :
    leafQuery.MarshalJSON asciiLower (leafOf ⟨"user.id", .data (.int 5), QueryString⟩) =
      .error (.goPanic .interfaceConversion) ∧
    leafQuery.MarshalJSON asciiLower
        (leafOf ⟨"user.id", .data (.map [("gte", .int 1)]), QueryString⟩) =
      .error (.goPanic .interfaceConversion) ∧
    QueryDoc.MarshalJSON asciiLower numberQueryStringDoc =
      .error (.goPanic .interfaceConversion) ∧
    MultiSearchDoc asciiLower [numberQueryStringDoc] = .error (.goPanic .interfaceConversion) ∧
    leafQuery.MarshalJSON asciiLower (leafOf ⟨"user.id", .data (.int 5), Wildcard⟩) =
      .ok (.obj [("wildcard", .obj [("user.id", .num 5)])]) :=
  ⟨rfl, rfl, rfl, rfl, rfl⟩

/-- C18: an aggregation whose Type is outside the enumeration does not make the encoding
fail: both aggregation loops drop the error of `Type.String()` and write the aggregation under
the empty token. With Type 100001 the document encodes; with Type 11 the lookup panics. -/
theorem aggregation_type_error_dropped :
    QueryType.String 100001 = .error (.QueryTypeErr 100001) ∧
    constructAggregations bogusTermsAggDoc =
      .ok (some [("by_user", .map [("", .map [("field", .str "user.id")])])]) ∧
    (QueryDoc.MarshalJSON asciiLower bogusTermsAggDoc).map Json.render =
      .ok "\x7b\"aggregations\":\x7b\"by_user\":\x7b\"\":\x7b\"field\":\"user.id\"\x7d\x7d\x7d,\"query\":\x7b\"bool\":\x7b\x7d\x7d,\"size\":0\x7d" ∧
    (QueryDoc.MarshalJSON asciiLower bogusCardinalityAggDoc).map Json.render =
      .ok "\x7b\"aggregations\":\x7b\"by_user\":\x7b\"terms\":\x7b\"field\":\"user.id\"\x7d\x7d,\"users\":\x7b\"\":\x7b\"field\":\"user.id\"\x7d\x7d\x7d,\"query\":\x7b\"bool\":\x7b\x7d\x7d,\"size\":0\x7d" ∧
    QueryDoc.MarshalJSON asciiLower
        { QueryDoc.zero with TermsAggregations := [⟨11, "by_user", "user.id", none, none⟩] } =
      .error (.goPanic (.indexOutOfRange 11 11)) :=
  ⟨rfl, rfl, by rfl, by rfl, rfl⟩

/-! ## Wrapping items -/

theorem encodeLeaves_of_LeavesOf (toLower : String → String) (items : List QueryItem)
    (leaves : List Json) (h : LeavesOf toLower items leaves) :
    encodeLeaves toLower items = .ok leaves := by
  rw [← marshalLeafList_map_leafOf]
  exact (marshalLeafList_ok toLower items leaves).2 h

/-- C19: for every item type text and every list of items, `WrapQueryItems` returns an item of
Type Nested with empty Field whose Value is the zero QueryDoc with the items, in their order,
in one clause list: Or when the lower-cased text is `or`, Not when it is `not`, Filter when
it is `filter`, And for any other text. When the list is non-empty and its leaves serialize,
the wrapped item serializes to `bool: (k: [the leaves in order])`, with k = should, must_not,
filter or must respectively. -/
theorem WrapQueryItems_spec (toLower : String → String) (itemType : String)
    (items : List QueryItem) :
    (WrapQueryItems toLower itemType items).Type_ = Nested ∧
    (WrapQueryItems toLower itemType items).Field = "" ∧
    (WrapQueryItems toLower itemType items).Value = .doc
      (if toLower itemType = "or" then { QueryDoc.zero with Or := items }
       else if toLower itemType = "not" then { QueryDoc.zero with Not := items }
       else if toLower itemType = "filter" then { QueryDoc.zero with Filter := items }
       else { QueryDoc.zero with And := items }) ∧
    ∀ leaves, items ≠ [] → LeavesOf toLower items leaves →
      leafQuery.MarshalJSON toLower (leafOf (WrapQueryItems toLower itemType items)) =
        .ok (.obj [("bool", .obj [
          (if toLower itemType = "or" then "should"
           else if toLower itemType = "not" then "must_not"
           else if toLower itemType = "filter" then "filter"
           else "must", .arr leaves)])]) := by
  refine ⟨rfl, rfl, rfl, ?_⟩
  intro leaves hne hleaves
  have hl := encodeLeaves_of_LeavesOf toLower items leaves hleaves
  have hle : leaves.isEmpty = false := by
    cases hleaves with
    | nil => exact absurd rfl hne
    | cons _ _ => rfl
  show encodeLeaf toLower (WrapQueryItems toLower itemType items) = _
  simp only [WrapQueryItems]
  rw [encodeLeaf_unfold, if_pos rfl]
  split_ifs <;>
    simp [encodeWrapped, QueryDoc.zero, encodeLeaves, hl, bind, Except.bind, pure,
      Except.pure, boolMembers, omitEmptyList, omitZero, hle]

theorem WrapQueryItems_spec_witness :
    [(⟨"user", .text "kimchy", Term⟩ : QueryItem)] ≠ [] ∧
    LeavesOf asciiLower [⟨"user", .text "kimchy", Term⟩]
      [.obj [("term", .obj [("user", .str "kimchy")])]] ∧
    leafQuery.MarshalJSON asciiLower
        (leafOf (WrapQueryItems asciiLower "OR" [⟨"user", .text "kimchy", Term⟩])) =
      .ok (.obj [("bool", .obj [("should",
        .arr [.obj [("term", .obj [("user", .str "kimchy")])]])])]) ∧
    leafQuery.MarshalJSON asciiLower
        (leafOf (WrapQueryItems asciiLower "anything" [⟨"user", .text "kimchy", Term⟩])) =
      .ok (.obj [("bool", .obj [("must",
        .arr [.obj [("term", .obj [("user", .str "kimchy")])]])])]) :=
  have hl : LeavesOf asciiLower [⟨"user", .text "kimchy", Term⟩]
      [.obj [("term", .obj [("user", .str "kimchy")])]] :=
    List.Forall₂.cons rfl List.Forall₂.nil
  ⟨(fun h => nomatch h), hl,
    (WrapQueryItems_spec asciiLower "OR" [⟨"user", .text "kimchy", Term⟩]).2.2.2 _
      (fun h => nomatch h) hl,
    (WrapQueryItems_spec asciiLower "anything" [⟨"user", .text "kimchy", Term⟩]).2.2.2 _
      (fun h => nomatch h) hl⟩

/-! ## The chain of terms aggregations -/

theorem stringIgnoringErr_valid (t : QueryType) (h0 : 0 ≤ t) (h10 : t ≤ 10) :
    ∃ tok, QueryType.String t = .ok tok ∧ stringIgnoringErr t = .ok tok ∧
      tok ≠ "aggregations" ∧ tok ≠ "" := by
  interval_cases t <;> exact ⟨_, rfl, rfl, by decide, by decide⟩

theorem constructTermsAggregations_single (a : Aggregation) (tok : String)
    (htok : stringIgnoringErr a.Type_ = .ok tok) :
    constructTermsAggregations [a] =
      .ok (some [(a.Name, .map [(tok, .map (termsFields a))])]) := by
  obtain ⟨t, n, f, sz, o⟩ := a
  simp only at htok
  cases sz <;> cases o <;>
    simp [constructTermsAggregations, htok, bind, Except.bind, pure, Except.pure, termsFields,
      mapLit, mapSet]

theorem constructTermsAggregations_cons (a b : Aggregation) (rest : List Aggregation)
    (tok : String) (tail : List (String × Data))
    (htok : stringIgnoringErr a.Type_ = .ok tok) (hne : tok ≠ "aggregations")
    (htail : constructTermsAggregations (b :: rest) = .ok (some tail)) :
    constructTermsAggregations (a :: b :: rest) =
      .ok (some [(a.Name, .map [(tok, .map (termsFields a)), ("aggregations", .map tail)])]) := by
  obtain ⟨t, n, f, sz, o⟩ := a
  simp only at htok
  rw [constructTermsAggregations]
  cases sz <;> cases o <;>
    simp [htok, htail, bind, Except.bind, pure, Except.pure, termsFields, mapLit, mapSet, hne]

theorem constructTermsAggregations_valid (aggs : List Aggregation) (hne : aggs ≠ [])
    (hvalid : ∀ x ∈ aggs, 0 ≤ x.Type_ ∧ x.Type_ ≤ 10) :
    ∃ m, constructTermsAggregations aggs = .ok (some m) := by
  induction aggs with
  | nil => exact absurd rfl hne
  | cons a rest ih =>
    obtain ⟨tok, -, htok, hagg, -⟩ :=
      stringIgnoringErr_valid a.Type_ (hvalid a (List.mem_cons_self _ _)).1
        (hvalid a (List.mem_cons_self _ _)).2
    cases rest with
    | nil => exact ⟨_, constructTermsAggregations_single a tok htok⟩
    | cons b rest =>
      obtain ⟨tail, htail⟩ := ih (by simp) (fun x hx => hvalid x (List.mem_cons_of_mem _ hx))
      exact ⟨_, constructTermsAggregations_cons a b rest tok tail htok hagg htail⟩


/-- The shape of what `constructTermsAggregations` returns for aggregations of valid Type. -/
theorem constructTermsAggregations_shape (a : Aggregation) (rest : List Aggregation)
    (hvalid : ∀ x ∈ a :: rest, 0 ≤ x.Type_ ∧ x.Type_ ≤ 10) :
    ∃ tok, QueryType.String a.Type_ = .ok tok ∧ tok ≠ "aggregations" ∧
      ((rest = [] ∧ constructTermsAggregations (a :: rest) =
          .ok (some [(a.Name, .map [(tok, .map (termsFields a))])])) ∨
       (rest ≠ [] ∧ ∃ tail, constructTermsAggregations rest = .ok (some tail) ∧
          constructTermsAggregations (a :: rest) =
            .ok (some [(a.Name,
              .map [(tok, .map (termsFields a)), ("aggregations", .map tail)])]))) := by
  obtain ⟨tok, hs, htok, hagg, -⟩ :=
    stringIgnoringErr_valid a.Type_ (hvalid a (List.mem_cons_self _ _)).1
      (hvalid a (List.mem_cons_self _ _)).2
  refine ⟨tok, hs, hagg, ?_⟩
  cases rest with
  | nil => exact Or.inl ⟨rfl, constructTermsAggregations_single a tok htok⟩
  | cons b rest =>
    obtain ⟨tail, htail⟩ := constructTermsAggregations_valid (b :: rest) (by simp)
      (fun x hx => hvalid x (List.mem_cons_of_mem _ hx))
    exact Or.inr ⟨by simp, tail, htail,
      constructTermsAggregations_cons a b rest tok tail htok hagg htail⟩

theorem aggregationsAt_drop (k : Nat) :
    ∀ (aggs : List Aggregation) (m : List (String × Data)),
      (∀ x ∈ aggs, 0 ≤ x.Type_ ∧ x.Type_ ≤ 10) →
      constructTermsAggregations aggs = .ok (some m) → k < aggs.length →
      ∃ mk, aggregationsAt k m = some mk ∧
        constructTermsAggregations (aggs.drop k) = .ok (some mk) := by
  induction k with
  | zero =>
    intro aggs m _ hm _
    exact ⟨m, rfl, by simpa using hm⟩
  | succ k ih =>
    intro aggs m hvalid hm hk
    match aggs, hvalid, hm, hk with
    | [], _, _, hk => simp at hk
    | [a], _, _, hk => simp at hk
    | a :: b :: rest, hvalid, hm, hk =>
      obtain ⟨tok, -, hagg, h | h⟩ := constructTermsAggregations_shape a (b :: rest) hvalid
      · exact absurd h.1 (by simp)
      · obtain ⟨-, tail, htail, hcons⟩ := h
        rw [hcons] at hm
        simp only [Except.ok.injEq, Option.some.injEq] at hm
        subst hm
        obtain ⟨mk, h1, h2⟩ := ih (b :: rest) tail
          (fun x hx => hvalid x (List.mem_cons_of_mem _ hx)) htail
          (by simpa using hk)
        refine ⟨mk, ?_, by simpa using h2⟩
        have hin : innerAggregations
            [(a.Name, .map [(tok, .map (termsFields a)), ("aggregations", .map tail)])] =
            some tail := by
          have hb : ("aggregations" == tok) = false := by
            rw [beq_eq_false_iff_ne]
            exact Ne.symm hagg
          simp [innerAggregations, List.lookup, hb]
        simp only [aggregationsAt, hin, Option.bind]
        exact h1


/-- C12: for a non-empty list of terms aggregations of valid Type, `constructTermsAggregations`
returns a map with the single key `a0.Name`. Its body maps token(a0.Type) to the map
`termsFields a0` (`field` = a0.Field, `size` iff Size is set, `order` iff Order is set) and has
the key `aggregations` iff the list has a tail, holding what `constructTermsAggregations`
returns for the tail. Hence the k-th aggregation sits k levels down: following `aggregations`
k times from the result leads to the map of the list from position k on, whose single key is
the Name of the k-th aggregation. -/
theorem terms_aggregations_chain (a : Aggregation) (rest : List Aggregation)
    (hvalid : ∀ x ∈ a :: rest, 0 ≤ x.Type_ ∧ x.Type_ ≤ 10) :
    ∃ tok m, QueryType.String a.Type_ = .ok tok ∧
      constructTermsAggregations (a :: rest) = .ok (some m) ∧
      (rest = [] → m = [(a.Name, .map [(tok, .map (termsFields a))])]) ∧
      (rest ≠ [] → ∃ tail, constructTermsAggregations rest = .ok (some tail) ∧
        m = [(a.Name, .map [(tok, .map (termsFields a)), ("aggregations", .map tail)])]) ∧
      (∀ k ak, (a :: rest)[k]? = some ak →
        ∃ mk body, aggregationsAt k m = some mk ∧
          constructTermsAggregations ((a :: rest).drop k) = .ok (some mk) ∧
          mk = [(ak.Name, .map body)]) := by
  obtain ⟨tok, hs, -, h⟩ := constructTermsAggregations_shape a rest hvalid
  have hdepth : ∀ m, constructTermsAggregations (a :: rest) = .ok (some m) →
      ∀ k ak, (a :: rest)[k]? = some ak →
        ∃ mk body, aggregationsAt k m = some mk ∧
          constructTermsAggregations ((a :: rest).drop k) = .ok (some mk) ∧
          mk = [(ak.Name, .map body)] := by
    intro m hm k ak hk
    obtain ⟨hlt, hget⟩ := List.getElem?_eq_some.1 hk
    obtain ⟨mk, h1, h2⟩ := aggregationsAt_drop k (a :: rest) m hvalid hm hlt
    have hdrop : (a :: rest).drop k = ak :: (a :: rest).drop (k + 1) := by
      rw [← hget]
      exact List.drop_eq_getElem_cons hlt
    have hv2 : ∀ x ∈ ak :: (a :: rest).drop (k + 1), 0 ≤ x.Type_ ∧ x.Type_ ≤ 10 := by
      intro x hx
      rw [← hdrop] at hx
      exact hvalid x (List.mem_of_mem_drop hx)
    obtain ⟨tok2, -, -, h3 | h3⟩ := constructTermsAggregations_shape ak _ hv2
    · rw [hdrop, h3.2] at h2
      simp only [Except.ok.injEq, Option.some.injEq] at h2
      exact ⟨mk, _, h1, by rw [hdrop, h3.2, h2], h2.symm⟩
    · obtain ⟨-, tail, -, h4⟩ := h3
      rw [hdrop, h4] at h2
      simp only [Except.ok.injEq, Option.some.injEq] at h2
      exact ⟨mk, _, h1, by rw [hdrop, h4, h2], h2.symm⟩
  rcases h with ⟨hnil, hm⟩ | ⟨hne, tail, htail, hm⟩
  · exact ⟨tok, _, hs, hm, fun _ => rfl, fun h => absurd hnil h, hdepth _ hm⟩
  · exact ⟨tok, _, hs, hm, fun h => absurd h hne, fun _ => ⟨tail, htail, rfl⟩, hdepth _ hm⟩

set_option maxRecDepth 8192 in
theorem terms_aggregations_chain_witness :
    (∀ x ∈ testTermsAggregations, 0 ≤ x.Type_ ∧ x.Type_ ≤ 10) ∧
    constructTermsAggregations testTermsAggregations =
      .ok (some [("first_field_agg", .map [
        ("terms", .map [("field", .str "first_field.keyword"), ("size", .int 100),
          ("order", .map [("_count", .str "desc")])]),
        ("aggregations", .map [("second_field_agg", .map [
          ("terms", .map [("field", .str "second_field.keyword")])])])])]) ∧
    (∃ tok m, QueryType.String Terms = .ok tok ∧
      constructTermsAggregations testTermsAggregations = .ok (some m) ∧
      ∃ mk body, aggregationsAt 1 m = some mk ∧ mk = [("second_field_agg", .map body)]) ∧
    (QueryDoc.MarshalJSON asciiLower termsAggregationsDoc).map Json.render =
      .ok "\x7b\"aggregations\":\x7b\"first_field_agg\":\x7b\"aggregations\":\x7b\"second_field_agg\":\x7b\"terms\":\x7b\"field\":\"second_field.keyword\"\x7d\x7d\x7d,\"terms\":\x7b\"field\":\"first_field.keyword\",\"order\":\x7b\"_count\":\"desc\"\x7d,\"size\":100\x7d\x7d\x7d,\"query\":\x7b\"bool\":\x7b\"must\":[\x7b\"match\":\x7b\"some_index_id\":\"some-long-key-id-value\"\x7d\x7d]\x7d\x7d,\"size\":0,\"sort\":[\x7b\"id\":\"asc\"\x7d]\x7d" := by
  have hv : ∀ x ∈ testTermsAggregations, 0 ≤ x.Type_ ∧ x.Type_ ≤ 10 := by
    intro x hx
    simp only [testTermsAggregations, List.mem_cons, List.mem_singleton, List.not_mem_nil,
      or_false] at hx
    rcases hx with rfl | rfl <;> exact ⟨by decide, by decide⟩
  refine ⟨hv, rfl, ?_, by rfl⟩
  obtain ⟨tok, m, h1, h2, -, -, h5⟩ := terms_aggregations_chain _ _ hv
  obtain ⟨mk, body, h6, -, h7⟩ := h5 1 _ rfl
  exact ⟨tok, m, h1, h2, mk, body, h6, h7⟩

/-! ## Cardinality aggregations as siblings -/

theorem mapSet_of_not_mem {α : Type} (m : List (String × α)) (k : String) (v : α)
    (h : k ∉ m.map Prod.fst) : mapSet m k v = m ++ [(k, v)] := by
  induction m with
  | nil => rfl
  | cons x rest ih =>
    obtain ⟨k0, v0⟩ := x
    simp only [List.map_cons, List.mem_cons, not_or] at h
    have h0 : ¬ k0 = k := fun e => h.1 e.symm
    simp only [mapSet, if_neg h0, ih h.2, List.cons_append]

theorem addCardinalityAggregations_append (cs : List Aggregation) :
    ∀ m : List (String × Data),
      (∀ c ∈ cs, 0 ≤ c.Type_ ∧ c.Type_ ≤ 10) → (cs.map (·.Name)).Nodup →
      (∀ c ∈ cs, c.Name ∉ m.map Prod.fst) →
      ∃ entries, addCardinalityAggregations cs m = .ok (m ++ entries) ∧
        List.Forall₂ (fun c e => ∃ tok, QueryType.String c.Type_ = .ok tok ∧
          e = cardinalityEntry c tok) cs entries := by
  induction cs with
  | nil =>
    intro m _ _ _
    exact ⟨[], by simp [addCardinalityAggregations], List.Forall₂.nil⟩
  | cons c rest ih =>
    intro m hvalid hnodup hdisj
    obtain ⟨tok, hs, htok, -, -⟩ := stringIgnoringErr_valid c.Type_
      (hvalid c (List.mem_cons_self _ _)).1 (hvalid c (List.mem_cons_self _ _)).2
    simp only [List.map_cons, List.nodup_cons] at hnodup
    have hset : mapSet m c.Name
        (.map (mapLit [(tok, strMap (mapLit [("field", c.Field)]))])) =
        m ++ [cardinalityEntry c tok] := by
      rw [mapSet_of_not_mem m _ _ (hdisj c (List.mem_cons_self _ _))]
      rfl
    obtain ⟨entries, he, hf⟩ := ih (m ++ [cardinalityEntry c tok])
      (fun x hx => hvalid x (List.mem_cons_of_mem _ hx)) hnodup.2
      (by
        intro x hx
        simp only [List.map_append, List.map_cons, List.map_nil, List.mem_append,
          List.mem_singleton, not_or]
        refine ⟨hdisj x (List.mem_cons_of_mem _ hx), ?_⟩
        intro hxc
        apply hnodup.1
        rw [show c.Name = x.Name from hxc.symm]
        exact List.mem_map_of_mem _ hx)
    refine ⟨cardinalityEntry c tok :: entries, ?_, List.Forall₂.cons ⟨tok, hs, rfl⟩ hf⟩
    simp only [addCardinalityAggregations, htok, bind, Except.bind, hset, he]
    simp


theorem lookup_append_entries (k : String) (v : Data) (entries : List (String × Data))
    (key : String) (hk : key ≠ k) :
    ((k, v) :: entries).lookup key = entries.lookup key := by
  have hb : (key == k) = false := by
    rw [beq_eq_false_iff_ne]
    exact hk
  simp [List.lookup, hb]

theorem lookup_cardinality (cs : List Aggregation) :
    ∀ entries : List (String × Data), (cs.map (·.Name)).Nodup →
      List.Forall₂ (fun c e => ∃ tok, QueryType.String c.Type_ = .ok tok ∧
        e = cardinalityEntry c tok) cs entries →
      entries.map Prod.fst = cs.map (·.Name) ∧
      ∀ c ∈ cs, ∃ tok, QueryType.String c.Type_ = .ok tok ∧
        entries.lookup c.Name = some (.map [(tok, .map [("field", .str c.Field)])]) := by
  induction cs with
  | nil =>
    intro entries _ hf
    cases hf
    exact ⟨rfl, fun c hc => absurd hc (List.not_mem_nil _)⟩
  | cons c rest ih =>
    intro entries hnodup hf
    cases hf with
    | cons hce hrest =>
      obtain ⟨tok, hs, rfl⟩ := hce
      simp only [List.map_cons, List.nodup_cons] at hnodup
      obtain ⟨hkeys, hlook⟩ := ih _ hnodup.2 hrest
      refine ⟨by simp [cardinalityEntry, hkeys], ?_⟩
      intro x hx
      rcases List.mem_cons.1 hx with rfl | hx
      · exact ⟨tok, hs, by simp [cardinalityEntry, List.lookup]⟩
      · obtain ⟨tok2, hs2, hl2⟩ := hlook x hx
        refine ⟨tok2, hs2, ?_⟩
        have hne : x.Name ≠ c.Name := by
          intro e
          apply hnodup.1
          rw [← e]
          exact List.mem_map_of_mem _ hx
        rw [cardinalityEntry, lookup_append_entries _ _ _ _ hne, hl2]

/-- C14, as the code has it: for a QueryDoc with a non-empty TermsAggregations list and
aggregations of valid Type, where the names of the cardinality aggregations are distinct from
one another and from the Name of the first terms aggregation, the map that
`constructAggregations` returns has exactly the keys `TermsAggregations[0].Name` and the Names
of the cardinality aggregations. Under the first it holds the whole bucket chain, as
`constructTermsAggregations` builds it, and under the Name of each cardinality aggregation
`c` the map `token(c.Type): (field: c.Field)`: the cardinality aggregations are siblings of the
chain at the outermost level and none is inside it. -/
theorem aggregations_siblings (d : QueryDoc) (t0 : Aggregation) (trest : List Aggregation)
    (hterms : d.TermsAggregations = t0 :: trest)
    (hvalidT : ∀ x ∈ d.TermsAggregations, 0 ≤ x.Type_ ∧ x.Type_ ≤ 10)
    (hvalidC : ∀ c ∈ d.CardinalityAggregations, 0 ≤ c.Type_ ∧ c.Type_ ≤ 10)
    (hnodup : (d.CardinalityAggregations.map (·.Name)).Nodup)
    (hclash : ∀ c ∈ d.CardinalityAggregations, c.Name ≠ t0.Name) :
    ∃ m chain, constructAggregations d = .ok (some m) ∧
      constructTermsAggregations d.TermsAggregations = .ok (some [(t0.Name, chain)]) ∧
      m.map Prod.fst = t0.Name :: d.CardinalityAggregations.map (·.Name) ∧
      m.lookup t0.Name = some chain ∧
      ∀ c ∈ d.CardinalityAggregations, ∃ tok, QueryType.String c.Type_ = .ok tok ∧
        m.lookup c.Name = some (.map [(tok, .map [("field", .str c.Field)])]) := by
  rw [hterms] at hvalidT
  have hchain : ∃ chain, constructTermsAggregations (t0 :: trest) =
      .ok (some [(t0.Name, chain)]) := by
    obtain ⟨tok, -, -, h | h⟩ := constructTermsAggregations_shape t0 trest hvalidT
    · exact ⟨_, h.2⟩
    · obtain ⟨-, tail, -, h2⟩ := h
      exact ⟨_, h2⟩
  obtain ⟨chain, hchain⟩ := hchain
  obtain ⟨entries, he, hf⟩ := addCardinalityAggregations_append d.CardinalityAggregations
    [(t0.Name, chain)] hvalidC hnodup (by
      intro c hc
      simp only [List.map_cons, List.map_nil, List.mem_singleton]
      exact hclash c hc)
  obtain ⟨hkeys, hlook⟩ := lookup_cardinality d.CardinalityAggregations entries hnodup hf
  refine ⟨[(t0.Name, chain)] ++ entries, chain, ?_, by rw [hterms, hchain], ?_, ?_, ?_⟩
  · simp only [constructAggregations, hterms, hchain, bind, Except.bind, he, pure, Except.pure]
  · simp [hkeys]
  · simp [List.lookup]
  · intro c hc
    obtain ⟨tok, hs, hl⟩ := hlook c hc
    refine ⟨tok, hs, ?_⟩
    rw [List.singleton_append, lookup_append_entries _ _ _ _ (hclash c hc), hl]

set_option maxRecDepth 8192 in
theorem aggregations_siblings_witness :
    siblingAggDoc.TermsAggregations =
      ⟨Terms, "first_field_agg", "first_field.keyword", some 100, some [("_count", "desc")]⟩ ::
        [⟨Terms, "second_field_agg", "second_field.keyword", none, none⟩] ∧
    (∀ x ∈ siblingAggDoc.TermsAggregations, 0 ≤ x.Type_ ∧ x.Type_ ≤ 10) ∧
    (∀ c ∈ siblingAggDoc.CardinalityAggregations, 0 ≤ c.Type_ ∧ c.Type_ ≤ 10) ∧
    (siblingAggDoc.CardinalityAggregations.map (·.Name)).Nodup ∧
    (∀ c ∈ siblingAggDoc.CardinalityAggregations, c.Name ≠ "first_field_agg") ∧
    (∃ m chain, constructAggregations siblingAggDoc = .ok (some m) ∧
      m.map Prod.fst = ["first_field_agg", "users", "latest"] ∧
      m.lookup "first_field_agg" = some chain ∧
      constructTermsAggregations siblingAggDoc.TermsAggregations =
        .ok (some [("first_field_agg", chain)])) ∧
    (QueryDoc.MarshalJSON asciiLower siblingAggDoc).map Json.render =
      .ok "\x7b\"aggregations\":\x7b\"first_field_agg\":\x7b\"aggregations\":\x7b\"second_field_agg\":\x7b\"terms\":\x7b\"field\":\"second_field.keyword\"\x7d\x7d\x7d,\"terms\":\x7b\"field\":\"first_field.keyword\",\"order\":\x7b\"_count\":\"desc\"\x7d,\"size\":100\x7d\x7d,\"latest\":\x7b\"max\":\x7b\"field\":\"date\"\x7d\x7d,\"users\":\x7b\"cardinality\":\x7b\"field\":\"user.id\"\x7d\x7d\x7d,\"query\":\x7b\"bool\":\x7b\x7d\x7d,\"size\":0\x7d" := by
  have hT : ∀ x ∈ siblingAggDoc.TermsAggregations, 0 ≤ x.Type_ ∧ x.Type_ ≤ 10 := by
    intro x hx
    simp only [siblingAggDoc, QueryDoc.zero, testTermsAggregations, List.mem_cons,
      List.mem_singleton, List.not_mem_nil, or_false] at hx
    rcases hx with rfl | rfl <;> exact ⟨by decide, by decide⟩
  have hC : ∀ c ∈ siblingAggDoc.CardinalityAggregations, 0 ≤ c.Type_ ∧ c.Type_ ≤ 10 := by
    intro x hx
    simp only [siblingAggDoc, QueryDoc.zero, List.mem_cons, List.mem_singleton,
      List.not_mem_nil, or_false] at hx
    rcases hx with rfl | rfl <;> exact ⟨by decide, by decide⟩
  have hN : (siblingAggDoc.CardinalityAggregations.map (·.Name)).Nodup := by decide
  have hK : ∀ c ∈ siblingAggDoc.CardinalityAggregations, c.Name ≠ "first_field_agg" := by
    intro x hx
    simp only [siblingAggDoc, QueryDoc.zero, List.mem_cons, List.mem_singleton,
      List.not_mem_nil, or_false] at hx
    rcases hx with rfl | rfl <;> decide
  refine ⟨rfl, hT, hC, hN, hK, ?_, by rfl⟩
  obtain ⟨m, chain, h1, h2, h3, h4, -⟩ := aggregations_siblings siblingAggDoc _ _ rfl hT hC hN hK
  exact ⟨m, chain, h1, h3, h4, h2⟩

/-- C14, as stated, fails when a cardinality aggregation carries the Name of the first terms
aggregation: the names are unique within each list, and the assignment of the cardinality
entry replaces the bucket chain. -/
theorem cardinality_replaces_chain :
    (clashingAggDoc.TermsAggregations.map (·.Name)).Nodup ∧
    (clashingAggDoc.CardinalityAggregations.map (·.Name)).Nodup ∧
    constructTermsAggregations clashingAggDoc.TermsAggregations =
      .ok (some [("users", .map [("terms", .map [("field", .str "user.id")])])]) ∧
    constructAggregations clashingAggDoc =
      .ok (some [("users", .map [("cardinality", .map [("field", .str "user.name")])])]) ∧
    (∀ m, constructAggregations clashingAggDoc = .ok (some m) →
      m.lookup "users" ≠ some (.map [("terms", .map [("field", .str "user.id")])])) := by
  have h : constructAggregations clashingAggDoc =
      .ok (some [("users", .map [("cardinality", .map [("field", .str "user.name")])])]) := rfl
  refine ⟨by decide, by decide, rfl, h, ?_⟩
  intro m hm
  rw [h] at hm
  simp only [Except.ok.injEq, Option.some.injEq] at hm
  subst hm
  simp [List.lookup]

/-! ## Undoing the sanitizer -/

theorem unescapeChars_escaped (c : Char) (rest : List Char) :
    unescapeChars ('\\' :: c :: rest) = c :: unescapeChars rest := by
  simp [unescapeChars]

theorem unescapeChars_plain (c : Char) (rest : List Char) (hc : c ≠ '\\') :
    unescapeChars (c :: rest) = c :: unescapeChars rest := by
  cases rest with
  | nil => simp [unescapeChars, hc]
  | cons d rest => simp [unescapeChars, hc]

theorem unescapeChars_escapeWith (L P : List Char) (hL : '\\' ∈ L) (s : List Char) :
    unescapeChars (escapeWith L P s) = s := by
  suffices H : ∀ n (s : List Char), s.length ≤ n → unescapeChars (escapeWith L P s) = s from
    H s.length s le_rfl
  intro n
  induction n with
  | zero =>
    intro s hs
    have : s = [] := List.length_eq_zero.1 (Nat.le_zero.1 hs)
    subst this
    rfl
  | succ n ih =>
    intro s hs
    match s, hs with
    | [], _ => rfl
    | c :: rest, hs =>
      have hrest : rest.length ≤ n := by simpa using hs
      by_cases hc : c ∈ L
      · rw [escapeWith_cons_single L P c rest hc, unescapeChars_escaped, ih rest hrest]
      · have hcb : c ≠ '\\' := fun e => hc (e ▸ hL)
        match rest, hrest with
        | [], _ => simp [escapeWith, hc, unescapeChars, hcb]
        | d :: rest2, hrest =>
          have hrest2 : rest2.length ≤ n := by
            simp only [List.length_cons] at hrest; omega
          by_cases hp : c ∈ P ∧ d = c
          · obtain ⟨hcp, hdc⟩ := hp
            subst hdc
            rw [escapeWith_cons_pair L P d rest2 hc hcp, unescapeChars_escaped,
              unescapeChars_plain d _ hcb, ih rest2 hrest2]
          · have e1 : escapeWith L P (c :: d :: rest2) = c :: escapeWith L P (d :: rest2) := by
              simp only [escapeWith, if_neg hc, if_neg hp]
            rw [e1, unescapeChars_plain c _ hcb, ih (d :: rest2) hrest]

theorem escapeWith_length_le (L P : List Char) (s : List Char) :
    s.length ≤ (escapeWith L P s).length := by
  suffices H : ∀ n (s : List Char), s.length ≤ n → s.length ≤ (escapeWith L P s).length from
    H s.length s le_rfl
  intro n
  induction n with
  | zero =>
    intro s hs
    omega
  | succ n ih =>
    intro s hs
    match s, hs with
    | [], _ => simp
    | [c], _ =>
      simp only [escapeWith]
      split_ifs <;> simp
    | c :: d :: rest, hs =>
      have h1 : (d :: rest).length ≤ n := by simpa using hs
      have h2 : rest.length ≤ n := by simp only [List.length_cons] at h1; omega
      have i1 := ih _ h1
      have i2 := ih _ h2
      simp only [escapeWith]
      split_ifs <;> simp only [List.length_cons] at i1 ⊢ <;> omega

theorem escapeWith_length_lt_of_single (L P : List Char) (c : Char) (hc : c ∈ L)
    (s : List Char) (hs : c ∈ s) : s.length < (escapeWith L P s).length := by
  induction s with
  | nil => cases hs
  | cons x rest ih =>
    by_cases hx : x ∈ L
    · rw [escapeWith_cons_single L P x rest hx]
      have := escapeWith_length_le L P rest
      simp only [List.length_cons]
      omega
    · have hxc : c ≠ x := fun e => hx (e ▸ hc)
      have hmem : c ∈ rest := by
        rcases List.mem_cons.1 hs with h | h
        · exact absurd h hxc
        · exact h
      have i := ih hmem
      cases rest with
      | nil => cases hmem
      | cons d rest2 =>
        simp only [escapeWith, if_neg hx]
        split_ifs with hp
        · have := escapeWith_length_le L P rest2
          simp only [List.length_cons]
          omega
        · simp only [List.length_cons] at i ⊢
          omega

theorem escapeWith_length_lt_of_pair (L P : List Char) (c : Char) (hc : c ∈ P)
    (s : List Char) (hs : containsChars [c, c] s = true) :
    s.length < (escapeWith L P s).length := by
  suffices H : ∀ n (s : List Char), s.length ≤ n → containsChars [c, c] s = true →
      s.length < (escapeWith L P s).length from H s.length s le_rfl hs
  intro n
  induction n with
  | zero =>
    intro s hs hcont
    have : s = [] := List.length_eq_zero.1 (Nat.le_zero.1 hs)
    subst this
    simp [containsChars, List.isPrefixOf] at hcont
  | succ n ih =>
    intro s hs hcont
    match s, hs, hcont with
    | [], _, hcont => simp [containsChars, List.isPrefixOf] at hcont
    | [x], _, hcont => simp [containsChars, List.isPrefixOf] at hcont
    | x :: d :: rest, hs, hcont =>
      have h1 : (d :: rest).length ≤ n := by simpa using hs
      have l1 := escapeWith_length_le L P (d :: rest)
      have l2 := escapeWith_length_le L P rest
      simp only [escapeWith]
      split_ifs with hx hp
      · simp only [List.length_cons] at l1 ⊢
        omega
      · simp only [List.length_cons]
        omega
      · have hrest : containsChars [c, c] (d :: rest) = true := by
          rw [containsChars, Bool.or_eq_true] at hcont
          rcases hcont with h | h
          · exfalso
            simp only [List.isPrefixOf, Bool.and_eq_true, beq_iff_eq, Bool.and_true] at h
            exact hp ⟨h.1 ▸ hc, h.2.symm.trans h.1⟩
          · exact h
        have i := ih _ h1 hrest
        simp only [List.length_cons] at i ⊢
        omega


theorem containsChars_single (c : Char) (s : List Char) :
    containsChars [c] s = true ↔ c ∈ s := by
  induction s with
  | nil => simp [containsChars, List.isPrefixOf]
  | cons x rest ih =>
    simp only [containsChars, List.isPrefixOf, Bool.and_true, Bool.or_eq_true, beq_iff_eq, ih,
      List.mem_cons]

theorem reserved_shapes : ∀ tok ∈ reserved, tokenShape tok.data = true := by decide

theorem sanitize_fold_id (toks : List String) (acc : String)
    (h : ∀ tok ∈ toks, strings_Contains acc tok = false) :
    toks.foldl
      (fun sanitizedKeyword char =>
        if strings_Contains sanitizedKeyword char then
          strings_ReplaceAll sanitizedKeyword char ("\\" ++ char)
        else sanitizedKeyword) acc = acc := by
  induction toks with
  | nil => rfl
  | cons tok rest ih =>
    simp only [List.foldl, h tok (List.mem_cons_self _ _), Bool.false_eq_true, if_false]
    exact ih (fun t ht => h t (List.mem_cons_of_mem _ ht))

theorem sanitize_fixed_iff (s : String) :
    sanitizeElasticQueryField s = s ↔ ∀ tok ∈ reserved, strings_Contains s tok = false := by
  constructor
  · intro h tok htok
    have hlen : (escapeWith reservedChars ['&', '|'] s.data).length = s.data.length := by
      have := congrArg String.data h
      rw [sanitize_eq_escapeWith] at this
      simp only at this
      rw [this]
    by_contra hc
    have hc : containsChars tok.data s.data = true := by
      simpa [strings_Contains] using hc
    have hshape := reserved_shapes tok htok
    generalize tok.data = t at hc hshape
    match t, hshape with
    | [c], hs =>
      have hs : c ∈ reservedChars := by simpa [tokenShape] using hs
      have := escapeWith_length_lt_of_single reservedChars ['&', '|'] c hs s.data
        ((containsChars_single c s.data).1 hc)
      omega
    | [c, d], hs =>
      have hs : c = d ∧ c ∈ ['&', '|'] := by
        simpa only [tokenShape, Bool.and_eq_true, beq_iff_eq, decide_eq_true_eq] using hs
      obtain ⟨rfl, hp⟩ := hs
      have := escapeWith_length_lt_of_pair reservedChars ['&', '|'] c hp s.data hc
      omega
  · intro h
    exact sanitize_fold_id reserved s h

/-- C20: `sanitizeElasticQueryField` loses no information. For every text `s`, the unescape
pass, which drops each backslash and copies the character after it as it is, applied to
sanitize(s) returns `s`; hence sanitize is injective; and sanitize(s) = s exactly when `s`
contains none of the reserved tokens. -/
theorem sanitize_lossless :
    (∀ s, unescape (sanitizeElasticQueryField s) = s) ∧
    Function.Injective sanitizeElasticQueryField ∧
    (∀ s, sanitizeElasticQueryField s = s ↔
      ∀ tok ∈ reserved, strings_Contains s tok = false) := by
  have h1 : ∀ s, unescape (sanitizeElasticQueryField s) = s := by
    intro s
    rw [sanitize_eq_escapeWith, unescape]
    simp only
    rw [unescapeChars_escapeWith reservedChars ['&', '|'] (by decide)]
  refine ⟨h1, ?_, sanitize_fixed_iff⟩
  intro a b hab
  rw [← h1 a, ← h1 b, hab]

/-! ## Batches -/

theorem multiSearchLoop_ok (toLower : String → String) (qs : List QueryDoc)
    (bodies : List Json)
    (h : List.Forall₂ (fun q b => QueryDoc.MarshalJSON toLower q = .ok b) qs bodies) :
    ∀ acc, multiSearchLoop toLower qs acc = .ok (acc ++ batchText qs bodies) := by
  induction h with
  | nil =>
    intro acc
    simp [multiSearchLoop, batchText]
  | cons hq _ ih =>
    intro acc
    simp only [multiSearchLoop, hq, bind, Except.bind, ih, batchText, String.append_assoc]

/-- The batch of documents that all encode is the concatenation of their selector and body
lines, in input order. -/
theorem MultiSearchDoc_ok (toLower : String → String) (qs : List QueryDoc)
    (bodies : List Json)
    (h : List.Forall₂ (fun q b => QueryDoc.MarshalJSON toLower q = .ok b) qs bodies) :
    MultiSearchDoc toLower qs = .ok (batchText qs bodies) := by
  rw [MultiSearchDoc, multiSearchLoop_ok toLower qs bodies h]
  simp

set_option maxRecDepth 8192 in
/-- C15: the selector line is not the JSON object `index: doc.Index` for every Index.
`MultiSearchDoc` pastes Index between quotes without escaping it, while the body line goes
through `json.Marshal`. With a double quote in Index the selector line is not JSON text, and
with a newline in Index the selector spans two lines, so that one document gives three
newline-terminated lines. For the documents of `TestMultiSearchDoc` the batch is the expected
four lines, and the empty list gives the empty text. -/
theorem selector_line_not_escaped :
    MultiSearchDoc asciiLower [quoteIndexDoc] =
      .ok "\x7b\"index\":\"a\"b\"\x7d\n\x7b\"query\":\x7b\"bool\":\x7b\x7d\x7d,\"size\":0\x7d\n" ∧
    (Json.obj [("index", .str quoteIndexDoc.Index)]).render = "\x7b\"index\":\"a\\\"b\"\x7d" ∧
    MultiSearchDoc asciiLower [newlineIndexDoc] =
      .ok "\x7b\"index\":\"logs\n2024\"\x7d\n\x7b\"query\":\x7b\"bool\":\x7b\x7d\x7d,\"size\":0\x7d\n" ∧
    (MultiSearchDoc asciiLower [newlineIndexDoc]).map newlineCount = .ok 3 ∧
    (Json.obj [("index", .str newlineIndexDoc.Index)]).render =
      "\x7b\"index\":\"logs\\n2024\"\x7d" ∧
    MultiSearchDoc asciiLower multiSearchDocs =
      .ok "\x7b\"index\":\"index1\"\x7d\n\x7b\"query\":\x7b\"bool\":\x7b\"must\":[\x7b\"query_string\":\x7b\"analyze_wildcard\":true,\"fields\":[\"user.id\"],\"query\":\"kimchy\\\\!\"\x7d\x7d]\x7d\x7d,\"size\":0\x7d\n\x7b\"index\":\"index2\"\x7d\n\x7b\"query\":\x7b\"bool\":\x7b\"must\":[\x7b\"match\":\x7b\"some_index_id\":\"some-long-key-id-value\"\x7d\x7d]\x7d\x7d,\"size\":0\x7d\n" ∧
    (MultiSearchDoc asciiLower multiSearchDocs).map newlineCount = .ok 4 ∧
    MultiSearchDoc asciiLower [] = .ok "" := by
  refine ⟨by rfl, by decide, by rfl, by rfl, by decide, by rfl, by rfl, rfl⟩

/-! ## Key order of the encoded objects -/

theorem keyLess_irrefl (a : List Char) : keyLess a a = false := by
  induction a with
  | nil => rfl
  | cons x rest ih => simp [keyLess, ih]

theorem keyLess_trans : ∀ (a b c : List Char),
    keyLess a b = true → keyLess b c = true → keyLess a c = true
  | [], [], _, h, _ => by simp [keyLess] at h
  | [], _ :: _, [], _, h => by simp [keyLess] at h
  | [], _ :: _, _ :: _, _, _ => by simp [keyLess]
  | _ :: _, [], _, h, _ => by simp [keyLess] at h
  | _ :: _, _ :: _, [], _, h => by simp [keyLess] at h
  | x :: xs, y :: ys, z :: zs, h1, h2 => by
    simp only [keyLess] at h1 h2 ⊢
    split_ifs at h1 h2 ⊢ <;> first | rfl | omega | exact keyLess_trans xs ys zs h1 h2

theorem keyLess_asymm (a b : List Char) (h : keyLess a b = true) : keyLess b a = false := by
  cases hb : keyLess b a with
  | false => rfl
  | true =>
    have := keyLess_trans a b a h hb
    rw [keyLess_irrefl] at this
    cases this


theorem mem_insertByKey {α : Type} (kv x : String × α) (l : List (String × α)) :
    x ∈ insertByKey kv l ↔ x = kv ∨ x ∈ l := by
  induction l with
  | nil => simp [insertByKey]
  | cons y rest ih =>
    simp only [insertByKey]
    split_ifs
    · simp
    · simp only [List.mem_cons, ih]
      tauto

theorem mem_sortByKey {α : Type} (x : String × α) (l : List (String × α)) :
    x ∈ sortByKey l ↔ x ∈ l := by
  induction l with
  | nil => simp [sortByKey]
  | cons y rest ih => simp only [sortByKey, mem_insertByKey, ih, List.mem_cons]

theorem pairwise_insertByKey {α : Type} (kv : String × α) (l : List (String × α))
    (h : l.Pairwise (fun a b => keyLess b.1.data a.1.data = false)) :
    (insertByKey kv l).Pairwise (fun a b => keyLess b.1.data a.1.data = false) := by
  induction l with
  | nil => simp [insertByKey]
  | cons y rest ih =>
    rw [List.pairwise_cons] at h
    simp only [insertByKey]
    split_ifs with hlt
    · refine List.pairwise_cons.2 ⟨?_, List.pairwise_cons.2 h⟩
      intro z hz
      rcases List.mem_cons.1 hz with rfl | hz
      · exact keyLess_asymm _ _ hlt
      · cases hzk : keyLess z.1.data kv.1.data with
        | false => rfl
        | true =>
          have := keyLess_trans _ _ _ hzk hlt
          rw [h.1 z hz] at this
          cases this
    · refine List.pairwise_cons.2 ⟨?_, ih h.2⟩
      intro z hz
      rcases (mem_insertByKey kv z rest).1 hz with rfl | hz
      · simpa using hlt
      · exact h.1 z hz

theorem pairwise_sortByKey {α : Type} (l : List (String × α)) :
    (sortByKey l).Pairwise (fun a b => keyLess b.1.data a.1.data = false) := by
  induction l with
  | nil => simp [sortByKey]
  | cons y rest ih => exact pairwise_insertByKey y _ ih

theorem keysAscending_of_pairwise {α : Type} (l : List (String × α))
    (h : l.Pairwise (fun a b => keyLess b.1.data a.1.data = false)) :
    keysAscending (l.map Prod.fst) = true := by
  induction l with
  | nil => rfl
  | cons x rest ih =>
    rw [List.pairwise_cons] at h
    cases rest with
    | nil => rfl
    | cons y rest2 =>
      simp only [List.map_cons, keysAscending, Bool.and_eq_true, Bool.not_eq_true']
      exact ⟨h.1 y (List.mem_cons_self _ _), by simpa using ih h.2⟩

/-- The keys of a map come out of `json.Marshal` in alphabetical order. -/
theorem keysAscending_sortByKey {α : Type} (l : List (String × α)) :
    keysAscending ((sortByKey l).map Prod.fst) = true :=
  keysAscending_of_pairwise _ (pairwise_sortByKey l)

theorem mem_mapSet {α : Type} (m : List (String × α)) (k : String) (v : α) (x : String × α)
    (h : x ∈ mapSet m k v) : x ∈ m ∨ x = (k, v) := by
  induction m with
  | nil =>
    simp only [mapSet, List.mem_singleton] at h
    exact Or.inr h
  | cons y rest ih =>
    obtain ⟨k0, v0⟩ := y
    simp only [mapSet] at h
    split_ifs at h
    · rcases List.mem_cons.1 h with h | h
      · exact Or.inr h
      · exact Or.inl (List.mem_cons_of_mem _ h)
    · rcases List.mem_cons.1 h with h | h
      · exact Or.inl (h ▸ List.mem_cons_self _ _)
      · rcases ih h with h | h
        · exact Or.inl (List.mem_cons_of_mem _ h)
        · exact Or.inr h

theorem mem_mapLit_foldl {α : Type} (es : List (String × α)) :
    ∀ (acc : List (String × α)) (x : String × α),
      x ∈ es.foldl (fun m kv => mapSet m kv.1 kv.2) acc → x ∈ acc ∨ x ∈ es := by
  induction es with
  | nil => intro acc x h; exact Or.inl h
  | cons e rest ih =>
    intro acc x h
    rcases ih _ x h with h | h
    · rcases mem_mapSet acc e.1 e.2 x h with h | h
      · exact Or.inl h
      · exact Or.inr (h ▸ List.mem_cons_self _ _)
    · exact Or.inr (List.mem_cons_of_mem _ h)

theorem mem_mapLit {α : Type} (es : List (String × α)) (x : String × α)
    (h : x ∈ mapLit es) : x ∈ es := by
  rcases mem_mapLit_foldl es [] x h with h | h
  · cases h
  · exact h

theorem elemsAll_iff (p : List String → Bool) (xs : List Json) :
    elemsAll p xs = true ↔ ∀ x ∈ xs, x.allObjects p = true := by
  induction xs with
  | nil => simp [elemsAll]
  | cons x rest ih => simp [elemsAll, ih]

theorem membersAll_iff (p : List String → Bool) (kvs : List (String × Json)) :
    membersAll p kvs = true ↔ ∀ kv ∈ kvs, kv.2.allObjects p = true := by
  induction kvs with
  | nil => simp [membersAll]
  | cons x rest ih =>
    obtain ⟨k, v⟩ := x
    simp [membersAll, ih]

/-- An object written from a map: its keys ascend, and its values are those of the entries. -/
theorem marshalMap_allObjects (p : List String → Bool)
    (hp : ∀ ks, keysAscending ks = true → p ks = true) (entries : List (String × Json))
    (h : ∀ kv ∈ entries, kv.2.allObjects p = true) :
    (Json.obj (sortByKey (mapLit entries))).allObjects p = true := by
  simp only [Json.allObjects, Bool.and_eq_true, membersAll_iff]
  refine ⟨hp _ (keysAscending_sortByKey _), ?_⟩
  intro kv hkv
  exact h kv (mem_mapLit _ _ ((mem_sortByKey _ _).1 hkv))


mutual
/-- A plain value is written with the keys of every object in alphabetical order. -/
theorem Data_marshal_allObjects (p : List String → Bool)
    (hp : ∀ ks, keysAscending ks = true → p ks = true) :
    ∀ v : Data, v.marshal.allObjects p = true
  | .str _ => rfl
  | .int _ => rfl
  | .bool _ => rfl
  | .nil => rfl
  | .slice xs => by
    simp only [Data.marshal, Json.allObjects]
    exact marshalSlice_allObjects p hp xs
  | .map m => by
    simp only [Data.marshal]
    exact marshalMap_allObjects p hp _ (marshalEntries_allObjects p hp m)
theorem marshalSlice_allObjects (p : List String → Bool)
    (hp : ∀ ks, keysAscending ks = true → p ks = true) :
    ∀ xs : List Data, elemsAll p (marshalSlice xs) = true
  | [] => rfl
  | x :: xs => by
    simp only [marshalSlice, elemsAll, Bool.and_eq_true]
    exact ⟨Data_marshal_allObjects p hp x, marshalSlice_allObjects p hp xs⟩
theorem marshalEntries_allObjects (p : List String → Bool)
    (hp : ∀ ks, keysAscending ks = true → p ks = true) :
    ∀ m : List (String × Data), ∀ kv ∈ marshalEntries m, kv.2.allObjects p = true
  | [] => by
    intro kv hkv
    simp [marshalEntries] at hkv
  | (k, v) :: rest => by
    intro kv hkv
    simp only [marshalEntries, List.mem_cons] at hkv
    rcases hkv with rfl | hkv
    · exact Data_marshal_allObjects p hp v
    · exact marshalEntries_allObjects p hp rest kv hkv
end

theorem boolMembers_keys_sublist (must mustNot should filters : List Json) (msm : Int) :
    ((boolMembers must mustNot should filters msm).map Prod.fst).isSublist boolOrder
      = true := by
  have hl : ∀ (k : String) (xs : List Json),
      (omitEmptyList k xs).map Prod.fst = optKey (!xs.isEmpty) k := by
    intro k xs; cases xs <;> simp [omitEmptyList, optKey]
  have hz : (omitZero "minimum_should_match" msm).map Prod.fst =
      optKey (decide (msm ≠ 0)) "minimum_should_match" := by
    simp only [omitZero, optKey]; split_ifs <;> simp_all
  simp only [boolMembers, List.map_append, hl, hz]
  generalize (!must.isEmpty) = a
  generalize (!mustNot.isEmpty) = b
  generalize (!should.isEmpty) = c
  generalize (!filters.isEmpty) = d
  generalize decide (msm ≠ 0) = e
  cases a <;> cases b <;> cases c <;> cases d <;> cases e <;> decide

theorem omitEmptyList_allObjects (p : List String → Bool) (key : String) (xs : List Json)
    (h : ∀ x ∈ xs, x.allObjects p = true) :
    ∀ kv ∈ omitEmptyList key xs, kv.2.allObjects p = true := by
  intro kv hkv
  simp only [omitEmptyList] at hkv
  split_ifs at hkv
  · cases hkv
  · simp only [List.mem_singleton] at hkv
    subst hkv
    simp only [Json.allObjects, elemsAll_iff]
    exact h

theorem encodeLeaves_mem (toLower : String → String) (l : List QueryItem) (js : List Json)
    (h : encodeLeaves toLower l = .ok js) :
    ∀ x ∈ js, ∃ n ∈ l, encodeLeaf toLower n = .ok x := by
  induction l generalizing js with
  | nil =>
    simp only [encodeLeaves, Except.ok.injEq] at h
    subst h
    intro x hx
    cases hx
  | cons n rest ih =>
    rw [encodeLeaves_cons] at h
    cases hn : encodeLeaf toLower n with
    | error e => simp [hn] at h
    | ok j =>
      cases hr : encodeLeaves toLower rest with
      | error e => simp [hn, hr] at h
      | ok js2 =>
        simp only [hn, hr, Except.ok.injEq] at h
        subst h
        intro x hx
        rcases List.mem_cons.1 hx with rfl | hx
        · exact ⟨n, List.mem_cons_self _ _, hn⟩
        · obtain ⟨m, hm, hme⟩ := ih js2 hr x hx
          exact ⟨m, List.mem_cons_of_mem _ hm, hme⟩

theorem encodeWrapped_ok_form (toLower : String → String) (d : QueryDoc) (j : Json)
    (h : encodeWrapped toLower d = .ok j) :
    ∃ must mustNot should filters,
      encodeLeaves toLower d.And = .ok must ∧ encodeLeaves toLower d.Not = .ok mustNot ∧
      encodeLeaves toLower d.Or = .ok should ∧ encodeLeaves toLower d.Filter = .ok filters ∧
      j = .obj [("bool",
        .obj (boolMembers must mustNot should filters d.MinimumShouldMatch))] := by
  rw [encodeWrapped_eq] at h
  obtain ⟨must, mustNot, should, filters, h1, h2, h3, h4, rfl⟩ :=
    queryWrap_marshal_ok toLower _ j h
  obtain ⟨e1, e2, e3, e4, e5⟩ := getWrappedQuery_fields d
  rw [e1, marshalLeafList_clause] at h1
  rw [e2, marshalLeafList_clause] at h2
  rw [e3, marshalLeafList_clause] at h3
  rw [e4, marshalLeafList_clause] at h4
  exact ⟨must, mustNot, should, filters, h1, h2, h3, h4, by rw [e5]⟩

theorem orderedLeaf_unfold (name : String) (value : Value) (type : QueryType) :
    orderedLeaf ⟨name, value, type⟩ =
      if type = Nested then
        match value with
        | .doc d => orderedWrapped d
        | .data _ => fun _ => false
      else leafShape (orderedValue value) := by
  cases value <;> rfl

theorem orderedWrapped_unfold (d : QueryDoc) :
    orderedWrapped d =
      wrapperShape (orderedLeaves d.And) (orderedLeaves d.Not) (orderedLeaves d.Or)
        (orderedLeaves d.Filter) := by
  cases d; rfl

theorem orderedValue_data (v : Data) : orderedValue (.data v) = Json.allObjects keysAscending := by
  rfl

theorem orderedValue_doc (d : QueryDoc) : orderedValue (.doc d) = orderedRequest d := by
  rfl

theorem orderedLeaves_cons (item : QueryItem) (rest : List QueryItem) (leaf : Json)
    (more : List Json) :
    orderedLeaves (item :: rest) (leaf :: more) =
      (orderedLeaf item leaf && orderedLeaves rest more) := by
  rfl

theorem QueryType_String_ne_bool (t : QueryType) (tok : String)
    (h : QueryType.String t = .ok tok) : tok ≠ "bool" := by
  simp only [QueryType.String] at h
  split_ifs at h with h1 h2
  have hlen : ((convs.length : Nat) : Int) = 11 := rfl
  rw [hlen] at h1
  have h3 : t ≤ 11 := not_lt.1 h1
  have h4 : (0 : Int) ≤ t := not_lt.1 h2
  interval_cases t <;> simp [convs] at h <;> subst h <;> decide

/-- A leaf written from a map over a map is in order when the values of the inner map are. -/
theorem leafShape_marshalMap (p : Json → Bool) (tok : String) (entries : List (String × Json))
    (htok : tok ≠ "bool") (h : ∀ kv ∈ entries, p kv.2 = true) :
    leafShape p (.obj [(tok, marshalMap entries)]) = true := by
  simp only [marshalMap, leafShape, Bool.and_eq_true, List.all_eq_true, bne_iff_ne, ne_eq]
  refine ⟨⟨htok, keysAscending_sortByKey _⟩, ?_⟩
  intro kv hkv
  exact h kv (mem_mapLit entries kv ((mem_sortByKey kv _).1 hkv))

theorem default_form_leafShape (p : Json → Bool) (tok name : String)
    (enc : Except Failure Json) (htok : tok ≠ "bool")
    (henc : ∀ v, enc = .ok v → p v = true) (j : Json)
    (h : enc.map (fun v => Json.obj [(tok, .obj [(name, v)])]) = .ok j) :
    leafShape p j = true := by
  cases enc with
  | error e => cases h
  | ok v =>
    simp only [Except.map, Except.ok.injEq] at h
    subst h
    have e : Json.obj [(name, v)] = marshalMap [(name, v)] := rfl
    rw [e]
    apply leafShape_marshalMap p tok _ htok
    intro kv hkv
    simp only [List.mem_singleton] at hkv
    subst hkv
    exact henc v rfl

/-- A leaf written by `handleMarshalType` is in order: one token over a body from a map, over
the encoding of the value. -/
theorem handleMarshalType_leafShape (toLower : String → String) (q : leafQuery)
    (tok : String) (enc : Except Failure Json) (htok : tok ≠ "bool")
    (henc : ∀ v, enc = .ok v → orderedValue q.Value v = true) (j : Json)
    (h : q.handleMarshalType toLower tok enc = .ok j) :
    leafShape (orderedValue q.Value) j = true := by
  by_cases htext : ∃ s, q.Value = .text s
  · obtain ⟨s, hs⟩ := htext
    obtain ⟨t, n, v⟩ := q
    simp only at hs
    subst hs
    by_cases hq : t = QueryString
    · subst hq
      have e : leafQuery.handleMarshalType toLower ⟨QueryString, n, .text s⟩ tok enc =
          .ok (.obj [(tok, marshalMap [("fields", strArr [n]),
            ("query", .str (sanitizeElasticQueryField s)),
            ("analyze_wildcard", .bool true)])]) := by
        cases enc <;> rfl
      rw [e] at h
      simp only [Except.ok.injEq] at h
      subst h
      apply leafShape_marshalMap _ tok _ htok
      intro kv hkv
      simp only [List.mem_cons, List.mem_singleton, List.not_mem_nil, or_false] at hkv
      rcases hkv with rfl | rfl | rfl <;> rfl
    · by_cases hw : t = Wildcard
      · subst hw
        have e : leafQuery.handleMarshalType toLower ⟨Wildcard, n, .text s⟩ tok enc =
            .ok (.obj [(tok, marshalMap [(n, marshalMap [("value", .str (toLower s)),
              ("case_insensitive", .bool true)])])]) := by
          cases enc <;> rfl
        rw [e] at h
        simp only [Except.ok.injEq] at h
        subst h
        apply leafShape_marshalMap _ tok _ htok
        intro kv hkv
        simp only [List.mem_singleton] at hkv
        subst hkv
        show Json.allObjects keysAscending _ = true
        apply marshalMap_allObjects keysAscending (fun _ hk => hk)
        intro kv hkv
        simp only [List.mem_cons, List.mem_singleton, List.not_mem_nil, or_false] at hkv
        rcases hkv with rfl | rfl <;> rfl
      · rw [handleMarshalType_default toLower _ tok enc hw hq] at h
        exact default_form_leafShape _ tok n enc htok henc j h
  · have hv : ∀ s, q.Value ≠ .text s := fun s hs => htext ⟨s, hs⟩
    rw [handleMarshalType_not_text toLower q tok enc hv] at h
    split_ifs at h
    exact default_form_leafShape _ tok q.Name enc htok henc j h

theorem omitEmptyList_bucketShape (must mustNot should filter : List Json → Bool)
    (key : String) (xs : List Json)
    (h : bucketShape must mustNot should filter (key, .arr xs) = true) :
    ∀ kv ∈ omitEmptyList key xs, bucketShape must mustNot should filter kv = true := by
  intro kv hkv
  simp only [omitEmptyList] at hkv
  split_ifs at hkv
  · cases hkv
  · simp only [List.mem_singleton] at hkv
    subst hkv
    exact h

/-- The wrapper keeps the order of the fields of `boolWrap`, each clause list under its tag. -/
theorem wrapperShape_boolMembers (pm pn ps pf : List Json → Bool)
    (must mustNot should filters : List Json) (msm : Int)
    (h1 : pm must = true) (h2 : pn mustNot = true) (h3 : ps should = true)
    (h4 : pf filters = true) :
    wrapperShape pm pn ps pf
      (.obj [("bool", .obj (boolMembers must mustNot should filters msm))]) = true := by
  simp only [wrapperShape, Bool.and_eq_true, List.all_eq_true, beq_self_eq_true, true_and]
  refine ⟨boolMembers_keys_sublist _ _ _ _ _, ?_⟩
  intro kv hkv
  simp only [boolMembers, List.mem_append] at hkv
  rcases hkv with (((hkv | hkv) | hkv) | hkv) | hkv
  · exact omitEmptyList_bucketShape pm pn ps pf _ _ (by simpa [bucketShape] using h1) kv hkv
  · exact omitEmptyList_bucketShape pm pn ps pf _ _ (by simpa [bucketShape] using h2) kv hkv
  · exact omitEmptyList_bucketShape pm pn ps pf _ _ (by simpa [bucketShape] using h3) kv hkv
  · exact omitEmptyList_bucketShape pm pn ps pf _ _ (by simpa [bucketShape] using h4) kv hkv
  · simp only [omitZero] at hkv
    split_ifs at hkv
    · cases hkv
    · simp only [List.mem_singleton] at hkv
      subst hkv
      rfl

theorem requestKeysOk_requestKeys (a f s sa t src : Bool) :
    requestKeysOk (requestKeys a f s sa t src) = true := by
  cases a <;> cases f <;> cases s <;> cases sa <;> cases t <;> cases src <;> decide

theorem omitEmptyList_key (key : String) (xs : List Json) :
    ∀ kv ∈ omitEmptyList key xs, kv.1 = key := by
  intro kv hkv
  simp only [omitEmptyList] at hkv
  split_ifs at hkv
  · cases hkv
  · simp only [List.mem_singleton] at hkv
    rw [hkv]

/-- The request object keeps the order of the fields of `queryReqDoc`; what it holds beside the
wrapper is written from maps, slices and scalars. -/
theorem requestShape_reqDocMembers (p : Json → Bool) (r : queryReqDoc) (q : Json)
    (hq : p q = true) : requestShape p (.obj (reqDocMembers r q)) = true := by
  simp only [requestShape, Bool.and_eq_true, List.all_eq_true]
  constructor
  · rw [reqDocMembers_keys]
    exact requestKeysOk_requestKeys _ _ _ _ _ _
  · intro kv hkv
    simp only [reqDocMembers, List.mem_append, List.mem_cons, List.mem_singleton,
      List.not_mem_nil, or_false] at hkv
    have hplain : ∀ (key : String) (xs : List Json), key ≠ "query" →
        (∀ x ∈ xs, x.allObjects keysAscending = true) → kv ∈ omitEmptyList key xs →
        (if kv.1 = "query" then p kv.2 else kv.2.allObjects keysAscending) = true := by
      intro key xs hkey hxs hmem
      rw [if_neg (by rw [omitEmptyList_key key xs kv hmem]; exact hkey)]
      exact omitEmptyList_allObjects keysAscending key xs hxs kv hmem
    rcases hkv with (((((hkv | hkv) | hkv) | hkv) | hkv) | hkv) | hkv
    · obtain ⟨a, _, _, _, _, _, _, _⟩ := r
      rcases a with _ | _ | ⟨e, es⟩
      · simp [omitEmptyMap] at hkv
      · simp [omitEmptyMap] at hkv
      · simp only [omitEmptyMap, List.mem_singleton] at hkv
        subst hkv
        have hne : ¬ ("aggregations" : String) = "query" := by decide
        rw [if_neg hne]
        exact Data_marshal_allObjects keysAscending (fun _ hk => hk) _
    · rcases hkv with rfl | rfl
      · rw [if_pos rfl]
        exact hq
      · rfl
    · simp only [omitZero] at hkv
      split_ifs at hkv
      · cases hkv
      · simp only [List.mem_singleton] at hkv
        subst hkv
        rfl
    · refine hplain _ _ (by decide) ?_ hkv
      intro x hx
      simp only [List.mem_map] at hx
      obtain ⟨m, -, rfl⟩ := hx
      exact Data_marshal_allObjects keysAscending (fun _ hk => hk) _
    · refine hplain _ _ (by decide) ?_ hkv
      intro x hx
      simp only [List.mem_map] at hx
      obtain ⟨m, -, rfl⟩ := hx
      rfl
    · cases ht : r.TrackTotalHits
      · simp [omitFalse, ht] at hkv
      · simp only [omitFalse, ht, if_true, List.mem_singleton] at hkv
        subst hkv
        rfl
    · refine hplain _ _ (by decide) ?_ hkv
      intro x hx
      simp only [List.mem_map] at hx
      obtain ⟨m, -, rfl⟩ := hx
      rfl

/-- The leaves of a clause list are in order, item by item, when each leaf is. -/
theorem orderedLeaves_of_leaf (toLower : String → String) (l : List QueryItem)
    (h : ∀ n ∈ l, ∀ x, encodeLeaf toLower n = .ok x → orderedLeaf n x = true) :
    ∀ js, encodeLeaves toLower l = .ok js → orderedLeaves l js = true := by
  induction l with
  | nil =>
    intro js hjs
    simp only [encodeLeaves, Except.ok.injEq] at hjs
    subst hjs
    rfl
  | cons n rest ih =>
    intro js hjs
    rw [encodeLeaves_cons] at hjs
    cases hn : encodeLeaf toLower n with
    | error e => simp [hn] at hjs
    | ok x =>
      cases hr : encodeLeaves toLower rest with
      | error e => simp [hn, hr] at hjs
      | ok xs =>
        simp only [hn, hr, Except.ok.injEq] at hjs
        subst hjs
        rw [orderedLeaves_cons, Bool.and_eq_true]
        exact ⟨h n (List.mem_cons_self _ _) x hn,
          ih (fun m hm => h m (List.mem_cons_of_mem _ hm)) xs hr⟩

/-- The wrapper of a document is in order at every depth. -/
theorem encodeWrapped_ordered (toLower : String → String) :
    ∀ (d : QueryDoc) (j : Json), encodeWrapped toLower d = .ok j →
      orderedWrapped d j = true := by
  suffices H : ∀ k (d : QueryDoc), sizeOf d ≤ k → ∀ j, encodeWrapped toLower d = .ok j →
      orderedWrapped d j = true from fun d => H (sizeOf d) d le_rfl
  intro k
  induction k with
  | zero =>
    intro d hd
    obtain ⟨i, sz, fr, so, sa, a, nn, o, f, ps, tth, msm, ta, ca, src⟩ := d
    simp only [QueryDocOf.mk.sizeOf_spec] at hd
    omega
  | succ k ih =>
    intro d hd j hj
    have hleaf : ∀ n ∈ clauseItems d, ∀ x, encodeLeaf toLower n = .ok x →
        orderedLeaf n x = true := by
      intro n hn x hx
      have hinner : ∀ inner, n.Value = .doc inner →
          ∀ y, encodeWrapped toLower inner = .ok y → orderedWrapped inner y = true := by
        intro inner hv y hy
        have hlt := sizeOf_inner_lt d n inner hn hv
        exact ih inner (by omega) y hy
      obtain ⟨f, v, t⟩ := n
      rw [encodeLeaf_unfold] at hx
      rw [orderedLeaf_unfold]
      split_ifs at hx ⊢ with ht
      · rcases v with x0 | inner
        · cases hx
        · exact hinner inner rfl x hx
      · cases hst : QueryType.String t with
        | error e => simp [hst] at hx
        | ok tok =>
          simp only [hst] at hx
          refine handleMarshalType_leafShape toLower ⟨t, f, v⟩ tok _
            (QueryType_String_ne_bool t tok hst) ?_ x hx
          intro w hw
          rcases v with x0 | inner
          · simp only [encodeValue, Except.ok.injEq] at hw
            subst hw
            exact Data_marshal_allObjects keysAscending (fun _ hk => hk) _
          · simp only [encodeValue] at hw
            obtain ⟨aggs, q, -, hq, rfl⟩ := marshalRequest_ok inner _ w hw
            exact requestShape_reqDocMembers _ _ q (hinner inner rfl q hq)
    obtain ⟨must, mustNot, should, filters, h1, h2, h3, h4, rfl⟩ :=
      encodeWrapped_ok_form toLower d j hj
    have hbucket : ∀ (l : List QueryItem) (js : List Json), (∀ n ∈ l, n ∈ clauseItems d) →
        encodeLeaves toLower l = .ok js → orderedLeaves l js = true := by
      intro l js hsub hl
      exact orderedLeaves_of_leaf toLower l (fun n hn => hleaf n (hsub n hn)) js hl
    rw [orderedWrapped_unfold]
    apply wrapperShape_boolMembers
    · exact hbucket _ _ (fun n hn => by simp [clauseItems, hn]) h1
    · exact hbucket _ _ (fun n hn => by simp [clauseItems, hn]) h2
    · exact hbucket _ _ (fun n hn => by simp [clauseItems, hn]) h3
    · exact hbucket _ _ (fun n hn => by simp [clauseItems, hn]) h4


/-- C16, as the code has it: in the encoding of a QueryDoc that encodes successfully, the keys of
every JSON object, at every nesting level, are in alphabetical order, except in the objects
written from structs: a request object has its keys in the field order `aggregations`, `query`,
`size`, `from`, `sort`, `search_after`, `track_total_hits`, `_source`, and a `bool` object in
the field order `must`, `must_not`, `should`, `filter`, `minimum_should_match`. The request
objects are the top-level object and the encoding of a QueryDoc held as the Value of an item
that is not Nested; the `bool` objects are the one under `query` of a request object and the one
in the leaf of a Nested item. Every other object is alphabetical: the leaf objects and
their bodies, the plain values in them, the Sort entries and the aggregation objects. -/
theorem key_order (toLower : String → String) (d : QueryDoc) (j : Json)
    (h : QueryDoc.MarshalJSON toLower d = .ok j) : orderedRequest d j = true := by
  rw [MarshalJSON_eq_marshalRequest] at h
  obtain ⟨aggs, q, -, hq, rfl⟩ := marshalRequest_ok d _ j h
  exact requestShape_reqDocMembers _ _ q (encodeWrapped_ordered toLower d q hq)

theorem key_order_witness :
    QueryDoc.MarshalJSON asciiLower nestedFilterDoc = .ok nestedFilterJson ∧
    orderedRequest nestedFilterDoc nestedFilterJson = true :=
  ⟨rfl, key_order asciiLower nestedFilterDoc nestedFilterJson rfl⟩

/-- The order is told apart from its neighbours. A `bool` object with sorted keys and a request
object with sorted keys are not in order. A QueryDoc held by a Match item is written in the
order of the request fields and a map with the same keys in alphabetical order: the tree that
has the map in the order of the request fields is not in order. -/
theorem orderedRequest_examples :
    orderedRequest filterQueryDoc filterQueryJson = true ∧
    orderedRequest filterQueryDoc sortedBoolJson = false ∧
    orderedRequest pagedDoc pagedJson = true ∧
    orderedRequest pagedDoc sortedRequestJson = false ∧
    QueryDoc.MarshalJSON asciiLower docValueDoc = .ok docValueJson ∧
    orderedRequest docValueDoc docValueJson = true ∧
    orderedRequest docValueDoc mapAsRequestJson = false := by
  refine ⟨by rfl, by rfl, by rfl, by rfl, rfl, by rfl, by rfl⟩

set_option maxRecDepth 8192 in
/-- C16 fails as stated: the document of `TestFilterQuery` encodes to the text that test expects,
in which the `bool` object has `must` before `filter`; and a document with a nonzero From encodes
to a request object with `size` before `from`. -/
theorem struct_keys_not_alphabetical :
    (∃ j, QueryDoc.MarshalJSON asciiLower filterQueryDoc = .ok j ∧
      j.render = "\x7b\"query\":\x7b\"bool\":\x7b\"must\":[\x7b\"match\":\x7b\"title\":\"Search\"\x7d\x7d,\x7b\"match\":\x7b\"content\":\"Elasticsearch\"\x7d\x7d],\"filter\":[\x7b\"term\":\x7b\"status\":\"published\"\x7d\x7d,\x7b\"range\":\x7b\"publish_date\":\x7b\"gte\":\"2015-01-01\"\x7d\x7d\x7d]\x7d\x7d,\"size\":20\x7d" ∧
      j.allObjects keysAscending = false) ∧
    (∃ j, QueryDoc.MarshalJSON asciiLower pagedDoc = .ok j ∧
      j.render = "\x7b\"query\":\x7b\"bool\":\x7b\"must\":[\x7b\"match\":\x7b\"title\":\"Search\"\x7d\x7d]\x7d\x7d,\"size\":10,\"from\":10\x7d" ∧
      j.allObjects keysAscending = false) := by
  refine ⟨⟨filterQueryJson, rfl, by rfl, by rfl⟩, ⟨pagedJson, rfl, by rfl, by rfl⟩⟩

end esquerydsl
